import Mathlib

/-!
# B+ tree file (BTreeFile / BTreeNode / BlockBuffer / BTreeIndexBuffer / RecordBuffer)

A shallow embedding of the C++ sources.  Every byte string is a `List Char`, every C++ `int`
is an `Int`, a run that the C++ program does not survive (uncaught exception, null pointer,
use of an object outside its bounds) is a `Fault`.  The bytes of a stream are held as a list
of runs (`Piece`), `Stream.data` is their concatenation.

Three values are not fixed by the sources and are taken from an `Env`:
the content of an `int` member that no constructor initialises, the value that
`BlockBuffer::removeRecord` hands back (it has no `return` statement), and the byte that lies
right behind a `std::vector<char>` of `blockSize` bytes.
-/

namespace BTree

/-- Ways in which a run of the program ends abnormally. -/
inductive Fault
  /-- an uncaught C++ exception (`std::stoi`, `std::string::substr`, `std::vector::resize`) -/
  | exception
  /-- a member function called through a null `BTreeNode*` -/
  | nullDeref
  /-- an element read outside a container, or uninitialised characters handed to `std::stoi` -/
  | undefined
  /-- the iteration budget given to a traversal loop of the model is used up -/
  | fuel
deriving DecidableEq, Repr

deriving instance DecidableEq for Except

abbrev Run := Except Fault

abbrev Bytes := List Char

/-- Values the sources leave unspecified. -/
structure Env where
  /-- content of `BTreeNode::numKeys` and `BTreeNode::curRBN` right after construction -/
  uninitInt : Int
  /-- value handed back by `BlockBuffer::removeRecord`, which has no `return` statement -/
  removeRecordRet : Int
  /-- byte behind the `blockSize` bytes of the local `buf` in the two `read` functions -/
  oobByte : Char
deriving DecidableEq, Repr

/-! ## C++ library functions -/

/-- `std::isspace` in the "C" locale. -/
def isspace (c : Char) : Bool :=
  c = ' ' || c = '\n' || c = '\t' || c = '\r' || c.toNat = 11 || c.toNat = 12

/-- `std::to_string(int)`. -/
def to_string : Int → Bytes
  | Int.ofNat n => Nat.toDigits 10 n
  | Int.negSucc n => '-' :: Nat.toDigits 10 (n + 1)

/-- Value of a run of decimal digits, most significant first. -/
def digitsValue (ds : Bytes) : Nat :=
  ds.foldl (fun acc c => 10 * acc + (c.toNat - 48)) 0

/-- `std::stoi(s)`: leading white space is skipped, an optional sign and the longest run of
digits are read; `none` stands for the exception thrown when there is no digit or the value
does not fit an `int`. -/
def stoi (s : Bytes) : Option Int :=
  let t := s.dropWhile isspace
  let (neg, u) :=
    match t with
    | '-' :: r => (true, r)
    | '+' :: r => (false, r)
    | _ => (false, t)
  let ds := u.takeWhile Char.isDigit
  if ds.isEmpty then none
  else
    let v : Int := if neg then -(digitsValue ds : Int) else (digitsValue ds : Int)
    if v < -2147483648 ∨ 2147483647 < v then none else some v

/-- `std::stoi` where the exception is not caught. -/
def stoiThrow (s : Bytes) : Run Int :=
  match stoi s with
  | some v => .ok v
  | none => .error .exception

/-- `s.find_first_of(c)` stored in an `int`: the index of the first `c`, `-1` for `npos`. -/
def findFirstOf (s : Bytes) (c : Char) : Int :=
  if s.indexOf c < s.length then (s.indexOf c : Int) else -1

/-- Text up to the first `d` and the text behind that `d`, as `std::getline(stream, item, d)`
leaves them. -/
def getlineSplit (s : Bytes) (d : Char) : Bytes × Bytes :=
  (s.takeWhile (fun c => c != d), (s.dropWhile (fun c => c != d)).drop 1)

/-- `s.erase(0, n)` for an `int n` (a negative `n` becomes a huge `size_t`). -/
def eraseFront (s : Bytes) (n : Int) : Bytes :=
  if n < 0 then [] else s.drop n.toNat

/-! ## Streams -/

/-- A run of consecutive bytes of a stream, with its length.  The content of a stream is kept
as a list of such runs (every block written is one), so that a block is reached by adding
up lengths; what the stream holds is the concatenation `Stream.data`. -/
structure Piece where
  len : Nat
  bytes : Bytes
deriving DecidableEq, Repr

/-- Up to `n` bytes of the pieces from offset `pos` on: `(data.drop pos).take n`. -/
def slice : List Piece → Nat → Nat → Bytes
  | [], _, _ => []
  | p :: ps, pos, n =>
    if p.len ≤ pos then slice ps (pos - p.len) n
    else if pos = 0 ∧ n = p.len then p.bytes
    else if n ≤ p.len - pos then (p.bytes.drop pos).take n
    else p.bytes.drop pos ++ slice ps 0 (n - (p.len - pos))

/-- The pieces in front of offset `pos`: `data.take pos`; a gap up to `pos` behind the last
piece is filled with zero bytes. -/
def piecesBefore : List Piece → Nat → List Piece
  | [], pos => if pos = 0 then [] else [⟨pos, List.replicate pos '\x00'⟩]
  | p :: ps, pos =>
    if pos = 0 then []
    else if p.len ≤ pos then p :: piecesBefore ps (pos - p.len)
    else [⟨pos, p.bytes.take pos⟩]

/-- The pieces from offset `pos` on: `data.drop pos`. -/
def piecesFrom : List Piece → Nat → List Piece
  | [], _ => []
  | p :: ps, pos =>
    if pos = 0 then p :: ps
    else if p.len ≤ pos then piecesFrom ps (pos - p.len)
    else ⟨p.len - pos, p.bytes.drop pos⟩ :: ps

/-- Every piece carries the length of its bytes. -/
def wellFormed (ps : List Piece) : Prop := ∀ p ∈ ps, p.bytes.length = p.len

/-- A `std::fstream` on the tree file, or a `std::stringstream` being read: content (as
consecutive pieces), the file position and whether `failbit` is set. -/
structure Stream where
  pieces : List Piece
  pos : Nat
  failed : Bool
deriving DecidableEq, Repr

namespace Stream

/-- A stream over the text `bs`. -/
def ofBytes (bs : Bytes) (pos : Nat) : Stream := ⟨[⟨bs.length, bs⟩], pos, false⟩

/-- Number of bytes in the stream. -/
def size (s : Stream) : Nat := (s.pieces.map Piece.len).sum

/-- The bytes of the stream. -/
def data (s : Stream) : Bytes := s.pieces.flatMap Piece.bytes

/-- `stream.clear()`. -/
def clear (s : Stream) : Stream := { s with failed := false }

/-- `stream.seekg(off)` / `stream.seekp(off)`: nothing happens on a failed stream, a negative
offset sets `failbit`. -/
def seek (s : Stream) (off : Int) : Stream :=
  if s.failed then s
  else if off < 0 then { s with failed := true }
  else { s with pos := off.toNat }

/-- `stream.tellg()` / `stream.tellp()` stored in an `int`. -/
def tell (s : Stream) : Int := if s.failed then -1 else (s.pos : Int)

/-- `stream.read(p, n)` into memory that holds `fill` before the call: the `n` bytes found in
that memory afterwards, how many of them were read, and the stream. -/
def read (s : Stream) (n : Nat) (fill : Char) : Bytes × Nat × Stream :=
  if s.failed then (List.replicate n fill, 0, s)
  else
    let got := min n (s.size - s.pos)
    (if got = n then slice s.pieces s.pos n
      else slice s.pieces s.pos n ++ List.replicate (n - got) fill,
     got, { s with pos := s.pos + got, failed := decide (got < n) })

/-- `stream.write(p, n)` on the file: nothing on a failed stream; a gap between the end of
the file and the position is filled with zero bytes. -/
def write (s : Stream) (bs : Bytes) : Stream :=
  if s.failed then s
  else
    { s with
      pieces := piecesBefore s.pieces s.pos ++
        (⟨bs.length, bs⟩ :: piecesFrom s.pieces (s.pos + bs.length)),
      pos := s.pos + bs.length }

end Stream

/-! ## RecordBuffer -/

structure RecordBuffer where
  buffer : Bytes := []
  maxBufferSize : Int := 1000
  nextByte : Int := 0
  deliminator : Char := ','
deriving DecidableEq, Repr

namespace RecordBuffer

def clear (r : RecordBuffer) : RecordBuffer := { r with buffer := [], nextByte := 0 }

/-- `RecordBuffer::read(stream, recaddr)`: return value, record buffer, stream. -/
def read (r : RecordBuffer) (stream : Stream) (recaddr : Int) :
    Run (Int × RecordBuffer × Stream) :=
  let s1 := if recaddr != -1 then stream.clear.seek recaddr else stream
  if recaddr != -1 ∧ s1.tell != recaddr then .ok (-1, r, s1)
  else if s1.failed then .ok (-1, r, s1)
  else
    let addr := s1.tell
    let r1 := r.clear
    let (rsz, got, s2) := s1.read 2 '\x00'
    if got < 2 then .error .undefined
    else
      match stoi rsz with
      | none => .ok (-1, r1, s2)
      | some recordSize =>
        if recordSize > r1.maxBufferSize then .ok (-1, r1, s2)
        else if recordSize < 0 then .error .exception
        else
          let (content, _, s3) := s2.read recordSize.toNat '\x00'
          .ok (addr, { r1 with buffer := content }, s3)

/-- `RecordBuffer::write(stream)` on a string stream whose put position is its end
(`recaddr = -1`): return value and the text of the stream afterwards. -/
def write (r : RecordBuffer) (out : Bytes) : Int × Bytes :=
  ((out.length : Int), out ++ (to_string (r.buffer.length : Int) ++ r.buffer))

/-- `RecordBuffer::pack(field)`. -/
def pack (r : RecordBuffer) (field : Bytes) : Int × RecordBuffer :=
  if ((r.buffer.length + field.length : Nat) : Int) > r.maxBufferSize then (-1, r)
  else ((field.length : Int), { r with buffer := r.buffer ++ (field ++ [r.deliminator]) })

def getBufferSize (r : RecordBuffer) : Int :=
  ((r.buffer.length + (to_string (r.buffer.length : Int)).length : Nat) : Int)

/-- `RecordBuffer::getRecordKey()`; `std::stoi` may throw. -/
def getRecordKey (r : RecordBuffer) : Run Int :=
  stoiThrow (r.buffer.takeWhile (fun c => c != r.deliminator))

end RecordBuffer

/-! ## BlockBuffer (leaf blocks) -/

structure BlockBuffer where
  buffer : Bytes := []
  blockSize : Int := 512
  minimumBlockCapacity : Int := 256
  numRecords : Int := 0
  prevRBN : Int := 0
  nextRBN : Int := 0
  curRBN : Int := 0
deriving DecidableEq, Repr

/-- Number of bytes of `buf` up to and including its last byte that is not white space
(`std::find_if_not` over `rbegin .. rend`, then `.base()`). -/
def strippedLength (buf : Bytes) : Nat :=
  (buf.reverse.dropWhile isspace).length

namespace BlockBuffer

def clear (b : BlockBuffer) : BlockBuffer := { b with buffer := [] }

/-- The line `numRecords,prevRBN,nextRBN` followed by `endl`. -/
def metadata (b : BlockBuffer) : Bytes :=
  to_string b.numRecords ++ (',' :: (to_string b.prevRBN ++ (',' :: (to_string b.nextRBN ++ ['\n']))))

/-- The text of the buffer behind its metadata line (`if (pos > 0) buf = buf.substr(pos+1)`). -/
def payload (b : BlockBuffer) : Bytes :=
  if findFirstOf b.buffer '\n' > 0 then b.buffer.drop ((findFirstOf b.buffer '\n').toNat + 1)
  else b.buffer

/-- `BlockBuffer::read(stream, headerRecordSize, blockNumber)`. -/
def read (env : Env) (b : BlockBuffer) (stream : Stream) (headerRecordSize blockNumber : Int) :
    Run (Int × BlockBuffer × Stream) :=
  let s1 := if blockNumber != -1
    then stream.clear.seek ((blockNumber - 1) * b.blockSize + headerRecordSize) else stream
  if s1.failed then .ok (-1, b, s1)
  else
    let addr := s1.tell
    let b1 := { b with curRBN := Int.tdiv (addr + b.blockSize - headerRecordSize) b.blockSize,
                       buffer := [] }
    let (buf, _, s2) := s1.read b.blockSize.toNat '\x00'
    if buf.head? = some '\x00' then .ok (-1, b1, s2)
    else
      let text := (buf ++ [env.oobByte]).take (strippedLength buf + 1)
      let (f1, rest1) := getlineSplit text ','
      let (f2, rest2) := getlineSplit rest1 ','
      let (f3, _) := getlineSplit rest2 '\n'
      do
        let n ← stoiThrow f1
        let p ← stoiThrow f2
        let x ← stoiThrow f3
        pure (addr, { b1 with buffer := text, numRecords := n, prevRBN := p, nextRBN := x }, s2)

/-- The `blockSize` bytes that `BlockBuffer::write` puts on the stream. -/
def image (b : BlockBuffer) : Bytes :=
  let str := b.metadata ++ b.payload
  let remainingSpace : Int := b.blockSize - str.length
  if remainingSpace > 0
  then str ++ (List.replicate (remainingSpace.toNat - 1) ' ' ++ ['\n'])
  else str.take b.blockSize.toNat

/-- `BlockBuffer::write(stream, headerRecordSize, blockNumber)`. -/
def write (b : BlockBuffer) (stream : Stream) (headerRecordSize blockNumber : Int) :
    Int × BlockBuffer × Stream :=
  let s1 := if blockNumber != -1
    then stream.seek ((blockNumber - 1) * b.blockSize + headerRecordSize) else stream
  let addr := s1.tell
  let b1 := { b with curRBN := Int.tdiv (addr + b.blockSize - headerRecordSize) b.blockSize }
  let s2 := s1.write b1.image
  if s2.failed then (-1, b1, s2) else (addr, b1, s2)

/-- `BlockBuffer::unpack(rBuf)`. -/
def unpack (b : BlockBuffer) (rBuf : RecordBuffer) : Run (Int × BlockBuffer × RecordBuffer) :=
  if b.numRecords - 1 < 0 then .ok (-1, { b with numRecords := 0 }, rBuf)
  else
    let b1 := { b with numRecords := b.numRecords - 1 }
    let pos := findFirstOf b1.buffer '\n'
    let buf := b1.payload
    do
      let (recordAddr, r1, s1) ← rBuf.read (Stream.ofBytes b1.buffer (pos + 1).toNat) (-1)
      let curAddr := s1.tell
      let buf := eraseFront buf (curAddr - recordAddr)
      pure (recordAddr, { b1 with buffer := b1.metadata ++ buf }, r1)

/-- `BlockBuffer::pack(rBuf)`. -/
def pack (b : BlockBuffer) (rBuf : RecordBuffer) : Int × BlockBuffer :=
  let b1 := { b with numRecords := b.numRecords + 1 }
  let (addr, out) := rBuf.write (b1.metadata ++ b.payload)
  (addr, { b1 with buffer := out })

def isOverFilled (b : BlockBuffer) : Bool := decide ((b.buffer.length : Int) > b.blockSize)

def isUnderFilled (b : BlockBuffer) : Bool :=
  decide ((b.buffer.length : Int) < b.minimumBlockCapacity)

/-- The loop `while (src.unpack(rBuf) != -1) dst.pack(rBuf);` of `splitBuffer`. -/
def moveAll : Nat → BlockBuffer → BlockBuffer → RecordBuffer →
    Run (BlockBuffer × BlockBuffer × RecordBuffer)
  | 0, _, _, _ => .error .fuel
  | fuel + 1, src, dst, rBuf => do
    let (ret, src1, r1) ← src.unpack rBuf
    if ret = -1 then pure (src1, dst, r1)
    else moveAll fuel src1 (dst.pack r1).2 r1

/-- The `for` loop of `splitBuffer`: record number `i` goes to `tmp1` while
`i < recordsToMove`, to `tmp2` afterwards. -/
def distribute (recordsToMove : Int) : Nat → Int → BlockBuffer → BlockBuffer → BlockBuffer →
    RecordBuffer → Run (BlockBuffer × BlockBuffer × BlockBuffer × RecordBuffer)
  | 0, _, b, tmp1, tmp2, rBuf => .ok (b, tmp1, tmp2, rBuf)
  | n + 1, i, b, tmp1, tmp2, rBuf => do
    let (_, b1, r1) ← b.unpack rBuf
    if i < recordsToMove then distribute recordsToMove n (i + 1) b1 (tmp1.pack r1).2 tmp2 r1
    else distribute recordsToMove n (i + 1) b1 tmp1 (tmp2.pack r1).2 r1

/-- `BlockBuffer::splitBuffer(newBlockBuffer)`: this buffer and the new one afterwards. -/
def splitBuffer (b newBlockBuffer : BlockBuffer) : Run (BlockBuffer × BlockBuffer) := do
  let recordsToMove := Int.tdiv b.numRecords 2
  let (b1, tmp1, tmp2, rBuf) ←
    distribute recordsToMove b.numRecords.toNat 0 b {} {} {}
  let b2 := b1.clear
  let (_, b3, rBuf) ← moveAll (tmp1.numRecords.toNat + 1) tmp1 b2 rBuf
  let (_, nb, _) ← moveAll (tmp2.numRecords.toNat + 1) tmp2 newBlockBuffer rBuf
  pure (b3, nb)

/-- The `for` loop of `BlockBuffer::mergeBuffer`. -/
def mergeLoop : Nat → BlockBuffer → BlockBuffer → Run (BlockBuffer × BlockBuffer)
  | 0, b, other => .ok (b, other)
  | n + 1, b, other => do
    let (_, other1, r1) ← other.unpack {}
    mergeLoop n (b.pack r1).2 other1

/-- `BlockBuffer::mergeBuffer(newBlockBuffer)`: this buffer and the argument afterwards. -/
def mergeBuffer (b newBlockBuffer : BlockBuffer) : Run (BlockBuffer × BlockBuffer) :=
  mergeLoop newBlockBuffer.numRecords.toNat b newBlockBuffer

/-- The loop of `getLargestKey` over the copy `tmpBuffer`. -/
def largestLoop : Nat → BlockBuffer → RecordBuffer → Int → Run Int
  | 0, _, _, _ => .error .fuel
  | fuel + 1, tmp, rbuf, largestKey => do
    let (ret, tmp1, r1) ← tmp.unpack rbuf
    if ret = -1 then pure largestKey
    else
      let key ← r1.getRecordKey
      largestLoop fuel tmp1 r1 (if key > largestKey then key else largestKey)

/-- `BlockBuffer::getLargestKey()`. -/
def getLargestKey (env : Env) (b : BlockBuffer) : Run Int := do
  let (_, tmp, _) ← read env {} (Stream.ofBytes b.buffer 0) 0 (-1)
  largestLoop (tmp.numRecords.toNat + 1) tmp {} (-1)

/-- The loop `while (unpack(recordBuffer) != -1) recordBuffers.push_back(recordBuffer);`. -/
def unpackAll : Nat → BlockBuffer → RecordBuffer → List RecordBuffer →
    Run (BlockBuffer × RecordBuffer × List RecordBuffer)
  | 0, _, _, _ => .error .fuel
  | fuel + 1, b, rBuf, acc => do
    let (ret, b1, r1) ← b.unpack rBuf
    if ret = -1 then pure (b1, r1, acc)
    else unpackAll fuel b1 r1 (acc ++ [r1])

/-- Every record with the key `getRecordKey` reads from it. -/
def withKeys : List RecordBuffer → Run (List (Int × RecordBuffer))
  | [] => .ok []
  | r :: rs => do
    let k ← r.getRecordKey
    let ks ← withKeys rs
    pure ((k, r) :: ks)

/-- `std::sort` by `getRecordKey`; the comparator is not called on fewer than two records.
Records with equal keys keep their order here (the library leaves their order open). -/
def sortRecords (rs : List RecordBuffer) : Run (List RecordBuffer) :=
  if rs.length < 2 then .ok rs
  else do
    let ks ← withKeys rs
    pure ((ks.insertionSort (fun a b => a.1 ≤ b.1)).map Prod.snd)

/-- The loop `for (auto rBuf : recordBuffers) pack(rBuf);`. -/
def packAll (b : BlockBuffer) (rs : List RecordBuffer) : BlockBuffer :=
  rs.foldl (fun acc r => (acc.pack r).2) b

/-- `BlockBuffer::sortBuffer()`. -/
def sortBuffer (b : BlockBuffer) : Run (Int × BlockBuffer) := do
  let (b1, _, recordBuffers) ← unpackAll (b.numRecords.toNat + 1) b {} []
  let sorted ← sortRecords recordBuffers
  pure (0, packAll b1.clear sorted)

/-- The loop of `BlockBuffer::removeRecord`. -/
def unpackKeep (key : Int) : Nat → BlockBuffer → RecordBuffer → List RecordBuffer →
    Run (BlockBuffer × RecordBuffer × List RecordBuffer)
  | 0, _, _, _ => .error .fuel
  | fuel + 1, b, rBuf, acc => do
    let (ret, b1, r1) ← b.unpack rBuf
    if ret = -1 then pure (b1, r1, acc)
    else
      let k ← r1.getRecordKey
      unpackKeep key fuel b1 r1 (if k != key then acc ++ [r1] else acc)

/-- `BlockBuffer::removeRecord(key)`; the value handed back is `env.removeRecordRet`. -/
def removeRecord (env : Env) (b : BlockBuffer) (key : Int) : Run (Int × BlockBuffer) := do
  let (b1, _, recordBuffers) ← unpackKeep key (b.numRecords.toNat + 1) b {} []
  pure (env.removeRecordRet, packAll b1.clear recordBuffers)

end BlockBuffer

/-! ## BTreeIndexBuffer (index blocks) -/

structure BTreeIndexBuffer where
  buffer : Bytes := []
  blockSize : Int := 512
  minimumBlockCapacity : Int := 256
deriving DecidableEq, Repr

/-- The items that the loop `while (std::getline(ss, item, d))` produces: `cur` holds the
characters of the item being read, in reverse. -/
def getlineItems (d : Char) : Bytes → Bytes → List Bytes
  | [], cur => if cur.isEmpty then [] else [cur.reverse]
  | c :: cs, cur => if c = d then cur.reverse :: getlineItems d cs [] else getlineItems d cs (c :: cur)

/-- The lambda `splitAndConvertToInt` of `BTreeIndexBuffer::unpack`. -/
def splitAndConvertToInt (str : Bytes) (delimiter : Char) : Run (List Int) :=
  (getlineItems delimiter str []).mapM stoiThrow

/-- The loops of `BTreeIndexBuffer::pack` that join numbers with commas. -/
def joinInts : List Int → Bytes
  | [] => []
  | [x] => to_string x
  | x :: y :: rest => to_string x ++ (',' :: joinInts (y :: rest))

namespace BTreeIndexBuffer

def clear (b : BTreeIndexBuffer) : BTreeIndexBuffer := { b with buffer := [] }

/-- `BTreeIndexBuffer::read(stream, headerRecordSize, blockNumber)`. -/
def read (env : Env) (b : BTreeIndexBuffer) (stream : Stream) (headerRecordSize blockNumber : Int) :
    Int × BTreeIndexBuffer × Stream :=
  let s1 := if blockNumber != -1
    then stream.clear.seek ((blockNumber - 1) * b.blockSize + headerRecordSize) else stream
  if s1.failed then (-1, b, s1)
  else
    let addr := s1.tell
    let b1 := b.clear
    let (buf, _, s2) := s1.read b.blockSize.toNat '\x00'
    if buf.head? != some 'I' then (-1, b1, s2)
    else (addr, { b1 with buffer := (buf ++ [env.oobByte]).take (strippedLength buf + 1) }, s2)

/-- The `blockSize` bytes that `BTreeIndexBuffer::write` puts on the stream. -/
def image (b : BTreeIndexBuffer) : Bytes :=
  let str := 'I' :: '\n' :: b.buffer
  let remainingSpace : Int := b.blockSize - str.length
  if remainingSpace > 0
  then str ++ (List.replicate (remainingSpace.toNat - 1) ' ' ++ ['\n'])
  else str.take b.blockSize.toNat

/-- `BTreeIndexBuffer::write(stream, headerRecordSize, blockNumber)`. -/
def write (b : BTreeIndexBuffer) (stream : Stream) (headerRecordSize blockNumber : Int) :
    Int × Stream :=
  let s1 := if blockNumber != -1
    then stream.seek ((blockNumber - 1) * b.blockSize + headerRecordSize) else stream
  let addr := s1.tell
  let s2 := s1.write b.image
  if s2.failed then (-1, s2) else (addr, s2)

/-- `BTreeIndexBuffer::unpack(separators, RBNs)`: `none` when there is no semicolon (the
function returns -1 and leaves both vectors alone), otherwise the two vectors. -/
def unpack (b : BTreeIndexBuffer) : Run (Option (List Int × List Int)) :=
  let buf := b.buffer
  let semicolonPos := buf.indexOf ';'
  if semicolonPos ≥ buf.length then .ok none
  else if buf.length < 2 then .error .exception
  else do
    let separators ← splitAndConvertToInt ((buf.drop 2).take semicolonPos) ','
    let RBNs ← splitAndConvertToInt (buf.drop (semicolonPos + 1)) ','
    pure (some (separators, RBNs))

/-- `BTreeIndexBuffer::pack(seperators, RBNs)`. -/
def pack (b : BTreeIndexBuffer) (seperators RBNs : List Int) : Int × BTreeIndexBuffer :=
  let buf := joinInts seperators ++ (';' :: (joinInts RBNs ++ ['\n']))
  if ((b.buffer.length + buf.length : Nat) : Int) ≤ b.blockSize
  then (0, { b with buffer := b.buffer ++ buf }) else (-1, b)

end BTreeIndexBuffer

/-! ## BTreeNode -/

structure BTreeNode where
  blockBuffer : BlockBuffer
  bTreeIndexBuffer : BTreeIndexBuffer
  curRBN : Int
  maxKeys : Int
  minKeys : Int
  numKeys : Int
  isLeaf : Bool
  keys : List Int
  children : List Int
deriving DecidableEq, Repr

/-- `keys.insert(keys.begin() + i, x)`; an iterator behind `end()` is undefined. -/
def vecInsert (v : List Int) (i : Nat) (x : Int) : Run (List Int) :=
  if i ≤ v.length then .ok (v.take i ++ x :: v.drop i) else .error .undefined

/-- `v[i]` of a `std::vector<int>`; an index outside the vector is undefined. -/
def vecGet (v : List Int) (i : Nat) : Run Int :=
  match v.get? i with
  | some x => .ok x
  | none => .error .undefined

/-- `std::lower_bound(keys.begin(), keys.end(), key) - keys.begin()` on ascending keys. -/
def lowerBound (keys : List Int) (key : Int) : Nat :=
  (keys.takeWhile (fun k => decide (k < key))).length

namespace BTreeNode

/-- `BTreeNode::BTreeNode(maxKeys)`: `curRBN` and `numKeys` are not initialised. -/
def new (env : Env) (maxKeys : Int) : BTreeNode :=
  { blockBuffer := {}, bTreeIndexBuffer := {}, curRBN := env.uninitInt, maxKeys := maxKeys,
    minKeys := Int.tdiv maxKeys 2, numKeys := env.uninitInt, isLeaf := true,
    keys := [], children := [] }

/-- `BTreeNode::read(stream, headerRecordSize, RBN)`. -/
def read (env : Env) (n : BTreeNode) (stream : Stream) (headerRecordSize RBN : Int) :
    Run (Int × BTreeNode × Stream) :=
  let (addr, ib, s1) := n.bTreeIndexBuffer.read env stream headerRecordSize RBN
  if addr != -1 then
    if headerRecordSize = 0 then .error .undefined
    else do
      let n1 := { n with bTreeIndexBuffer := ib, curRBN := Int.tdiv addr headerRecordSize }
      let r ← ib.unpack
      let n2 := match r with
        | some (ks, cs) => { n1 with keys := ks, children := cs }
        | none => n1
      pure (addr, { n2 with numKeys := n2.keys.length, isLeaf := false }, s1)
  else do
    let (ret, bb, s2) ← n.blockBuffer.read env s1 headerRecordSize RBN
    pure (ret, { n with bTreeIndexBuffer := ib, blockBuffer := bb }, s2)

/-- `BTreeNode::write(stream, headerRecordSize, RBN)`. -/
def write (n : BTreeNode) (stream : Stream) (headerRecordSize RBN : Int) :
    Run (Int × BTreeNode × Stream) :=
  if n.isLeaf then
    let (ret, bb, s1) := n.blockBuffer.write stream headerRecordSize RBN
    .ok (ret, { n with blockBuffer := bb }, s1)
  else
    let ib := (n.bTreeIndexBuffer.clear.pack n.keys n.children).2
    let (addr, s1) := ib.write stream headerRecordSize RBN
    if headerRecordSize = 0 then .error .undefined
    else .ok (addr, { n with bTreeIndexBuffer := ib, curRBN := Int.tdiv addr headerRecordSize }, s1)

/-- `BTreeNode::insertRecord(recordBuffer)`. -/
def insertRecord (n : BTreeNode) (recordBuffer : RecordBuffer) : Run (Int × BTreeNode) :=
  if !n.isLeaf then .ok (-1, n)
  else
    let (addr, b1) := n.blockBuffer.pack recordBuffer
    if addr = -1 then .ok (-1, { n with blockBuffer := b1 })
    else do
      let (ret, b2) ← b1.sortBuffer
      if ret = -1 ∨ b2.isOverFilled then pure (-1, { n with blockBuffer := b2 })
      else pure (0, { n with blockBuffer := b2 })

/-- `BTreeNode::removeRecord(recordBuffer)`. -/
def removeRecord (env : Env) (n : BTreeNode) (recordBuffer : RecordBuffer) :
    Run (Int × BTreeNode) :=
  if !n.isLeaf then .ok (-1, n)
  else do
    let key ← recordBuffer.getRecordKey
    let (ret, b1) ← n.blockBuffer.removeRecord env key
    if ret = -1 ∨ b1.isUnderFilled then pure (-1, { n with blockBuffer := b1 })
    else pure (0, { n with blockBuffer := b1 })

/-- The loop of `BTreeNode::retrieveRecord`. -/
def retrieveLoop (key : Int) : Nat → BlockBuffer → RecordBuffer →
    Run (Int × BlockBuffer × RecordBuffer)
  | 0, _, _ => .error .fuel
  | fuel + 1, b, recordBuffer => do
    let (ret, b1, r1) ← b.unpack recordBuffer
    if ret = -1 then pure (-1, b1, r1.clear)
    else
      let k ← r1.getRecordKey
      if k = key then pure (0, b1, r1) else retrieveLoop key fuel b1 r1

/-- `BTreeNode::retrieveRecord(recordBuffer, key)`. -/
def retrieveRecord (n : BTreeNode) (recordBuffer : RecordBuffer) (key : Int) :
    Run (Int × BTreeNode × RecordBuffer) := do
  let (ret, b1, r1) ← retrieveLoop key (n.blockBuffer.numRecords.toNat + 1) n.blockBuffer recordBuffer
  pure (ret, { n with blockBuffer := b1 }, r1)

/-- `BTreeNode::insertKeyAndChildren(key, child1, child2)`; `child2 = -1` is the default. -/
def insertKeyAndChildren (n : BTreeNode) (key child1 : Int) (child2 : Int := -1) :
    Run (Int × BTreeNode) := do
  let keyIndex := lowerBound n.keys key
  let keys ← vecInsert n.keys keyIndex key
  let children ←
    if child2 != -1 then do
      let c ← vecInsert n.children keyIndex child1
      vecInsert c (keyIndex + 1) child2
    else vecInsert n.children (keyIndex + 1) child1
  pure (0, { n with keys := keys, children := children, numKeys := n.numKeys + 1 })

/-- `BTreeNode::removeKeyAndChildren(key, child)`. -/
def removeKeyAndChildren (n : BTreeNode) (key child : Int) : Int × BTreeNode :=
  if key ∉ n.keys then (-1, n)
  else
    let n1 := { n with keys := n.keys.erase key, numKeys := n.numKeys - 1 }
    if child ∉ n1.children then (-1, n1)
    else (0, { n1 with children := n1.children.erase child })

/-- `BTreeNode::getLargestKey()`. -/
def getLargestKey (env : Env) (n : BTreeNode) : Run Int :=
  if n.isLeaf then n.blockBuffer.getLargestKey env
  else if n.keys.isEmpty then .ok (-1)
  else vecGet n.keys (n.keys.length - 1)

/-- The loop of `BTreeNode::getNextChild`, started at index `i`, with `m` rounds left. -/
def nextChildLoop (n : BTreeNode) (key : Int) : Nat → Nat → Run Int
  | 0, _ =>
    if n.children.length = 0 then .error .undefined
    else vecGet n.children (n.children.length - 1)
  | m + 1, i => do
    let k ← vecGet n.keys i
    if key ≤ k then vecGet n.children i else nextChildLoop n key m (i + 1)

/-- `BTreeNode::getNextChild(key)`. -/
def getNextChild (n : BTreeNode) (key : Int) : Run Int :=
  if n.isLeaf then .ok (-1)
  else nextChildLoop n key (n.children.length - 1) 0

/-- `BTreeNode::split(newNode)`: return value, this node, the new node. -/
def split (n newNode : BTreeNode) : Run (Int × BTreeNode × BTreeNode) :=
  if n.isLeaf then do
    let (b, nb) ← n.blockBuffer.splitBuffer newNode.blockBuffer
    pure (-1, { n with blockBuffer := b }, { newNode with blockBuffer := nb })
  else do
    let midIndex := n.keys.length / 2
    let splitKey ← vecGet n.keys midIndex
    if n.children.length < n.keys.length then .error .undefined
    else do
      let last ← vecGet n.children n.keys.length
      let newNode1 := { newNode with
        keys := newNode.keys ++ n.keys.drop (midIndex + 1),
        children := newNode.children ++
          ((n.children.take n.keys.length).drop (midIndex + 1)) ++ [last] }
      pure (splitKey,
        { n with keys := n.keys.take (midIndex + 1), children := n.children.take (midIndex + 1) },
        newNode1)

/-- `BTreeNode::merge(fromNode)`: return value, this node, `fromNode`. -/
def merge (n fromNode : BTreeNode) : Run (Int × BTreeNode × BTreeNode) :=
  if n.isLeaf then do
    let (b, fb) ← n.blockBuffer.mergeBuffer fromNode.blockBuffer
    pure (0, { n with blockBuffer := b }, { fromNode with blockBuffer := fb })
  else
    .ok (0, { n with keys := n.keys ++ fromNode.keys ++ fromNode.children }, fromNode)

def setIsLeaf (n : BTreeNode) (isL : Bool) : BTreeNode := { n with isLeaf := isL }

def getCurRBN (n : BTreeNode) : Int := if n.isLeaf then n.blockBuffer.curRBN else n.curRBN

def getPrevRBN (n : BTreeNode) : Int := if n.isLeaf then n.blockBuffer.prevRBN else -1

def setPrevRBN (n : BTreeNode) (rbn : Int) : BTreeNode :=
  if n.isLeaf then { n with blockBuffer := { n.blockBuffer with prevRBN := rbn } } else n

def getNextRBN (n : BTreeNode) : Int := if n.isLeaf then n.blockBuffer.nextRBN else -1

def setNextRBN (n : BTreeNode) (rbn : Int) : BTreeNode :=
  if n.isLeaf then { n with blockBuffer := { n.blockBuffer with nextRBN := rbn } } else n

def isOverFilled (n : BTreeNode) : Bool := decide (n.numKeys > n.maxKeys)

def isUnderFilled (n : BTreeNode) : Bool :=
  if n.isLeaf then n.blockBuffer.isUnderFilled else decide (n.numKeys < n.minKeys)

end BTreeNode

/-! ## HeaderBuffer -/

structure HeaderBuffer where
  fileType : Bytes := []
  version : Bytes := "2.0".toList
  headerRecordSize : Int := 512
  recordSizeDigits : Int := 2
  recordSizeFormat : Bytes := "ASCII".toList
  blockSize : Int := 512
  minimumBlockCapacity : Int := 256
  recordCount : Int := -1
  blockCount : Int := -1
  recordFieldCount : Int := 6
  recordFieldsType : Bytes := "STRING".toList
  recordFormat : Bytes := "ZipCode,PlaceName,State,County,Lat,Long".toList
  recordPrimaryKey : Int := 1
  rbnAvail : Int := 2
  rbnActive : Int := 1
  stale : Bytes := "true".toList
deriving DecidableEq, Repr

/-- `std::getline(stream, line)`: whether it succeeded, the line, whether the end of the
stream was hit before a newline, and the stream. -/
def streamGetline (s : Stream) : Bool × Bytes × Bool × Stream :=
  if s.failed then (false, [], false, s)
  else
    let rest := slice s.pieces s.pos (s.size - s.pos)
    let line := rest.takeWhile (fun c => c != '\n')
    if line.length < rest.length then
      (true, line, false, { s with pos := s.pos + line.length + 1 })
    else if line.isEmpty then (false, [], true, { s with pos := s.pos, failed := true })
    else (true, line, true, { s with pos := s.pos + line.length })

namespace HeaderBuffer

/-- One `KEY=VALUE` line of `readHeader`: `none` when the key is unknown; `std::stoi` may
throw. -/
def assign (h : HeaderBuffer) (key value : Bytes) : Run (Option HeaderBuffer) :=
  if key = "FILE_TYPE".toList then .ok (some { h with fileType := value })
  else if key = "VERSION".toList then .ok (some { h with version := value })
  else if key = "HEADER_RECORD_SIZE".toList then
    (stoiThrow value).map fun v => some { h with headerRecordSize := v }
  else if key = "RECORD_SIZE_DIGITS".toList then
    (stoiThrow value).map fun v => some { h with recordSizeDigits := v }
  else if key = "RECORD_SIZE_FORMAT".toList then .ok (some { h with recordSizeFormat := value })
  else if key = "BLOCK_SIZE".toList then
    (stoiThrow value).map fun v => some { h with blockSize := v }
  else if key = "MINIMUM_BLOCK_CAPACITY".toList then
    (stoiThrow value).map fun v => some { h with minimumBlockCapacity := v }
  else if key = "RECORD_COUNT".toList then
    (stoiThrow value).map fun v => some { h with recordCount := v }
  else if key = "BLOCK_COUNT".toList then
    (stoiThrow value).map fun v => some { h with blockCount := v }
  else if key = "RECORD_FIELD_COUNT".toList then
    (stoiThrow value).map fun v => some { h with recordFieldCount := v }
  else if key = "RECORD_FIELDS_TYPE".toList then .ok (some { h with recordFieldsType := value })
  else if key = "RECORD_FORMAT".toList then .ok (some { h with recordFormat := value })
  else if key = "RECORD_PRIMARY_KEY".toList then
    (stoiThrow value).map fun v => some { h with recordPrimaryKey := v }
  else if key = "RBN_AVAIL".toList then
    (stoiThrow value).map fun v => some { h with rbnAvail := v }
  else if key = "RBN_ACTIVE".toList then
    (stoiThrow value).map fun v => some { h with rbnActive := v }
  else if key = "STALE".toList then .ok (some { h with stale := value })
  else .ok none

/-- The loop of `HeaderBuffer::readHeader`; every round consumes a line, so the number of
bytes of the stream bounds the rounds. -/
def readLoop : Nat → HeaderBuffer → Stream → Run (Int × HeaderBuffer × Stream)
  | 0, _, _ => .error .fuel
  | fuel + 1, h, s =>
    let (ok, line, atEnd, s1) := streamGetline s
    if !ok ∨ line = "END".toList then
      -- `tellg` on a stream that hit its end sets `failbit` and yields -1
      let s2 := if atEnd then { s1 with failed := true } else s1
      .ok (s2.tell, h, s2)
    else
      let equalPos := line.indexOf '='
      if equalPos < line.length then do
        let r ← h.assign (line.take equalPos) (line.drop (equalPos + 1))
        match r with
        | some h1 => readLoop fuel h1 s1
        | none => pure (-1, h, s1)
      else .ok (-1, h, s1)

/-- `HeaderBuffer::readHeader(stream)`. -/
def readHeader (h : HeaderBuffer) (stream : Stream) : Run (Int × HeaderBuffer × Stream) :=
  readLoop (stream.size + 2) h stream

/-- One line `KEY=value` with its newline, put in front of `rest`. -/
def headerLine (key value rest : Bytes) : Bytes := key ++ ('=' :: (value ++ ('\n' :: rest)))

/-- The `KEY=VALUE` lines and the `END` line of `writeHeader`. -/
def headerLines (h : HeaderBuffer) : Bytes :=
  headerLine "FILE_TYPE".toList h.fileType <|
  headerLine "VERSION".toList h.version <|
  headerLine "HEADER_RECORD_SIZE".toList (to_string h.headerRecordSize) <|
  headerLine "RECORD_SIZE_DIGITS".toList (to_string h.recordSizeDigits) <|
  headerLine "RECORD_SIZE_FORMAT".toList h.recordSizeFormat <|
  headerLine "BLOCK_SIZE".toList (to_string h.blockSize) <|
  headerLine "MINIMUM_BLOCK_CAPACITY".toList (to_string h.minimumBlockCapacity) <|
  headerLine "RECORD_COUNT".toList (to_string h.recordCount) <|
  headerLine "BLOCK_COUNT".toList (to_string h.blockCount) <|
  headerLine "RECORD_FIELD_COUNT".toList (to_string h.recordFieldCount) <|
  headerLine "RECORD_FIELDS_TYPE".toList h.recordFieldsType <|
  headerLine "RECORD_FORMAT".toList h.recordFormat <|
  headerLine "RECORD_PRIMARY_KEY".toList (to_string h.recordPrimaryKey) <|
  headerLine "RBN_AVAIL".toList (to_string h.rbnAvail) <|
  headerLine "RBN_ACTIVE".toList (to_string h.rbnActive) <|
  headerLine "STALE".toList h.stale <|
  "END\n".toList

/-- The text `writeHeader` puts on the stream: the lines, then `remainingSpace` blanks and a
newline. -/
def image (h : HeaderBuffer) : Bytes :=
  h.headerLines ++
    (List.replicate (h.headerRecordSize - h.headerLines.length - 1).toNat ' ' ++ ['\n'])

/-- `HeaderBuffer::writeHeader(stream)`; a negative `remainingSpace` makes
`std::string(remainingSpace, ' ')` throw. -/
def writeHeader (h : HeaderBuffer) (stream : Stream) : Run (Int × Stream) :=
  let s1 := stream.seek 0
  let remainingSpace : Int := h.headerRecordSize - h.headerLines.length - 1
  if remainingSpace < 0 then .error .exception
  else .ok (h.headerRecordSize, s1.write h.image)

end HeaderBuffer

/-! ## BTreeFile -/

structure BTreeFile where
  headerBuffer : HeaderBuffer
  file : Stream
  root : BTreeNode
  order : Int
  height : Int
deriving DecidableEq, Repr

/-- A `BTreeNode*`: null, the object `root` points to, or another object on the heap. -/
inductive NodePtr
  | null
  | root
  | obj (n : BTreeNode)
deriving DecidableEq, Repr

namespace BTreeFile

/-- The node a pointer refers to. -/
def deref (t : BTreeFile) : NodePtr → Run BTreeNode
  | .null => .error .nullDeref
  | .root => .ok t.root
  | .obj n => .ok n

/-- The object a pointer refers to is replaced by `n`. -/
def store (t : BTreeFile) (p : NodePtr) (n : BTreeNode) : BTreeFile × NodePtr :=
  match p with
  | .null => (t, .null)
  | .root => ({ t with root := n }, .root)
  | .obj _ => (t, .obj n)

/-- Bound on the rounds of a loop that walks from block to block: one that goes on after
this many rounds has come back to a block it has seen and never ends. -/
def rounds (t : BTreeFile) : Nat := t.file.size + 2

/-- `p->read(file, headerBuffer.headerRecordSize, rbn)`. -/
def readAt (env : Env) (t : BTreeFile) (p : NodePtr) (rbn : Int) :
    Run (Int × BTreeFile × NodePtr) := do
  let n ← t.deref p
  let (ret, n1, f) ← n.read env t.file t.headerBuffer.headerRecordSize rbn
  let (t1, p1) := ({ t with file := f }).store p n1
  pure (ret, t1, p1)

/-- `p->write(file, headerBuffer.headerRecordSize, rbn)`. -/
def writeAt (t : BTreeFile) (p : NodePtr) (rbn : Int) : Run (Int × BTreeFile × NodePtr) := do
  let n ← t.deref p
  let (ret, n1, f) ← n.write t.file t.headerBuffer.headerRecordSize rbn
  let (t1, p1) := ({ t with file := f }).store p n1
  pure (ret, t1, p1)

/-- `BTreeFile::flushData()`: the stream is closed and opened again. -/
def flushData (t : BTreeFile) : Bool × BTreeFile :=
  (true, { t with file := { t.file with pos := 0, failed := false } })

/-- The loop of `BTreeFile::findLeafNode`. -/
def findLeafLoop (env : Env) (key : Int) : Nat → BTreeFile → NodePtr → Run (NodePtr × BTreeFile)
  | 0, _, _ => .error .fuel
  | fuel + 1, t, currentNode => do
    let c ← t.deref currentNode
    if c.isLeaf then pure (currentNode, t)
    else
      let childKey ← c.getNextChild key
      let (_, t1, newNode) ← t.readAt env (.obj (BTreeNode.new env t.order)) childKey
      findLeafLoop env key fuel t1 newNode

/-- `BTreeFile::findLeafNode(key)`. -/
def findLeafNode (env : Env) (t : BTreeFile) (key : Int) : Run (NodePtr × BTreeFile) :=
  findLeafLoop env key t.rounds t .root

/-- The loop of `BTreeFile::findParentNode`. -/
def findParentLoop (env : Env) (childNode : NodePtr) :
    Nat → BTreeFile → NodePtr → NodePtr → Run (NodePtr × BTreeFile)
  | 0, _, _, _ => .error .fuel
  | fuel + 1, t, currentNode, parentNode =>
    match currentNode with
    | .null => .ok (.null, t)
    | _ => do
      let c ← t.deref currentNode
      if c.isLeaf then pure (.null, t)
      else
        let child ← t.deref childNode
        let largest ← child.getLargestKey env
        let childRBN ← c.getNextChild largest
        if childRBN = child.getCurRBN then
          pure (if parentNode = .null then .root else currentNode, t)
        else
          let (_, t1, next) ← t.readAt env (.obj (BTreeNode.new env t.order)) childRBN
          findParentLoop env childNode fuel t1 next currentNode

/-- `BTreeFile::findParentNode(childNode)`. -/
def findParentNode (env : Env) (t : BTreeFile) (childNode : NodePtr) :
    Run (NodePtr × BTreeFile) :=
  findParentLoop env childNode t.rounds t .root .null

/-- `BTreeFile::handleRootSplit(largestKey, leaf, newLeaf)`. -/
def handleRootSplit (env : Env) (t : BTreeFile) (largestKey : Int) (leaf newLeaf : NodePtr) :
    Run BTreeFile := do
  let (_, newRoot) ← (BTreeNode.new env t.order).insertKeyAndChildren largestKey
    t.headerBuffer.rbnAvail (t.headerBuffer.rbnAvail + 1)
  let l ← t.deref leaf
  let (t, leaf) := t.store leaf (l.setNextRBN (t.headerBuffer.rbnAvail + 1))
  let (_, t, leaf) ← t.writeAt leaf t.headerBuffer.rbnAvail
  let t := { t with headerBuffer := { t.headerBuffer with rbnAvail := t.headerBuffer.rbnAvail + 1 } }
  let l ← t.deref leaf
  let nl ← t.deref newLeaf
  let (t, newLeaf) := t.store newLeaf (nl.setPrevRBN l.getCurRBN)
  let (_, t, _) ← t.writeAt newLeaf t.headerBuffer.rbnAvail
  let t := { t with headerBuffer := { t.headerBuffer with rbnAvail := t.headerBuffer.rbnAvail + 1 } }
  let t := { t with root := newRoot.setIsLeaf false }
  let (_, t, _) ← t.writeAt .root 1
  pure { t with height := t.height + 1 }

/-- `BTreeFile::handleNonRootSplit(largestKey, leaf, newLeaf)`; the first argument bounds the
depth of the recursion. -/
def handleNonRootSplit (env : Env) : Nat → BTreeFile → Int → NodePtr → NodePtr → Run BTreeFile
  | 0, _, _, _, _ => .error .fuel
  | fuel + 1, t, largestKey, leaf, newLeaf => do
    let (parent, t) ← t.findParentNode env leaf
    if parent = .null then t.handleRootSplit env largestKey leaf newLeaf
    else
      -- parent->insertKeyAndChildren(largestKey, headerBuffer.rbnAvail)
      let pn ← t.deref parent
      let (_, pn) ← pn.insertKeyAndChildren largestKey t.headerBuffer.rbnAvail
      let (t, parent) := t.store parent pn
      -- write the split leaf
      let l ← t.deref leaf
      let nl ← t.deref newLeaf
      let (t, newLeaf) := t.store newLeaf (nl.setNextRBN l.getNextRBN)
      let l ← t.deref leaf
      let (t, leaf) := t.store leaf (l.setNextRBN t.headerBuffer.rbnAvail)
      let l ← t.deref leaf
      let (_, t, leaf) ← t.writeAt leaf l.getCurRBN
      -- write the new leaf
      let l ← t.deref leaf
      let nl ← t.deref newLeaf
      let (t, newLeaf) := t.store newLeaf (nl.setPrevRBN l.getCurRBN)
      let (_, t, newLeaf) ← t.writeAt newLeaf t.headerBuffer.rbnAvail
      let t := { t with headerBuffer := { t.headerBuffer with rbnAvail := t.headerBuffer.rbnAvail + 1 } }
      -- set the prev RBN of the next node of the new node
      let nl ← t.deref newLeaf
      let t : BTreeFile ←
        if nl.getNextRBN ≠ (0 : Int) then do
          let (_, t, nextOfNewLeaf) ← t.readAt env (.obj (BTreeNode.new env t.order)) nl.getNextRBN
          let nx ← t.deref nextOfNewLeaf
          let nx := nx.setPrevRBN nl.getCurRBN
          let (_, t, _) ← t.writeAt (.obj nx) nx.getCurRBN
          pure t
        else pure t
      let pn ← t.deref parent
      if pn.isOverFilled then
        let newParentNode := (BTreeNode.new env t.order).setIsLeaf false
        let (parentSplitKey, pn, newParentNode) ← pn.split newParentNode
        let (t, parent) := t.store parent pn
        handleNonRootSplit env fuel t parentSplitKey parent (.obj newParentNode)
      else do
        let (_, t, _) ← t.writeAt parent pn.getCurRBN
        pure t

/-- `BTreeFile::insert(recordBuffer)`: the `int` made from `flushData()`, and the tree. -/
def insert (env : Env) (t : BTreeFile) (recordBuffer : RecordBuffer) : Run (Int × BTreeFile) := do
  let key ← recordBuffer.getRecordKey
  let (leaf, t) ← t.findLeafNode env key
  let l ← t.deref leaf
  let (status, l) ← l.insertRecord recordBuffer
  let (t, leaf) := t.store leaf l
  let t : BTreeFile ←
    if status = -1 then do
      let (_, l, newLeaf) ← l.split (BTreeNode.new env t.order)
      let (t, leaf) := t.store leaf l
      let largestKey ← l.getLargestKey env
      if leaf = .root then t.handleRootSplit env largestKey leaf (.obj newLeaf)
      else handleNonRootSplit env t.rounds t largestKey leaf (.obj newLeaf)
    else do
      let (_, t, _) ← t.writeAt leaf l.getCurRBN
      pure t
  let (ok, t) := t.flushData
  pure (if ok then 1 else 0, t)

/-- `BTreeFile::handleMerge(parent, leaf)`; the first argument bounds the depth of the
recursion. -/
def handleMerge (env : Env) : Nat → BTreeFile → NodePtr → NodePtr → Run BTreeFile
  | 0, _, _, _ => .error .fuel
  | fuel + 1, t, parent, leaf =>
    if parent = .null then .ok t
    else do
      let l ← t.deref leaf
      let prevRBN := l.getPrevRBN
      let nextRBN := l.getNextRBN
      let curRBN := l.getCurRBN
      let prevLeaf : NodePtr := .obj (BTreeNode.new env t.order)
      let nextLeaf : NodePtr := .obj (BTreeNode.new env t.order)
      let (t, prevLeaf) ←
        if prevRBN ≠ (0 : Int) then do
          let (_, t, p) ← t.readAt env prevLeaf prevRBN
          pure (t, p)
        else pure (t, prevLeaf)
      let (t, nextLeaf) ←
        if nextRBN ≠ (0 : Int) then do
          let (_, t, p) ← t.readAt env nextLeaf nextRBN
          pure (t, p)
        else pure (t, nextLeaf)
      let pl ← t.deref prevLeaf
      let nx ← t.deref nextLeaf
      let (t, parent) ←
        if prevRBN ≠ (0 : Int) ∧ pl.isUnderFilled = true then do
          let largestKey ← pl.getLargestKey env
          let pn ← t.deref parent
          let l ← t.deref leaf
          let (t, parent) := t.store parent (pn.removeKeyAndChildren largestKey l.getCurRBN).2
          let l ← t.deref leaf
          let (_, pl, l) ← pl.merge l
          let (t, leaf) := t.store leaf l
          -- update metadata
          let nx := nx.setNextRBN l.getNextRBN
          let l := (l.setPrevRBN 0).setNextRBN t.headerBuffer.rbnAvail
          let (t, leaf) := t.store leaf l
          let t := { t with headerBuffer := { t.headerBuffer with rbnAvail := l.getCurRBN } }
          let _ := nx
          -- write old block (now empty), merged block, parent
          let (_, t, _) ← t.writeAt leaf curRBN
          let (_, t, _) ← t.writeAt (.obj pl) prevRBN
          let pn ← t.deref parent
          let (_, t, parent) ← t.writeAt parent pn.getCurRBN
          pure (t, parent)
        else if nextRBN ≠ (0 : Int) ∧ nx.isUnderFilled = true then do
          let l ← t.deref leaf
          let largestKey ← l.getLargestKey env
          let pn ← t.deref parent
          let (t, parent) := t.store parent (pn.removeKeyAndChildren largestKey nx.getCurRBN).2
          let l ← t.deref leaf
          let (_, l, nx) ← l.merge nx
          -- update metadata
          let l := l.setNextRBN nx.getNextRBN
          let nx := (nx.setPrevRBN 0).setNextRBN t.headerBuffer.rbnAvail
          let t := { t with headerBuffer := { t.headerBuffer with rbnAvail := nx.getCurRBN } }
          let (t, leaf) := t.store leaf l
          -- write merged block, old block (now empty), parent
          let (_, t, _) ← t.writeAt leaf curRBN
          let (_, t, _) ← t.writeAt (.obj nx) nextRBN
          let pn ← t.deref parent
          let (_, t, parent) ← t.writeAt parent pn.getCurRBN
          pure (t, parent)
        else do
          let (_, t, _) ← t.writeAt leaf curRBN
          let pn ← t.deref parent
          let (_, t, parent) ← t.writeAt parent pn.getCurRBN
          pure (t, parent)
      let pn ← t.deref parent
      if pn.isUnderFilled then
        let (newParent, t) ← t.findParentNode env parent
        handleMerge env fuel t newParent parent
      else pure t

/-- `BTreeFile::remove(recordBuffer)`: the `int` made from `flushData()`, and the tree. -/
def remove (env : Env) (t : BTreeFile) (recordBuffer : RecordBuffer) : Run (Int × BTreeFile) := do
  let _key ← recordBuffer.getRecordKey
  let (leaf, t) ← t.findLeafNode env _key
  let (parent, t) ← t.findParentNode env leaf
  let l ← t.deref leaf
  let largestKey ← l.getLargestKey env
  let (status, l) ← l.removeRecord env recordBuffer
  let (t, leaf) := t.store leaf l
  -- update parent if largest key changed
  let newLargestKey ← l.getLargestKey env
  let (t, parent) ←
    if newLargestKey ≠ largestKey then do
      let pn ← t.deref parent
      let (_, pn) := pn.removeKeyAndChildren largestKey l.getCurRBN
      let (_, pn) ← pn.insertKeyAndChildren newLargestKey l.getCurRBN
      pure (t.store parent pn)
    else pure (t, parent)
  let t : BTreeFile ←
    if status = -1 then handleMerge env t.rounds t parent leaf
    else do
      let l ← t.deref leaf
      let (_, t, _) ← t.writeAt leaf l.getCurRBN
      pure t
  let (ok, t) := t.flushData
  pure (if ok then 1 else 0, t)

/-- `BTreeFile::search(recordBuffer, key)`: return value, the caller's record buffer, the
tree. -/
def search (env : Env) (t : BTreeFile) (recordBuffer : RecordBuffer) (key : Int) :
    Run (Int × RecordBuffer × BTreeFile) := do
  let (node, t) ← t.findLeafNode env key
  if node = .null then pure (-1, recordBuffer, t)
  else
    let n ← t.deref node
    let (_, n, recordBuffer) ← n.retrieveRecord recordBuffer key
    let (t, _) := t.store node n
    if recordBuffer.getBufferSize ≤ t.headerBuffer.recordSizeDigits then pure (-1, recordBuffer, t)
    else pure (0, recordBuffer, t)

/-- The outer loop shared by `displaySequenceSet` and `displayExtrema`: the block `RBN` is
read into `blockBuffer`, its records are unpacked, `nextRBN` is followed.  The result lists
every block visited with the records unpacked from it. -/
def sequenceLoop (env : Env) (t : BTreeFile) :
    Nat → BlockBuffer → Stream → Int → List (Int × List RecordBuffer) →
    Run (List (Int × List RecordBuffer))
  | 0, _, _, _, _ => .error .fuel
  | fuel + 1, blockBuffer, file, RBN, acc =>
    if RBN = 0 then .ok acc
    else do
      let (_, b1, f1) ← blockBuffer.read env file t.headerBuffer.headerRecordSize RBN
      let (b2, _, recs) ← BlockBuffer.unpackAll (b1.numRecords.toNat + 1) b1 {} []
      sequenceLoop env t fuel b2 f1 b2.nextRBN (acc ++ [(b1.curRBN, recs)])

/-- The traversal of `BTreeFile::displaySequenceSet` / `BTreeFile::displayExtrema`, from
`findLeafNode(0)` along `nextRBN` until it is 0. -/
def sequenceSet (env : Env) (t : BTreeFile) : Run (List (Int × List RecordBuffer)) := do
  let (node, t) ← t.findLeafNode env 0
  let n ← t.deref node
  sequenceLoop env t t.rounds {} t.file n.getCurRBN []

/-- `BTreeFile::openFile(name)` on a `BTreeFile` just constructed with `hbuf` and `order`;
`disk` holds the bytes of the file when it exists. -/
def openFile (env : Env) (hbuf : HeaderBuffer) (order : Int) (disk : Option Bytes) :
    Run (Bool × BTreeFile) := do
  let root := BTreeNode.new env order
  let (hbuf, file) ←
    match disk with
    | none => do
      let hbuf := { hbuf with fileType := "blocked sequence set with index".toList }
      let (_, f) ← hbuf.writeHeader ⟨[], 0, false⟩
      pure (hbuf, ({ f with pos := 0, failed := false } : Stream))
    | some bytes => do
      let (_, h, f) ← hbuf.readHeader (Stream.ofBytes bytes 0)
      pure (h, f)
  let file := file.seek hbuf.headerRecordSize
  let t : BTreeFile := { headerBuffer := hbuf, file := file, root := root, order := order, height := 1 }
  if file.failed then pure (false, t)
  else
    let (ret, t, _) ← t.readAt env .root 1
    if ret = -1 then
      let (_, t) := t.flushData
      let (ret, t, _) ← t.writeAt .root 1
      pure (decide (ret ≠ -1), t)
    else pure (true, t)

/-- `BTreeFile::closeFile()`: the bytes left in the file. -/
def closeFile (t : BTreeFile) : Run Bytes :=
  let f := t.file.seek t.file.size
  if t.headerBuffer.blockSize = 0 then .error .undefined
  else do
    let hbuf := { t.headerBuffer with
      blockCount := Int.tdiv f.tell t.headerBuffer.blockSize, stale := "false".toList }
    let (_, f) ← hbuf.writeHeader f
    pure f.data

end BTreeFile

/-! ## main.cpp -/

/-- The loop of `addRecords`: every record read from the input is handed to `insert`. -/
def addRecords (env : Env) : BTreeFile → List RecordBuffer → Run BTreeFile
  | t, [] => .ok t
  | t, r :: rs => do
    let (_, t1) ← t.insert env r
    addRecords env t1 rs

/-- The loop of `deleteRecords`: every record read from the input is handed to `remove`. -/
def deleteRecords (env : Env) : BTreeFile → List RecordBuffer → Run BTreeFile
  | t, [] => .ok t
  | t, r :: rs => do
    let (_, t1) ← t.remove env r
    deleteRecords env t1 rs

/-! ## Observations used in the statements -/

/-- The keys of the records a sequence-set traversal unpacks, block after block. -/
def scanKeys (env : Env) (t : BTreeFile) : Run (List Int) := do
  let blocks ← t.sequenceSet env
  (blocks.flatMap Prod.snd).mapM RecordBuffer.getRecordKey

/-- The keys of the records held by the leaf block `rbn` of the file. -/
def blockKeys (env : Env) (t : BTreeFile) (rbn : Int) : Run (List Int) := do
  let (_, b, _) ← ({} : BlockBuffer).read env t.file t.headerBuffer.headerRecordSize rbn
  let (_, _, recs) ← BlockBuffer.unpackAll (b.numRecords.toNat + 1) b {} []
  recs.mapM RecordBuffer.getRecordKey

/-- What `search` returns for `key`, and the bytes it leaves in a fresh record buffer. -/
def lookup (env : Env) (t : BTreeFile) (key : Int) : Run (Int × Bytes) := do
  let (ret, r, _) ← t.search env {} key
  pure (ret, r.buffer)

/-- The contents of the records that unpacking the leaf yields, in order. -/
def BTreeNode.contents (n : BTreeNode) : Run (List Bytes) := do
  let (_, _, recs) ← BlockBuffer.unpackAll (n.blockBuffer.numRecords.toNat + 1) n.blockBuffer {} []
  pure (recs.map RecordBuffer.buffer)

/-- The node that a fresh node becomes by reading block `rbn` of the file. -/
def nodeAt (env : Env) (t : BTreeFile) (rbn : Int) : Run BTreeNode := do
  let (_, n, _) ← (BTreeNode.new env t.order).read env t.file t.headerBuffer.headerRecordSize rbn
  pure n

/-- The key that `getRecordKey` reads from a record with the content `c`; 0 stands in where
`std::stoi` throws. -/
def recordKey (c : Bytes) : Int :=
  match ({ buffer := c } : RecordBuffer).getRecordKey with
  | .ok k => k
  | .error _ => 0

/-- Successive calls `unpack(rBuf)`, as many as the first argument says: for every call the
value returned, the record count after it and the content it left in `rBuf`; then the block
buffer and `rBuf` after the last call. -/
def unpackTimes : Nat → BlockBuffer → RecordBuffer →
    Run (List (Int × Int × Bytes) × BlockBuffer × RecordBuffer)
  | 0, b, r => .ok ([], b, r)
  | n + 1, b, r => do
    let (ret, b1, r1) ← b.unpack r
    let (rest, b2, r2) ← unpackTimes n b1 r1
    pure ((ret, b1.numRecords, r1.buffer) :: rest, b2, r2)

/-- The sixteen keys that `readHeader` knows. -/
def headerKeys : List Bytes :=
  ["FILE_TYPE", "VERSION", "HEADER_RECORD_SIZE", "RECORD_SIZE_DIGITS", "RECORD_SIZE_FORMAT",
    "BLOCK_SIZE", "MINIMUM_BLOCK_CAPACITY", "RECORD_COUNT", "BLOCK_COUNT", "RECORD_FIELD_COUNT",
    "RECORD_FIELDS_TYPE", "RECORD_FORMAT", "RECORD_PRIMARY_KEY", "RBN_AVAIL", "RBN_ACTIVE",
    "STALE"].map String.toList

/-! ## Texts used in the statements -/

/-- The metadata line `numRecords,prevRBN,nextRBN` with its newline, as `BlockBuffer::pack`,
`unpack` and `write` build it, for numbers that are not negative. -/
def metaText (k p n : Nat) : Bytes :=
  Nat.toDigits 10 k ++ (',' :: (Nat.toDigits 10 p ++ (',' :: (Nat.toDigits 10 n ++ ['\n']))))

/-- What `RecordBuffer::write` appends for a record with the content `c`: the decimal length,
then the content. -/
def recordText (c : Bytes) : Bytes := Nat.toDigits 10 c.length ++ c

/-- The records with the contents `cs` as `BlockBuffer::pack` puts them one behind the other. -/
def recordsText (cs : List Bytes) : Bytes := cs.flatMap recordText

/-- The string `str` that `write` has built when it comes to the padding: the metadata line
and the payload of a leaf (`BlockBuffer::write`), the marker line and the packed keys and
children of an index node (`BTreeNode::write`, `BTreeIndexBuffer::write`). -/
def BTreeNode.text (n : BTreeNode) : Bytes :=
  if n.isLeaf then n.blockBuffer.metadata ++ n.blockBuffer.payload
  else 'I' :: '\n' :: (n.bTreeIndexBuffer.clear.pack n.keys n.children).2.buffer

/-- The `blockSize` of the buffer that `BTreeNode::write` uses for the node. -/
def BTreeNode.blockSize (n : BTreeNode) : Int :=
  if n.isLeaf then n.blockBuffer.blockSize else n.bTreeIndexBuffer.blockSize

/-- The block buffer `b` made to hold the records with the contents `cs` and the links `p`
and `n`, in the layout `pack` and `unpack` leave behind. -/
def BlockBuffer.holding (b : BlockBuffer) (p n : Nat) (cs : List Bytes) : BlockBuffer :=
  { b with numRecords := cs.length, prevRBN := p, nextRBN := n,
           buffer := metaText cs.length p n ++ recordsText cs }

/-- The block buffer `b` holds the records with the contents `cs` and the links `p`, `n`:
its numbers say so, its payload is the text of the records, and unless it is empty its text
starts with the metadata line. -/
def Leaf (b : BlockBuffer) (p n : Nat) (cs : List Bytes) : Prop :=
  b.numRecords = cs.length ∧ b.prevRBN = p ∧ b.nextRBN = n ∧ b.payload = recordsText cs ∧
    (cs ≠ [] → b.buffer = metaText cs.length p n ++ recordsText cs)

/-- The block buffer `b` holds the records with the contents `cs` and the links `p`, `n`: it
counts them, and unless there is none its text is a metadata line (whatever its numbers),
the records one behind the other, and possibly bytes behind them (a block that was read
keeps a byte of its padding). -/
def Holds (b : BlockBuffer) (p n : Nat) (cs : List Bytes) : Prop :=
  b.numRecords = cs.length ∧ b.prevRBN = p ∧ b.nextRBN = n ∧
    (cs ≠ [] → ∃ k' p' n' extra, b.buffer = metaText k' p' n' ++ (recordsText cs ++ extra))

/-- Whether the decimal text of `m` has two characters, both digits, whose value is `m` and
which `std::stoi` reads back as `m`. -/
def twoDigits (m : Nat) : Bool :=
  match Nat.toDigits 10 m with
  | [a, b] => stoi [a, b] == some (m : Int) && a.isDigit && b.isDigit &&
      (10 * (a.toNat - 48) + (b.toNat - 48) == m)
  | _ => false

/-! ## Reference states

The states the scenarios below start from, written out byte by byte, and the lemmas showing
that they are what `openFile` and `insert` produce. -/

namespace Scenario

/-- Fresh memory reads 0, `removeRecord` hands back 0, the byte behind a buffer is 0. -/
def env : Env := ⟨0, 0, '\x00'⟩

/-- A record: the key, a comma, `fill` times the letter x, and the byte `last`. -/
def record (key fill : Nat) (last : Char) : RecordBuffer :=
  { buffer := Nat.toDigits 10 key ++ (',' :: (List.replicate fill 'x' ++ [last])) }

/-- Records of 99 bytes with the keys given. -/
def records (last : Char) (keys : List Nat) : List RecordBuffer :=
  keys.map fun k => record k 95 last

/-- The text of a leaf block: metadata line, length-prefixed records, blanks, newline. -/
def leafBlock (prev next : Int) (recs : List RecordBuffer) : Bytes :=
  let body := to_string recs.length ++ (',' :: (to_string prev ++ (',' :: (to_string next ++
    ('\n' :: recs.foldr (fun r acc => to_string r.buffer.length ++ (r.buffer ++ acc)) [])))))
  body ++ (List.replicate (511 - body.length) ' ' ++ ['\n'])

/-- The text of an index block. -/
def indexBlock (keys children : List Int) : Bytes :=
  let body := 'I' :: '\n' :: (joinInts keys ++ (';' :: (joinInts children ++ ['\n'])))
  body ++ (List.replicate (511 - body.length) ' ' ++ ['\n'])

/-- The root object of a tree of order 10 whose root is an index node written to block 1. -/
def indexRoot (keys children : List Int) : BTreeNode :=
  { BTreeNode.new env 10 with
    isLeaf := false, keys := keys, children := children, numKeys := keys.length, curRBN := 1,
    bTreeIndexBuffer := { buffer := joinInts keys ++ (';' :: (joinInts children ++ ['\n'])) } }

/-- The header `openFile` writes into a new file. -/
def header : HeaderBuffer := { fileType := "blocked sequence set with index".toList }

/-- The tree right after `openFile` has created the file. -/
def empty : BTreeFile :=
  { headerBuffer := header,
    file := ⟨[⟨512, header.image⟩, ⟨512, leafBlock 0 0 []⟩], 1024, false⟩,
    root := { BTreeNode.new env 10 with blockBuffer := { curRBN := 1 } },
    order := 10, height := 1 }

/-- The tree after the keys 10 .. 60 have been inserted: two leaves of three records. -/
def tree6 (last : Char) : BTreeFile :=
  { headerBuffer := { header with rbnAvail := 4 },
    file := ⟨[⟨512, header.image⟩, ⟨512, indexBlock [30] [2, 3]⟩,
      ⟨512, leafBlock 0 3 (records last [10, 20, 30])⟩,
      ⟨512, leafBlock 2 0 (records last [40, 50, 60])⟩], 0, false⟩,
    root := indexRoot [30] [2, 3], order := 10, height := 2 }

/-- The tree after the keys 10 .. 90 have been inserted: three leaves of three records. -/
def tree9 : BTreeFile :=
  { headerBuffer := { header with rbnAvail := 5 },
    file := ⟨[⟨512, header.image⟩, ⟨512, indexBlock [30, 60] [2, 3, 4]⟩,
      ⟨512, leafBlock 0 3 (records '\n' [10, 20, 30])⟩,
      ⟨512, leafBlock 2 4 (records '\n' [40, 50, 60])⟩,
      ⟨512, leafBlock 3 0 (records '\n' [70, 80, 90])⟩], 0, false⟩,
    root := indexRoot [30, 60] [2, 3, 4], order := 10, height := 2 }

/-- The tree after the keys 10 .. 50 have been inserted: the root is a leaf of five records
that fills its block but for one byte. -/
def tree5 : BTreeFile :=
  { headerBuffer := header,
    file := ⟨[⟨512, header.image⟩, ⟨512, leafBlock 0 0 (records '\n' [10, 20, 30, 40, 50])⟩],
      0, false⟩,
    root := { BTreeNode.new env 10 with
      blockBuffer := (({ curRBN := 1 } : BlockBuffer)).holding 0 0
        ((records '\n' [10, 20, 30, 40, 50]).map RecordBuffer.buffer) },
    order := 10, height := 1 }

/-- The contents of the records of 99 bytes with the keys given. -/
def contentsOf (keys : List Nat) : List Bytes := (records '\n' keys).map RecordBuffer.buffer

/-- An index node of order 10 with eleven keys and twelve children, as a parent is when
`handleNonRootSplit` finds it over-filled. -/
def wideRoot : BTreeNode :=
  indexRoot [10, 20, 30, 40, 50, 60, 70, 80, 90, 100, 110] [2, 3, 4, 5, 6, 7, 8, 9, 10, 11, 12, 13]

/-- A record of 12 bytes with the key -5. -/
def negativeKey : RecordBuffer := { buffer := "-5,xxxxxxxx\n".toList }

/-- A record of 5 bytes with the key 20. -/
def fiveBytes : RecordBuffer := { buffer := "20,x\n".toList }

/-- A leaf in memory with the links 4 and 7 that holds the records of 99 bytes with the keys
given. -/
def leafWith (keys : List Nat) : BlockBuffer := (({} : BlockBuffer)).holding 4 7 (contentsOf keys)

/-- A leaf as `read` leaves it: block 1 of a file whose only block holds the records of 99
bytes with the keys given, each ending in `last`. -/
def leafRead (prev next : Int) (last : Char) (keys : List Nat) : Run BlockBuffer := do
  let (_, b, _) ← ({} : BlockBuffer).read env
    (Stream.ofBytes (leafBlock prev next (records last keys)) 0) 0 1
  pure b

/-- Eighteen keys in ascending order; with a tree of order 2 the last one makes an index node
that is not the root split. -/
def keys18 : List Nat :=
  [10, 15, 20, 25, 30, 35, 40, 45, 50, 55, 60, 65, 70, 75, 80, 85, 90, 95]

end Scenario

/-! ## Streams: pieces and bytes

The operations on pieces do to `Stream.data` what the stream operations of the library do
to the bytes of a file. -/

theorem wellFormed_cons {p : Piece} {ps : List Piece} :
    wellFormed (p :: ps) ↔ p.bytes.length = p.len ∧ wellFormed ps := by
  simp [wellFormed]

theorem size_eq_length (ps : List Piece) (h : wellFormed ps) :
    (ps.map Piece.len).sum = (ps.flatMap Piece.bytes).length := by
  induction ps with
  | nil => rfl
  | cons p ps ih =>
    rw [wellFormed_cons] at h
    simp [ih h.2, h.1]

theorem slice_eq (ps : List Piece) (h : wellFormed ps) (pos n : Nat) :
    slice ps pos n = ((ps.flatMap Piece.bytes).drop pos).take n := by
  induction ps generalizing pos n with
  | nil => simp [slice]
  | cons p ps ih =>
    rw [wellFormed_cons] at h
    obtain ⟨hp, hps⟩ := h
    simp only [slice, List.flatMap_cons]
    rw [List.drop_append_eq_append_drop, hp]
    split
    · next hle =>
      rw [ih hps (pos - p.len) n, List.drop_of_length_le (l := p.bytes) (by omega),
        List.nil_append]
    · next hlt =>
      have hX : (p.bytes.drop pos).length = p.len - pos := by simp [hp]
      have h0 : pos - p.len = 0 := by omega
      rw [h0, List.drop_zero]
      split
      · next h0 =>
        obtain ⟨rfl, rfl⟩ := h0
        rw [List.drop_zero, List.take_append_of_le_length (by omega), List.take_of_length_le (by omega)]
      · split
        · next hn =>
          rw [List.take_append_of_le_length (by omega)]
        · next hn =>
          rw [ih hps 0 (n - (p.len - pos)), List.drop_zero, List.take_append_eq_append_take, hX,
            List.take_of_length_le (l := p.bytes.drop pos) (by omega)]

theorem piecesFrom_data (ps : List Piece) (h : wellFormed ps) (pos : Nat) :
    (piecesFrom ps pos).flatMap Piece.bytes = (ps.flatMap Piece.bytes).drop pos := by
  induction ps generalizing pos with
  | nil => simp [piecesFrom]
  | cons p ps ih =>
    rw [wellFormed_cons] at h
    obtain ⟨hp, hps⟩ := h
    simp only [piecesFrom, List.flatMap_cons]
    rw [List.drop_append_eq_append_drop, hp]
    split
    · next h0 => subst h0; simp
    · split
      · next hle =>
        rw [ih hps, List.drop_of_length_le (l := p.bytes) (by omega), List.nil_append]
      · next hlt =>
        have h0 : pos - p.len = 0 := by omega
        rw [h0, List.drop_zero, List.flatMap_cons]

theorem piecesBefore_data (ps : List Piece) (h : wellFormed ps) (pos : Nat) :
    (piecesBefore ps pos).flatMap Piece.bytes =
      (ps.flatMap Piece.bytes).take pos ++
        List.replicate (pos - (ps.flatMap Piece.bytes).length) '\x00' := by
  induction ps generalizing pos with
  | nil =>
    simp only [piecesBefore]
    split
    · next h0 => subst h0; simp
    · simp
  | cons p ps ih =>
    rw [wellFormed_cons] at h
    obtain ⟨hp, hps⟩ := h
    simp only [piecesBefore, List.flatMap_cons, List.length_append]
    rw [List.take_append_eq_append_take, hp]
    split
    · next h0 => subst h0; simp
    · split
      · next hle =>
        rw [List.flatMap_cons, ih hps, List.take_of_length_le (l := p.bytes) (by omega),
          List.append_assoc, Nat.sub_add_eq]
      · next hlt =>
        have h0 : pos - p.len = 0 := by omega
        have h1 : pos - (p.len + (ps.flatMap Piece.bytes).length) = 0 := by omega
        simp [-List.length_flatMap, h0, h1, hp]

theorem wellFormed_piecesFrom (ps : List Piece) (h : wellFormed ps) (pos : Nat) :
    wellFormed (piecesFrom ps pos) := by
  induction ps generalizing pos with
  | nil => simp [piecesFrom, wellFormed]
  | cons p ps ih =>
    have h' := wellFormed_cons.mp h
    simp only [piecesFrom]
    split
    · exact h
    · split
      · exact ih h'.2 _
      · exact wellFormed_cons.mpr ⟨by simp [h'.1], h'.2⟩

theorem wellFormed_piecesBefore (ps : List Piece) (h : wellFormed ps) (pos : Nat) :
    wellFormed (piecesBefore ps pos) := by
  induction ps generalizing pos with
  | nil =>
    simp only [piecesBefore]
    split <;> simp [wellFormed]
  | cons p ps ih =>
    have h' := wellFormed_cons.mp h
    simp only [piecesBefore]
    split
    · simp [wellFormed]
    · split
      · exact wellFormed_cons.mpr ⟨h'.1, ih h'.2 _⟩
      · next hlt => exact wellFormed_cons.mpr ⟨by simp [h'.1]; omega, by simp [wellFormed]⟩

theorem wellFormed_append {ps qs : List Piece} (hp : wellFormed ps) (hq : wellFormed qs) :
    wellFormed (ps ++ qs) := by
  intro p hmem
  rcases List.mem_append.mp hmem with h | h
  · exact hp p h
  · exact hq p h

/-- Writing keeps the pieces well formed. -/
theorem Stream.write_wellFormed (s : Stream) (h : wellFormed s.pieces) (bs : Bytes) :
    wellFormed (s.write bs).pieces := by
  unfold Stream.write
  split
  · exact h
  · exact wellFormed_append (wellFormed_piecesBefore _ h _)
      (wellFormed_cons.mpr ⟨rfl, wellFormed_piecesFrom _ h _⟩)

/-- What `write` does to the bytes of a stream: the `bs.length` bytes from the position on
are replaced by `bs`, a gap in front of the position is filled with zero bytes. -/
theorem Stream.write_data (s : Stream) (h : wellFormed s.pieces) (hf : s.failed = false)
    (bs : Bytes) :
    (s.write bs).data = s.data.take s.pos ++
      (List.replicate (s.pos - s.data.length) '\x00' ++ (bs ++ s.data.drop (s.pos + bs.length))) := by
  simp [Stream.write, hf, Stream.data, piecesBefore_data _ h, piecesFrom_data _ h]

/-- What `read` delivers: the bytes from the position on, filled up to `n` bytes. -/
theorem Stream.read_bytes (s : Stream) (h : wellFormed s.pieces) (hf : s.failed = false)
    (n : Nat) (fill : Char) :
    (s.read n fill).1 = (s.data.drop s.pos).take n ++
      List.replicate (n - ((s.data.drop s.pos).take n).length) fill := by
  have hsz := size_eq_length _ h
  simp only [Stream.read, hf, Stream.size, Stream.data, slice_eq _ h, hsz]
  simp only [Bool.false_eq_true, ↓reduceIte, List.length_take, List.length_drop]
  split
  · next heq => simp [-List.length_flatMap, heq]
  · rfl

namespace Scenario

set_option maxRecDepth 100000
set_option synthInstance.maxSize 1024

/-! ## The reference states are reached -/


/-- `openFile` on a name that does not exist yet yields `empty`. -/
theorem openFile_new : BTreeFile.openFile env {} 10 none = .ok (true, empty) := by
  decide!

/-- Six inserts of newline-terminated records into `empty` yield `tree6`. -/
theorem addRecords_six_newline :
    addRecords env empty (records '\n' [10, 20, 30, 40, 50, 60]) = .ok (tree6 '\n') := by
  decide!

/-- Six inserts of comma-terminated records into `empty` yield `tree6`. -/
theorem addRecords_six_comma :
    addRecords env empty (records ',' [10, 20, 30, 40, 50, 60]) = .ok (tree6 ',') := by
  decide!

/-- Three more inserts into `tree6` yield `tree9`. -/
theorem addRecords_nine :
    addRecords env (tree6 '\n') (records '\n' [70, 80, 90]) = .ok tree9 := by
  decide!

/-! ## C1 – C10: the tree as a whole -/

/-- C1 (the code breaks it).  Seven records with distinct keys, each 99 bytes long and ending
in the comma that closes its last field, are inserted into a new file.  The first six split
the root; the seventh goes to a leaf read back from the file, which still carries one byte
of block padding, and is stored behind that byte.  `search(70)` then returns 0 but the
record buffer does not hold the record that was inserted under 70. -/
theorem C1_search_returns_other_bytes_after_reload :
    BTreeFile.openFile env {} 10 none = .ok (true, empty) ∧
    addRecords env empty (records ',' [10, 20, 30, 40, 50, 60]) = .ok (tree6 ',') ∧
    (do let (_, t) ← (tree6 ',').insert env (record 70 95 ',')
        let (ret, bytes) ← lookup env t 70
        pure (ret, decide (bytes = (record 70 95 ',').buffer),
              decide (bytes = "70,xxxxx ".toList ++ List.replicate 90 '\x00')))
      = .ok (0, false, true) :=
  ⟨openFile_new, addRecords_six_comma, by decide!⟩

/-- C2 (the code breaks it).  In the tree holding the keys 10 .. 60 in two leaves, `remove`
of the record with key 30 (the largest key of the first leaf) puts the leaf back into the
root to the right of its new separator: the root becomes keys `[20]`, children `[3, 2]`.
Afterwards `search` finds none of the five remaining keys, and the sequence-set traversal
started at `findLeafNode(0)` visits only the keys 40, 50, 60. -/
theorem C2_remove_largest_of_leaf_loses_other_keys :
    addRecords env empty (records '\n' [10, 20, 30, 40, 50, 60]) = .ok (tree6 '\n') ∧
    (do let (_, t) ← (tree6 '\n').remove env (record 30 95 '\n')
        let found ← [10, 20, 40, 50, 60].mapM fun k => (lookup env t k).map Prod.fst
        let scan ← scanKeys env t
        pure (t.root.keys, t.root.children, found, scan))
      = .ok ([20], [3, 2], [-1, -1, -1, -1, -1], [40, 50, 60]) :=
  ⟨addRecords_six_newline, by decide!⟩

/-- C3 (the code breaks it).  A tree whose root is a leaf holding one record: `remove` of
that record calls `removeKeyAndChildren` through the null pointer `findParentNode` returned,
so no search can follow. -/
theorem C3_remove_of_last_record_dereferences_null :
    (do let (_, t) ← empty.insert env (record 10 95 '\n')
        t.remove env (record 10 95 '\n')) = .error .nullDeref := by
  decide!

/-- C4 (the code breaks it).  Six 99-byte records and a seventh of 25 bytes, all ending in a
comma, are inserted; the key 79960 is never inserted.  `search(79960)` returns 0 and leaves
25 bytes in the record buffer. -/
theorem C4_search_finds_key_never_inserted :
    addRecords env empty (records ',' [10, 20, 30, 40, 50, 60]) = .ok (tree6 ',') ∧
    (do let (_, t) ← (tree6 ',').insert env (record 70 21 ',')
        let (ret, bytes) ← lookup env t 79960
        pure (ret, bytes.length)) = .ok (0, 25) :=
  ⟨addRecords_six_comma, by decide!⟩

/-- C5 (the code breaks it).  Keys 10 .. 90 are inserted, the record with key 60 is removed
and key 45 is inserted.  The leaves read from `findLeafNode(0)` along `nextRBN` then hold
the keys 10 20 30, 40 50, 45 70 80 90, which is not an ascending sequence. -/
theorem C5_scan_not_ascending_after_remove_and_insert :
    addRecords env empty (records '\n' [10, 20, 30, 40, 50, 60]) = .ok (tree6 '\n') ∧
    addRecords env (tree6 '\n') (records '\n' [70, 80, 90]) = .ok tree9 ∧
    (do let (_, t) ← tree9.remove env (record 60 95 '\n')
        let (_, t) ← t.insert env (record 45 95 '\n')
        scanKeys env t) = .ok [10, 20, 30, 40, 50, 45, 70, 80, 90] ∧
    ¬ List.Sorted (· < ·) ([10, 20, 30, 40, 50, 45, 70, 80, 90] : List Int) :=
  ⟨addRecords_six_newline, addRecords_nine, by decide!, by decide⟩

/-- C6 (the code breaks it).  After `remove` of the record with key 30 from the tree holding
10 .. 60, the root in memory and block 1 of the file hold the separator 20 with the children
`[3, 2]`: the subtree reached through `children[0]` is leaf 3, whose largest key is 60. -/
theorem C6_separator_is_not_largest_key_of_its_child :
    addRecords env empty (records '\n' [10, 20, 30, 40, 50, 60]) = .ok (tree6 '\n') ∧
    (do let (_, t) ← (tree6 '\n').remove env (record 30 95 '\n')
        let (_, onDisk, _) ← (BTreeNode.new env 10).read env t.file 512 1
        let keys3 ← blockKeys env t 3
        pure (t.root.keys, t.root.children, onDisk.keys, onDisk.children, keys3))
      = .ok ([20], [3, 2], [20], [3, 2], [40, 50, 60]) :=
  ⟨addRecords_six_newline, by decide!⟩

/-- C7 (the code breaks it).  Keys 10 .. 90 sit in the leaves 2, 3, 4.  Removing 40 and 10
merges leaf 3 into leaf 2 and sets `rbnAvail` to 3; inserting 25 and 35 splits leaf 2 and
takes block 3, leaving `rbnAvail = 4` although block 4 is a child of the root and holds the
keys 70, 80, 90.  After 21 and 22, the insert of 23 splits leaf 2 again and writes the new
leaf to block 4: the root lists block 4 twice, the block holds 23, 25, 30, and the keys
70, 80, 90 are no longer found. -/
theorem C7_split_overwrites_live_leaf :
    addRecords env empty (records '\n' [10, 20, 30, 40, 50, 60]) = .ok (tree6 '\n') ∧
    addRecords env (tree6 '\n') (records '\n' [70, 80, 90]) = .ok tree9 ∧
    (do let t ← deleteRecords env tree9 (records '\n' [40, 10])
        let t ← addRecords env t (records '\n' [25, 35, 21, 22])
        let before ← blockKeys env t 4
        let (_, t1) ← t.insert env (record 23 95 '\n')
        let after ← blockKeys env t1 4
        let found ← [70, 80, 90].mapM fun k => (lookup env t1 k).map Prod.fst
        pure (t.headerBuffer.rbnAvail, t.root.children, before, t1.root.children, after, found))
      = .ok (4, [2, 3, 4], [70, 80, 90], [2, 4, 3, 4], [23, 25, 30], [-1, -1, -1]) :=
  ⟨addRecords_six_newline, addRecords_nine, by decide!⟩

/-- C8 (the code breaks it).  Two records are inserted into a new file and the one with key
10 is removed.  The root is a leaf, so `handleMerge` returns at once and block 1 is not
rewritten: on the open tree `search(10)` returns -1, after `closeFile` and `openFile` it
returns 0. -/
theorem C8_reopened_tree_finds_removed_key :
    (do let t ← addRecords env empty (records '\n' [10, 20])
        let (_, t) ← t.remove env (record 10 95 '\n')
        let (before, _) ← lookup env t 10
        let bytes ← t.closeFile
        let (opened, t2) ← BTreeFile.openFile env {} 10 (some bytes)
        let (after, _) ← lookup env t2 10
        pure (before, opened, after)) = .ok (-1, true, 0) := by
  decide!

/-! ### C9: a record too large for a block -/

theorem to_string_natCast (n : Nat) : to_string (n : Int) = Nat.toDigits 10 n := rfl

/-- C10 (the code breaks it).  In a tree holding the keys 10 and 20, `remove` of a record
with key 15 returns 1, whether `BlockBuffer::removeRecord` hands back 0 or -1. -/
theorem C10_remove_of_absent_key_returns_one :
    (do let t ← addRecords env empty (records '\n' [10, 20])
        let (ret, _) ← t.remove env (record 15 95 '\n')
        let (ret', _) ← t.remove { env with removeRecordRet := -1 } (record 15 95 '\n')
        pure (ret, ret')) = .ok (1, 1) := by
  decide!

end Scenario

set_option maxRecDepth 100000
set_option synthInstance.maxSize 1024

/-! ## Reading from a stream -/

/-- A read that finds all its bytes delivers them and moves the position. -/
theorem Stream.read_of_le (s : Stream) (h : wellFormed s.pieces) (hf : s.failed = false)
    (n : Nat) (fill : Char) (hn : s.pos + n ≤ s.data.length) :
    s.read n fill = ((s.data.drop s.pos).take n, n, { s with pos := s.pos + n }) := by
  have hsz := size_eq_length _ h
  have hmin : min n (s.size - s.pos) = n := by
    simp only [Stream.size, hsz]
    simp only [Stream.data] at hn
    omega
  simp only [Stream.read, hf, hmin, slice_eq _ h, Stream.data]
  simp [hf]

theorem twoDigits_all : ∀ m < 100, 10 ≤ m → twoDigits m = true := by decide!

/-- A length of 10 .. 99 is written with two digits, and `std::stoi` reads them back. -/
theorem toDigits_twoDigits (m : Nat) (h1 : 10 ≤ m) (h2 : m ≤ 99) :
    ∃ a b, Nat.toDigits 10 m = [a, b] ∧ stoi [a, b] = some (m : Int) ∧
      a.isDigit = true ∧ b.isDigit = true ∧ 10 * (a.toNat - 48) + (b.toNat - 48) = m := by
  have := twoDigits_all m (by omega) h1
  unfold twoDigits at this
  split at this
  · next a b h =>
    simp only [Bool.and_eq_true, beq_iff_eq] at this
    exact ⟨a, b, h, this.1.1.1, this.1.1.2, this.1.2, this.2⟩
  · simp at this

/-- `RecordBuffer::read` at a position where the stream holds two characters that
`std::stoi` reads as the length of `c`, then `c`: the record buffer takes `c`, the position
moves behind it. -/
theorem RecordBuffer.read_of_prefix (reader : RecordBuffer) (s : Stream)
    (hwf : wellFormed s.pieces) (hf : s.failed = false) (a b : Char) (c rest : Bytes)
    (hm : stoi [a, b] = some (c.length : Int)) (hmax : (c.length : Int) ≤ reader.maxBufferSize)
    (hdata : s.data.drop s.pos = a :: b :: (c ++ rest)) :
    reader.read s (-1) =
      .ok ((s.pos : Int), { reader.clear with buffer := c }, { s with pos := s.pos + 2 + c.length }) := by
  obtain ⟨ps, pos, failed⟩ := s
  simp only at hf hwf hdata
  subst hf
  have hlen : (List.drop pos (Stream.data ⟨ps, pos, false⟩)).length =
      c.length + rest.length + 2 := by
    rw [hdata]; simp
  have hlen' : (Stream.data ⟨ps, pos, false⟩).length - pos = c.length + rest.length + 2 := by
    rw [← hlen]; simp
  have hd' : ∀ q, Stream.data ⟨ps, q, false⟩ = Stream.data ⟨ps, pos, false⟩ := fun _ => rfl
  have h2 : (⟨ps, pos, false⟩ : Stream).read 2 '\x00' = ([a, b], 2, ⟨ps, pos + 2, false⟩) := by
    rw [Stream.read_of_le _ hwf rfl 2 _ (by simp only []; omega)]
    simp only [hdata]
    rfl
  have h3 : (⟨ps, pos + 2, false⟩ : Stream).read c.length '\x00' =
      (c, c.length, ⟨ps, pos + 2 + c.length, false⟩) := by
    rw [Stream.read_of_le _ hwf rfl c.length _ (by simp only [hd']; omega)]
    have : (Stream.data ⟨ps, pos, false⟩).drop (pos + 2) = c ++ rest := by
      rw [← List.drop_drop, hdata]; rfl
    simp only [hd', this]
    simp
  have hneg : ¬ ((c.length : Int) > reader.maxBufferSize) := by omega
  have hnn : ¬ ((c.length : Int) < 0) := by omega
  simp only [RecordBuffer.read, bne_self_eq_false, Bool.false_eq_true, ↓reduceIte, false_and,
    Stream.tell, h2, hm, RecordBuffer.clear, hneg, hnn, Int.toNat_ofNat, h3]
  simp

/-! ## Index nodes: routing and separators -/

/-- The loop of `getNextChild` from index `i` on, when every key in front of `i` is smaller
than `key`: it stops at the first key that is not, or at the last child. -/
theorem nextChildLoop_spec (n : BTreeNode) (key : Int) (m i : Nat)
    (hlen : n.children.length = n.keys.length + 1) (hm : i + m = n.keys.length)
    (hlt : ∀ j k, j < i → n.keys[j]? = some k → k < key) :
    ∃ i' c, n.children[i']? = some c ∧ n.nextChildLoop key m i = .ok c ∧
      (∀ j k, j < i' → n.keys[j]? = some k → k < key) ∧
      ((∃ k, n.keys[i']? = some k ∧ key ≤ k) ∨
        (i' = n.keys.length ∧ i' + 1 = n.children.length)) := by
  induction m generalizing i with
  | zero =>
    have hi : i = n.keys.length := by omega
    have hlast : n.children.length - 1 < n.children.length := by omega
    refine ⟨i, n.children[n.children.length - 1], ?_, ?_, hlt, Or.inr ⟨hi, by omega⟩⟩
    · have : i = n.children.length - 1 := by omega
      rw [this]; exact List.getElem?_eq_getElem hlast
    · have hne : n.children.length ≠ 0 := by omega
      simp [BTreeNode.nextChildLoop, hne, vecGet, List.getElem?_eq_getElem hlast]
  | succ m ih =>
    have hik : i < n.keys.length := by omega
    have hic : i < n.children.length := by omega
    by_cases hle : key ≤ n.keys[i]
    · refine ⟨i, n.children[i], List.getElem?_eq_getElem hic, ?_, hlt,
        Or.inl ⟨_, List.getElem?_eq_getElem hik, hle⟩⟩
      simp [BTreeNode.nextChildLoop, vecGet, List.getElem?_eq_getElem hik,
        List.getElem?_eq_getElem hic, hle, bind, Except.bind]
    · have hstep : n.nextChildLoop key (m + 1) i = n.nextChildLoop key m (i + 1) := by
        simp [BTreeNode.nextChildLoop, vecGet, List.getElem?_eq_getElem hik, hle, bind,
          Except.bind]
      rw [hstep]
      apply ih (i + 1) (by omega)
      intro j k hj hk
      by_cases hji : j = i
      · subst hji
        rw [List.getElem?_eq_getElem hik] at hk
        cases hk
        omega
      · exact hlt j k (by omega) hk

/-- On ascending keys `lowerBound` splits the keys into those smaller than `key` and those
that are not. -/
theorem lowerBound_spec (keys : List Int) (key : Int) (hs : keys.Sorted (· ≤ ·)) :
    (∀ k ∈ keys.take (lowerBound keys key), k < key) ∧
    (∀ k ∈ keys.drop (lowerBound keys key), key ≤ k) := by
  have hsplit := List.takeWhile_append_dropWhile (fun k => decide (k < key)) keys
  have htake : keys.take (lowerBound keys key) = keys.takeWhile (fun k => decide (k < key)) := by
    have h : (keys.takeWhile (fun k => decide (k < key)) ++
        keys.dropWhile (fun k => decide (k < key))).take
          (keys.takeWhile (fun k => decide (k < key))).length
        = keys.takeWhile (fun k => decide (k < key)) := List.take_left' rfl
    rwa [hsplit] at h
  have hdrop : keys.drop (lowerBound keys key) = keys.dropWhile (fun k => decide (k < key)) := by
    have h : (keys.takeWhile (fun k => decide (k < key)) ++
        keys.dropWhile (fun k => decide (k < key))).drop
          (keys.takeWhile (fun k => decide (k < key))).length
        = keys.dropWhile (fun k => decide (k < key)) := List.drop_left' rfl
    rwa [hsplit] at h
  refine ⟨?_, ?_⟩
  · intro k hk
    rw [htake] at hk
    simpa using List.mem_takeWhile_imp hk
  · intro k hk
    rw [hdrop] at hk
    have hsd : (keys.dropWhile (fun k => decide (k < key))).Sorted (· ≤ ·) :=
      hs.sublist (List.dropWhile_sublist _)
    cases hd : keys.dropWhile (fun k => decide (k < key)) with
    | nil => rw [hd] at hk; cases hk
    | cons a l =>
      have hhead : ¬ (a < key) := by
        have := List.head_dropWhile_not (fun k => decide (k < key)) keys (by rw [hd]; simp)
        simpa [hd] using this
      rw [hd] at hk hsd
      rcases List.mem_cons.mp hk with rfl | hmem
      · omega
      · have := List.rel_of_sorted_cons hsd k hmem
        omega

/-! ## Decimal numbers -/

theorem digitChar_isDigit (d : Nat) (h : d < 10) :
    (Nat.digitChar d).isDigit = true ∧ (Nat.digitChar d).toNat - 48 = d := by
  interval_cases d <;> decide

theorem digitsValue_cons (c : Char) (ds : Bytes) :
    digitsValue (c :: ds) = (c.toNat - 48) * 10 ^ ds.length + digitsValue ds := by
  have key : ∀ (l : Bytes) (acc : Nat),
      l.foldl (fun acc c => 10 * acc + (c.toNat - 48)) acc
        = acc * 10 ^ l.length + l.foldl (fun acc c => 10 * acc + (c.toNat - 48)) 0 := by
    intro l
    induction l with
    | nil => intro acc; simp
    | cons x xs ih =>
      intro acc
      simp only [List.foldl_cons, List.length_cons]
      rw [ih (10 * acc + (x.toNat - 48)), ih (10 * 0 + (x.toNat - 48))]
      ring
  unfold digitsValue
  simp only [List.foldl_cons]
  rw [key ds (10 * 0 + (c.toNat - 48))]
  simp

theorem toDigitsCore_spec (fuel n : Nat) (ds : Bytes) (hfuel : n < fuel)
    (hds : ∀ c ∈ ds, c.isDigit = true) :
    (∀ c ∈ Nat.toDigitsCore 10 fuel n ds, c.isDigit = true) ∧
    Nat.toDigitsCore 10 fuel n ds ≠ [] ∧
    digitsValue (Nat.toDigitsCore 10 fuel n ds) = n * 10 ^ ds.length + digitsValue ds := by
  induction fuel generalizing n ds with
  | zero => omega
  | succ fuel ih =>
    have hd := digitChar_isDigit (n % 10) (Nat.mod_lt _ (by decide))
    simp only [Nat.toDigitsCore]
    split
    · next h0 =>
      refine ⟨?_, by simp, ?_⟩
      · intro c hc
        rcases List.mem_cons.mp hc with rfl | hc
        · exact hd.1
        · exact hds c hc
      · rw [digitsValue_cons, hd.2]
        have : n = n % 10 := by omega
        rw [← this]
    · next h0 =>
      have hlt : n / 10 < fuel := by omega
      have hds' : ∀ c ∈ Nat.digitChar (n % 10) :: ds, c.isDigit = true := by
        intro c hc
        rcases List.mem_cons.mp hc with rfl | hc
        · exact hd.1
        · exact hds c hc
      obtain ⟨h1, h2, h3⟩ := ih (n / 10) (Nat.digitChar (n % 10) :: ds) hlt hds'
      refine ⟨h1, h2, ?_⟩
      rw [h3, digitsValue_cons, hd.2, List.length_cons, pow_succ]
      have hn : n = 10 * (n / 10) + n % 10 := (Nat.div_add_mod n 10).symm
      generalize n / 10 = q at hn ⊢
      generalize n % 10 = m at hn ⊢
      subst hn
      ring

theorem toDigits_spec (n : Nat) :
    (∀ c ∈ Nat.toDigits 10 n, c.isDigit = true) ∧ Nat.toDigits 10 n ≠ [] ∧
    digitsValue (Nat.toDigits 10 n) = n := by
  have := toDigitsCore_spec (n + 1) n [] (by omega) (by simp)
  simpa [Nat.toDigits, digitsValue] using this

theorem isDigit_ne (c : Char) (h : c.isDigit = true) :
    c ≠ '\n' ∧ c ≠ ',' ∧ c ≠ '-' ∧ c ≠ '+' ∧ c ≠ ';' ∧ c ≠ 'I' ∧ c ≠ '\x00' ∧ isspace c = false := by
  refine ⟨?_, ?_, ?_, ?_, ?_, ?_, ?_, ?_⟩ <;>
    first
    | (rintro rfl; revert h; decide)
    | skip
  simp only [Char.isDigit, Bool.and_eq_true, decide_eq_true_eq] at h
  have h1 : 48 ≤ c.toNat := by
    have := h.1; exact this
  have h2 : c.toNat ≤ 57 := by
    have := h.2; exact this
  simp only [isspace, Bool.or_eq_false_iff, decide_eq_false_iff_not]
  refine ⟨⟨⟨⟨⟨?_, ?_⟩, ?_⟩, ?_⟩, ?_⟩, ?_⟩
  · rintro rfl; revert h1; decide
  · rintro rfl; revert h1; decide
  · rintro rfl; revert h1; decide
  · rintro rfl; revert h1; decide
  · omega
  · omega

/-- `std::stoi` reads the decimal text of a number that fits an `int` back. -/
theorem stoi_toDigits (n : Nat) (hn : n ≤ 2147483647) : stoi (Nat.toDigits 10 n) = some (n : Int) := by
  obtain ⟨hdig, hne, hval⟩ := toDigits_spec n
  cases hd : Nat.toDigits 10 n with
  | nil => exact absurd hd hne
  | cons c cs =>
    rw [hd] at hdig hval
    have hc := isDigit_ne c (hdig c (List.mem_cons_self _ _))
    have hsp : (c :: cs).dropWhile isspace = c :: cs := by
      simp [List.dropWhile, hc.2.2.2.2.2.2.2]
    have hall : (c :: cs).takeWhile Char.isDigit = c :: cs :=
      List.takeWhile_eq_self_iff.mpr hdig
    have hm : ∀ (α : Type) (f : Bool × Bytes → α),
        f (match c :: cs with
          | '-' :: r => (true, r)
          | '+' :: r => (false, r)
          | _ => (false, c :: cs)) = f (false, c :: cs) := by
      intro α f
      split
      · next r heq => simp only [List.cons.injEq] at heq; exact absurd heq.1 hc.2.2.1
      · next r heq => simp only [List.cons.injEq] at heq; exact absurd heq.1 hc.2.2.2.1
      · rfl
    unfold stoi
    simp only [hsp]
    have := hm (Option Int) (fun x =>
      if (List.takeWhile Char.isDigit x.2).isEmpty = true then none
      else
        if (if x.1 = true then -(digitsValue (List.takeWhile Char.isDigit x.2) : Int)
            else (digitsValue (List.takeWhile Char.isDigit x.2) : Int)) < -2147483648 ∨
            2147483647 < (if x.1 = true then -(digitsValue (List.takeWhile Char.isDigit x.2) : Int)
            else (digitsValue (List.takeWhile Char.isDigit x.2) : Int)) then none
        else some (if x.1 = true then -(digitsValue (List.takeWhile Char.isDigit x.2) : Int)
            else (digitsValue (List.takeWhile Char.isDigit x.2) : Int)))
    simp only at this
    refine Eq.trans this ?_
    simp only [hall, List.isEmpty_cons, Bool.false_eq_true, ↓reduceIte, hval]
    have h1 : ¬ ((n : Int) < -2147483648 ∨ 2147483647 < (n : Int)) := by omega
    rw [if_neg h1]

theorem getlineSplit_append (xs rest : Bytes) (d : Char) (h : d ∉ xs) :
    getlineSplit (xs ++ d :: rest) d = (xs, rest) := by
  have hp : ∀ a ∈ xs, (fun c => c != d) a = true := by
    intro a ha
    simp only [bne_iff_ne, ne_eq]
    rintro rfl
    exact h ha
  simp [getlineSplit, List.takeWhile_append_of_pos hp, List.dropWhile_append_of_pos hp]

theorem findFirstOf_append (xs rest : Bytes) (d : Char) (h : d ∉ xs) :
    findFirstOf (xs ++ d :: rest) d = (xs.length : Int) := by
  have : List.indexOf d (xs ++ d :: rest) = xs.length := by
    rw [List.indexOf_append_of_not_mem h, List.indexOf_cons_self]; rfl
  simp [findFirstOf, this]

theorem toDigits_not_mem (n : Nat) (d : Char) (hd : d.isDigit = false) : d ∉ Nat.toDigits 10 n := by
  intro hmem
  have := (toDigits_spec n).1 d hmem
  rw [this] at hd
  cases hd

theorem toDigits_length_pos (n : Nat) : 0 < (Nat.toDigits 10 n).length :=
  List.length_pos.mpr (toDigits_spec n).2.1

/-- The text of the metadata line, split at its newline. -/
theorem metaText_eq (k p n : Nat) :
    ∃ xs, metaText k p n = xs ++ ['\n'] ∧ '\n' ∉ xs ∧ 0 < xs.length := by
  refine ⟨Nat.toDigits 10 k ++ (',' :: (Nat.toDigits 10 p ++ (',' :: Nat.toDigits 10 n))), ?_, ?_, ?_⟩
  · simp [metaText]
  · simp only [List.mem_append, List.mem_cons, not_or]
    exact ⟨toDigits_not_mem k _ (by decide), by decide, toDigits_not_mem p _ (by decide),
      by decide, toDigits_not_mem n _ (by decide)⟩
  · have := toDigits_length_pos k
    simp

theorem findFirstOf_metaText (k p n : Nat) (x : Bytes) :
    findFirstOf (metaText k p n ++ x) '\n' = ((metaText k p n).length : Int) - 1 ∧
    1 < (metaText k p n).length := by
  obtain ⟨xs, hxs, hno, hpos⟩ := metaText_eq k p n
  rw [hxs, List.append_assoc]
  simp only [List.singleton_append, findFirstOf_append xs x '\n' hno, List.length_append,
    List.length_singleton]
  constructor
  · simp
  · omega

theorem metadata_eq (b : BlockBuffer) (k p n : Nat) (hk : b.numRecords = k) (hp : b.prevRBN = p)
    (hn : b.nextRBN = n) : b.metadata = metaText k p n := by
  simp [BlockBuffer.metadata, metaText, hk, hp, hn, Scenario.to_string_natCast]

theorem payload_eq (b : BlockBuffer) (k p n : Nat) (x : Bytes)
    (hb : b.buffer = metaText k p n ++ x) : b.payload = x := by
  obtain ⟨h1, h2⟩ := findFirstOf_metaText k p n x
  have hpos : findFirstOf (metaText k p n ++ x) '\n' > 0 := by rw [h1]; omega
  have hnat : (findFirstOf (metaText k p n ++ x) '\n').toNat + 1 = (metaText k p n).length := by
    rw [h1]; omega
  simp only [BlockBuffer.payload, hb, hpos, ↓reduceIte, hnat]
  simp

theorem payload_nil (b : BlockBuffer) (hb : b.buffer = []) : b.payload = [] := by
  simp [BlockBuffer.payload, hb, findFirstOf]

/-! ## The text of a leaf: packing and unpacking -/

theorem pack_shape (b : BlockBuffer) (k p n : Nat) (x : Bytes) (r : RecordBuffer)
    (hk : b.numRecords = k) (hp : b.prevRBN = p) (hn : b.nextRBN = n) (hx : b.payload = x) :
    b.pack r = (((metaText (k + 1) p n ++ x).length : Int),
      { b with numRecords := ((k + 1 : Nat) : Int),
               buffer := metaText (k + 1) p n ++ (x ++ recordText r.buffer) }) := by
  obtain ⟨buf, bs, mc, nr, pr, nx, cur⟩ := b
  simp only at hk hp hn
  subst hk hp hn
  have hm : (⟨buf, bs, mc, (k : Int) + 1, p, n, cur⟩ : BlockBuffer).metadata
      = metaText (k + 1) p n :=
    metadata_eq _ (k + 1) p n (by simp) rfl rfl
  simp only [BlockBuffer.pack, RecordBuffer.write, hm, hx, Scenario.to_string_natCast, recordText]
  simp

theorem packAll_shape (rs : List RecordBuffer) (b : BlockBuffer) (k p n : Nat) (x : Bytes)
    (hk : b.numRecords = k) (hp : b.prevRBN = p) (hn : b.nextRBN = n) (hx : b.payload = x)
    (hne : rs ≠ []) :
    BlockBuffer.packAll b rs =
      { b with numRecords := ((k + rs.length : Nat) : Int),
               buffer := metaText (k + rs.length) p n ++
                 (x ++ recordsText (rs.map RecordBuffer.buffer)) } := by
  induction rs generalizing b k x with
  | nil => exact absurd rfl hne
  | cons r rs ih =>
    have hpack := pack_shape b k p n x r hk hp hn hx
    simp only [BlockBuffer.packAll, List.foldl_cons, hpack]
    by_cases hrs : rs = []
    · subst hrs
      simp [recordsText]
    · have := ih ⟨metaText (k + 1) p n ++ (x ++ recordText r.buffer), b.blockSize,
          b.minimumBlockCapacity, ((k + 1 : Nat) : Int), b.prevRBN, b.nextRBN, b.curRBN⟩
        (k + 1) (x ++ recordText r.buffer) rfl hp hn (payload_eq _ (k + 1) p n _ rfl) hrs
      simp only [BlockBuffer.packAll] at this
      rw [this]
      simp only [recordsText, List.map_cons, List.flatMap_cons, List.length_cons,
        List.append_assoc]
      have e : k + 1 + rs.length = k + (rs.length + 1) := by omega
      rw [e]

theorem unpack_shape (b : BlockBuffer) (rBuf : RecordBuffer) (k p n : Nat) (c rest : Bytes)
    (hk : b.numRecords = ((k + 1 : Nat) : Int)) (hp : b.prevRBN = p) (hn : b.nextRBN = n)
    (hb : b.buffer = metaText (k + 1) p n ++ (recordText c ++ rest))
    (h1 : 10 ≤ c.length) (h2 : c.length ≤ 99) (hmax : (c.length : Int) ≤ rBuf.maxBufferSize) :
    b.unpack rBuf = .ok (((metaText (k + 1) p n).length : Int),
      { b with numRecords := (k : Int), buffer := metaText k p n ++ rest },
      { rBuf.clear with buffer := c }) := by
  obtain ⟨buf, bs, mc, nr, pr, nx, cur⟩ := b
  simp only at hk hp hn hb
  subst hk hp hn hb
  obtain ⟨a, d, hdig, hstoi, -, -, -⟩ := toDigits_twoDigits c.length h1 h2
  obtain ⟨hfind, hlen⟩ := findFirstOf_metaText (k + 1) p n (recordText c ++ rest)
  have hnot : ¬ ((((k + 1 : Nat) : Int)) - 1 < 0) := by push_cast; omega
  have hk1 : (((k + 1 : Nat) : Int)) - 1 = (k : Int) := by push_cast; ring
  have hpay : ∀ (m : Int),
      (⟨metaText (k + 1) p n ++ (recordText c ++ rest), bs, mc, m, p, n, cur⟩ : BlockBuffer).payload
        = recordText c ++ rest :=
    fun m => payload_eq _ (k + 1) p n _ rfl
  have hmeta : ∀ (bf : Bytes),
      (⟨bf, bs, mc, (k : Int), p, n, cur⟩ : BlockBuffer).metadata = metaText k p n :=
    fun bf => metadata_eq _ k p n rfl rfl rfl
  have hpos : (findFirstOf (metaText (k + 1) p n ++ (recordText c ++ rest)) '\n' + 1).toNat
      = (metaText (k + 1) p n).length := by
    rw [hfind]; omega
  have hwf : wellFormed (Stream.ofBytes (metaText (k + 1) p n ++ (recordText c ++ rest))
      (metaText (k + 1) p n).length).pieces := by
    simp [Stream.ofBytes, wellFormed]
  have hread := RecordBuffer.read_of_prefix rBuf
    (Stream.ofBytes (metaText (k + 1) p n ++ (recordText c ++ rest))
      (metaText (k + 1) p n).length) hwf rfl a d c rest hstoi hmax
    (by simp [Stream.ofBytes, Stream.data, recordText, hdig])
  have herase : eraseFront (recordText c ++ rest)
      ((((metaText (k + 1) p n).length + 2 + c.length : Nat) : Int)
        - (((metaText (k + 1) p n).length : Nat) : Int)) = rest := by
    have hl : (recordText c).length = 2 + c.length := by simp [recordText, hdig]; omega
    have e : (((metaText (k + 1) p n).length + 2 + c.length : Nat) : Int)
        - ((metaText (k + 1) p n).length : Nat) = ((2 + c.length : Nat) : Int) := by
      push_cast; ring
    rw [e]
    simp only [eraseFront]
    rw [if_neg (by omega), Int.toNat_ofNat, ← hl, List.drop_left]
  have hk0 : ¬ ((k : Int) < 0) := by omega
  simp only [BlockBuffer.unpack, hk1, hk0, ↓reduceIte, hpos, hread, bind, Except.bind, hpay,
    hmeta, pure, Except.pure]
  simp only [Stream.tell, Stream.ofBytes, Bool.false_eq_true, ↓reduceIte, herase]

theorem unpack_done (b : BlockBuffer) (rBuf : RecordBuffer) (hk : b.numRecords = 0) :
    b.unpack rBuf = .ok (-1, b, rBuf) := by
  obtain ⟨buf, bs, mc, nr, pr, nx, cur⟩ := b
  simp only at hk
  subst hk
  simp [BlockBuffer.unpack]

/-- Trailing white space does not count for `strippedLength`. -/
theorem strippedLength_append (core ws : Bytes) (hws : ∀ c ∈ ws, isspace c = true)
    (hcore : ∀ pre z, core = pre ++ [z] → isspace z = false) :
    strippedLength (core ++ ws) = core.length := by
  unfold strippedLength
  rw [List.reverse_append, List.dropWhile_append_of_pos (by simpa using hws)]
  rcases List.eq_nil_or_concat core with rfl | ⟨pre, z, rfl⟩
  · simp
  · have hz := hcore pre z (by simp)
    simp [List.dropWhile, hz]

/-! ## Blocks read and written -/

theorem metaText_head (k p n : Nat) (x : Bytes) :
    ∃ c rest, metaText k p n ++ x = c :: rest ∧ c.isDigit = true := by
  obtain ⟨hdig, hne, -⟩ := toDigits_spec k
  cases hd : Nat.toDigits 10 k with
  | nil => exact absurd hd hne
  | cons c cs =>
    refine ⟨c, cs ++ (',' :: (Nat.toDigits 10 p ++ (',' :: (Nat.toDigits 10 n ++ ['\n']))) ++ x),
      ?_, hdig c (by rw [hd]; exact List.mem_cons_self _ _)⟩
    simp [metaText, hd]

theorem recordsText_length (cs : List Bytes) : cs.length ≤ (recordsText cs).length := by
  induction cs with
  | nil => simp
  | cons c cs ih =>
    have := toDigits_length_pos c.length
    simp only [recordsText, List.flatMap_cons, List.length_append, recordText,
      List.length_cons] at ih ⊢
    omega


theorem leaf_holding (b : BlockBuffer) (p n : Nat) (cs : List Bytes) :
    Leaf (b.holding p n cs) p n cs :=
  ⟨rfl, rfl, rfl, payload_eq _ cs.length p n _ rfl, fun _ => rfl⟩

theorem leaf_fresh (b : BlockBuffer) (p n : Nat) (h0 : b.numRecords = 0) (hp : b.prevRBN = p)
    (hn : b.nextRBN = n) (hb : b.buffer = []) : Leaf b p n [] :=
  ⟨by simpa using h0, hp, hn, by simpa [recordsText] using payload_nil b hb, fun h => absurd rfl h⟩

theorem pack_leaf (b : BlockBuffer) (p n : Nat) (cs : List Bytes) (r : RecordBuffer)
    (h : Leaf b p n cs) : (b.pack r).2 = b.holding p n (cs ++ [r.buffer]) := by
  obtain ⟨hk, hp, hn, hpay, -⟩ := h
  rw [pack_shape b cs.length p n (recordsText cs) r hk hp hn hpay]
  obtain ⟨buf, bs, mc, nr, pr, nx, cur⟩ := b
  simp only at hp hn
  subst hp hn
  simp [BlockBuffer.holding, recordsText]

theorem getRecordKey_comma (r : RecordBuffer) (hd : r.deliminator = ',') :
    r.getRecordKey = ({ buffer := r.buffer } : RecordBuffer).getRecordKey := by
  simp only [RecordBuffer.getRecordKey, hd]

theorem foldl_largest_le (key : Bytes → Nat) (cs : List Bytes) (cur M : Int) (hcur : cur ≤ M)
    (h : ∀ c ∈ cs, (key c : Int) ≤ M) :
    cs.foldl (fun acc c => if (key c : Int) > acc then (key c : Int) else acc) cur ≤ M := by
  induction cs generalizing cur with
  | nil => exact hcur
  | cons c cs ih =>
    simp only [List.foldl_cons]
    apply ih
    · split
      · exact h c (List.mem_cons_self _ _)
      · exact hcur
    · exact fun c' hc' => h c' (List.mem_cons_of_mem _ hc')

theorem foldl_largest (key : Bytes → Nat) (init : List Bytes) (c : Bytes) (cur : Int)
    (hcur : cur ≤ key c) (h : ∀ x ∈ init, key x ≤ key c) :
    (init ++ [c]).foldl (fun acc c => if (key c : Int) > acc then (key c : Int) else acc) cur
      = key c := by
  have := foldl_largest_le key init cur (key c) hcur (fun x hx => by exact_mod_cast h x hx)
  simp only [List.foldl_append, List.foldl_cons, List.foldl_nil]
  split
  · rfl
  · omega

/-- The loop of `getLargestKey` over a leaf text followed by any bytes. -/
theorem largestLoop_leaf (cs : List Bytes) (b : BlockBuffer) (rBuf : RecordBuffer)
    (p n : Nat) (extra : Bytes) (fuel : Nat) (cur : Int) (key : Bytes → Nat)
    (hfuel : cs.length < fuel)
    (hk : b.numRecords = cs.length) (hp : b.prevRBN = p) (hn : b.nextRBN = n)
    (hb : b.buffer = metaText cs.length p n ++ (recordsText cs ++ extra))
    (hcs : ∀ c ∈ cs, 10 ≤ c.length ∧ c.length ≤ 99) (hmax : 99 ≤ rBuf.maxBufferSize)
    (hdel : rBuf.deliminator = ',')
    (hkey : ∀ c ∈ cs, ({ buffer := c } : RecordBuffer).getRecordKey = .ok (key c : Int)) :
    BlockBuffer.largestLoop fuel b rBuf cur =
      .ok (cs.foldl (fun acc c => if (key c : Int) > acc then (key c : Int) else acc) cur) := by
  induction cs generalizing b rBuf fuel cur with
  | nil =>
    obtain ⟨fuel, rfl⟩ : ∃ f, fuel = f + 1 := ⟨fuel - 1, by simp at hfuel; omega⟩
    simp [BlockBuffer.largestLoop, unpack_done b rBuf (by simpa using hk), bind, Except.bind,
      pure, Except.pure]
  | cons c cs ih =>
    obtain ⟨fuel, rfl⟩ : ∃ f, fuel = f + 1 := ⟨fuel - 1, by simp at hfuel; omega⟩
    have hc := hcs c (List.mem_cons_self _ _)
    have hun := unpack_shape b rBuf cs.length p n c (recordsText cs ++ extra)
      (by simpa using hk) hp hn
      (by simpa [recordsText, List.append_assoc] using hb) hc.1 hc.2 (by omega)
    have hne : ((metaText (cs.length + 1) p n).length : Int) ≠ -1 := by omega
    have hrk : ({ rBuf.clear with buffer := c } : RecordBuffer).getRecordKey = .ok (key c : Int) := by
      rw [getRecordKey_comma _ (by simpa [RecordBuffer.clear] using hdel)]
      exact hkey c (List.mem_cons_self _ _)
    have hrec := ih
      ⟨metaText cs.length p n ++ (recordsText cs ++ extra), b.blockSize, b.minimumBlockCapacity,
        (cs.length : Int), b.prevRBN, b.nextRBN, b.curRBN⟩
      { rBuf.clear with buffer := c } fuel
      (if (key c : Int) > cur then (key c : Int) else cur)
      (by simp at hfuel; omega) rfl hp hn rfl
      (fun c' hc' => hcs c' (List.mem_cons_of_mem _ hc')) hmax
      (by simpa [RecordBuffer.clear] using hdel)
      (fun c' hc' => hkey c' (List.mem_cons_of_mem _ hc'))
    simp only [BlockBuffer.largestLoop, hun, bind, Except.bind, hne, ↓reduceIte, hrk]
    rw [hrec]
    rfl

/-- `BlockBuffer::read` without a seek (`blockNumber = -1`), given what the stream delivers. -/
theorem BlockBuffer.read_here (env : Env) (b0 : BlockBuffer) (s : Stream) (rd : Bytes)
    (got : Nat) (s2 : Stream) (k p n : Nat) (x : Bytes)
    (hB : b0.blockSize = 512) (hf : s.failed = false)
    (hread : s.read 512 '\x00' = (rd, got, s2))
    (htext : (rd ++ [env.oobByte]).take (strippedLength rd + 1) = metaText k p n ++ x)
    (hk : k ≤ 2147483647) (hp : p ≤ 2147483647) (hn : n ≤ 2147483647) :
    b0.read env s 0 (-1) = .ok ((s.pos : Int),
      { b0 with curRBN := Int.tdiv ((s.pos : Int) + 512 - 0) 512, buffer := metaText k p n ++ x,
                numRecords := k, prevRBN := p, nextRBN := n }, s2) := by
  obtain ⟨ps, pos, failed⟩ := s
  obtain ⟨buf0, bs, mc, nr, pr, nx, cur⟩ := b0
  simp only at hB hf
  subst hB hf
  obtain ⟨c, rest, hcr, hcd⟩ := metaText_head k p n x
  have hhead : ¬ (rd.head? = some '\x00') := by
    cases hbuf : rd with
    | nil => simp
    | cons y ys =>
      rw [hbuf] at htext
      simp only [List.cons_append, List.take_succ_cons, hcr, List.cons.injEq] at htext
      simp only [List.head?_cons, Option.some.injEq]
      rw [htext.1]
      exact (isDigit_ne c hcd).2.2.2.2.2.2.1
  have h1 := getlineSplit_append (Nat.toDigits 10 k)
    (Nat.toDigits 10 p ++ (',' :: (Nat.toDigits 10 n ++ ('\n' :: x)))) ','
    (toDigits_not_mem k _ (by decide))
  have h2 := getlineSplit_append (Nat.toDigits 10 p) (Nat.toDigits 10 n ++ ('\n' :: x)) ','
    (toDigits_not_mem p _ (by decide))
  have h3 := getlineSplit_append (Nat.toDigits 10 n) x '\n' (toDigits_not_mem n _ (by decide))
  have htext' : (rd ++ [env.oobByte]).take (strippedLength rd + 1) =
      Nat.toDigits 10 k ++ (',' :: (Nat.toDigits 10 p ++ (',' :: (Nat.toDigits 10 n ++ ('\n' :: x))))) := by
    rw [htext]; simp [metaText]
  have h512 : (512 : Int).toNat = 512 := rfl
  simp only [BlockBuffer.read, bne_self_eq_false, Bool.false_eq_true, ↓reduceIte, Stream.tell,
    h512, hread, hhead, htext', h1, h2, h3, stoiThrow, stoi_toDigits k hk,
    stoi_toDigits p hp, stoi_toDigits n hn, bind, Except.bind, pure, Except.pure]
  simp [metaText]

namespace Scenario

/-! ## C11 – C20: splitting, merging and the block formats -/

/-- The reference state `tree5` is what five inserts into a new file produce. -/
theorem addRecords_five :
    addRecords env empty (records '\n' [10, 20, 30, 40, 50]) = .ok tree5 := by
  decide!

/-- C12 (the code breaks it).  Keys 10 .. 90 sit in the leaves 2, 3, 4.  After `remove` of 10
leaf 2 is underfilled and still linked to leaf 3.  `remove` of 40 then leaves leaf 3
underfilled with the underfilled previous leaf 2, and `handleMerge` merges them: block 2 holds
20, 30, 50, 60 and the root drops one separator and the child 3.  But the `nextRBN` of the
merged leaf is not changed: the leftmost leaf is block 2 and its `nextRBN` is still 3, the
vacated block, which now counts no record and points on to block 5. -/
theorem C12_merge_into_previous_leaf_keeps_vacated_block_in_chain :
    addRecords env empty (records '\n' [10, 20, 30, 40, 50, 60]) = .ok (tree6 '\n') ∧
    addRecords env (tree6 '\n') (records '\n' [70, 80, 90]) = .ok tree9 ∧
    (do let t ← deleteRecords env tree9 (records '\n' [10])
        let before ← [2, 3].mapM fun rbn => do
          let (_, b, _) ← ({} : BlockBuffer).read env t.file 512 rbn
          pure (b.isUnderFilled, b.prevRBN, b.nextRBN)
        let (_, t) ← t.remove env (record 40 95 '\n')
        let (leftmost, _) ← t.findLeafNode env 0
        let l ← t.deref leftmost
        let (_, b2, _) ← ({} : BlockBuffer).read env t.file 512 2
        let (_, b3, _) ← ({} : BlockBuffer).read env t.file 512 3
        let keys2 ← blockKeys env t 2
        pure (before, t.root.keys, t.root.children, l.getCurRBN, keys2, b2.nextRBN,
              b3.numRecords, b3.nextRBN, t.headerBuffer.rbnAvail))
      = .ok ([(true, 0, 3), (false, 2, 4)], [60], [2, 4], 2, [20, 30, 50, 60], 3, 0, 5, 3) :=
  ⟨addRecords_six_newline, addRecords_nine, by decide!⟩

/-- C15 (the code breaks it).  An index node with no key and the one child 2 is written to
block 1 and read into a fresh node: `unpack` takes `;2` for the text of the keys and
`std::stoi` throws.  Such a root arises in the tree holding 10 .. 60 once the records 10 and
40 are removed (the two leaves merge and the root loses its only separator); the file then
cannot be read back. -/
theorem C15_index_node_without_keys_is_not_read_back :
    (do let n : BTreeNode :=
          { BTreeNode.new env 10 with isLeaf := false, keys := [], children := [2] }
        let (_, _, s) ← n.write ⟨[], 0, false⟩ 512 1
        let (_, m, _) ← (BTreeNode.new env 10).read env s 512 1
        pure (m.keys, m.children)) = .error .exception ∧
    (do let t ← deleteRecords env (tree6 '\n') (records '\n' [10, 40])
        pure (t.root.isLeaf, t.root.keys, t.root.children, (t.file.data.drop 512).take 6))
      = .ok (false, [], [2], "I\n;2\n ".toList) ∧
    (do let t ← deleteRecords env (tree6 '\n') (records '\n' [10, 40])
        let bytes ← t.closeFile
        let (_, onDisk, _) ← (BTreeNode.new env 10).read env (Stream.ofBytes bytes 0) 512 1
        pure (onDisk.keys, onDisk.children)) = .error .exception := by
  decide!

/-- C16 (fails as stated).  A record of 5 bytes is written with a one-digit length, `57,abc`;
`read` takes `57` for the length and leaves 57 bytes that are not the record. -/
theorem C16_short_record_is_not_restored :
    (({ buffer := "7,abc".toList } : RecordBuffer).write []).2 = "57,abc".toList ∧
    (do let (ret, r, _) ← ({} : RecordBuffer).read (Stream.ofBytes "57,abc".toList 0) (-1)
        pure (ret, r.buffer.length, decide (r.buffer = "7,abc".toList))) = .ok (0, 57, false) := by
  decide!

/-- C16 (amended).  For every record whose content is 10 to 99 bytes long, `write` appends to
the text `out` two decimal digits whose value is the length, followed by the content; and
`read`, by a record buffer whose `maxBufferSize` admits the length, at the place of a stream
where these bytes stand, returns that place and restores exactly the content. -/
theorem C16_record_round_trip (r reader : RecordBuffer) (out rest : Bytes)
    (h1 : 10 ≤ r.buffer.length) (h2 : r.buffer.length ≤ 99)
    (hmax : (r.buffer.length : Int) ≤ reader.maxBufferSize) :
    ∃ a b, a.isDigit = true ∧ b.isDigit = true ∧
      10 * (a.toNat - 48) + (b.toNat - 48) = r.buffer.length ∧
      r.write out = ((out.length : Int), out ++ a :: b :: r.buffer) ∧
      (reader.read (Stream.ofBytes ((r.write out).2 ++ rest) out.length) (-1)).map
          (fun x => (x.1, x.2.1.buffer)) = .ok ((out.length : Int), r.buffer) := by
  obtain ⟨a, b, hdig, hstoi, ha, hb, hval⟩ := toDigits_twoDigits r.buffer.length h1 h2
  have hw : r.write out = ((out.length : Int), out ++ a :: b :: r.buffer) := by
    simp [RecordBuffer.write, to_string, hdig]
  refine ⟨a, b, ha, hb, hval, hw, ?_⟩
  rw [hw]
  have hwf : wellFormed (Stream.ofBytes ((out ++ a :: b :: r.buffer) ++ rest) out.length).pieces := by
    simp [Stream.ofBytes, wellFormed]
  rw [RecordBuffer.read_of_prefix reader _ hwf rfl a b r.buffer rest hstoi hmax
    (by simp [Stream.ofBytes, Stream.data])]
  rfl

/-- C16 (amended), at a record of 11 bytes written behind the text `0,0,0` and a newline. -/
theorem C16_record_round_trip_witness :
    10 ≤ (record 10 7 '\n').buffer.length ∧ (record 10 7 '\n').buffer.length ≤ 99 ∧
    ((record 10 7 '\n').buffer.length : Int) ≤ ({} : RecordBuffer).maxBufferSize ∧
    ∃ a b, a.isDigit = true ∧ b.isDigit = true ∧
      10 * (a.toNat - 48) + (b.toNat - 48) = (record 10 7 '\n').buffer.length ∧
      (record 10 7 '\n').write "0,0,0\n".toList =
        (("0,0,0\n".toList.length : Int), "0,0,0\n".toList ++ a :: b :: (record 10 7 '\n').buffer) ∧
      (({} : RecordBuffer).read (Stream.ofBytes (((record 10 7 '\n').write "0,0,0\n".toList).2 ++ [])
          "0,0,0\n".toList.length) (-1)).map (fun x => (x.1, x.2.1.buffer))
        = .ok (("0,0,0\n".toList.length : Int), (record 10 7 '\n').buffer) :=
  ⟨by decide, by decide, by decide,
    C16_record_round_trip (record 10 7 '\n') {} "0,0,0\n".toList [] (by decide) (by decide)
      (by decide)⟩

/-- C17 (the code breaks it).  With a header of 1024 bytes an index node is written to
block 2, at offset 1536, and read back from there.  `getCurRBN()` returns 1 after the write
and after the read (`BTreeNode` divides the offset by the header size), where
`(offset - headerSize) / blockSize + 1` is 2; a leaf written to the same block reports 2. -/
theorem C17_index_node_reports_another_rbn :
    (do let n : BTreeNode :=
          { BTreeNode.new env 10 with isLeaf := false, keys := [30], children := [2, 3] }
        let (off, n1, s) ← n.write ⟨[], 0, false⟩ 1024 2
        let (off2, m, _) ← (BTreeNode.new env 10).read env s 1024 2
        let (_, leaf, _) ← (BTreeNode.new env 10).write ⟨[], 0, false⟩ 1024 2
        pure (off, n1.getCurRBN, off2, m.getCurRBN, (off - 1024) / 512 + 1, leaf.getCurRBN))
      = .ok (1536, 1, 1536, 1, 2, 2) := by
  decide!

/-- C19.  On a leaf `getNextChild` returns -1.  On an index node with one more child than
keys it returns the child at an index `i` such that every key in front of `i` is smaller than
`key` and either `key <= keys[i]` (so `i` is the least such index) or `i` is past the last
key and the child is the last one.  (That the keys ascend is not needed.) -/
theorem C19_getNextChild_routes (n : BTreeNode) (key : Int)
    (hlen : n.isLeaf = false → n.children.length = n.keys.length + 1) :
    (n.isLeaf = true → n.getNextChild key = .ok (-1)) ∧
    (n.isLeaf = false →
      ∃ i c, n.children[i]? = some c ∧ n.getNextChild key = .ok c ∧
        (∀ j k, j < i → n.keys[j]? = some k → k < key) ∧
        ((∃ k, n.keys[i]? = some k ∧ key ≤ k) ∨
          (i = n.keys.length ∧ i + 1 = n.children.length))) := by
  constructor
  · intro h
    simp [BTreeNode.getNextChild, h]
  · intro h
    have hl := hlen h
    have := nextChildLoop_spec n key (n.children.length - 1) 0 hl (by omega)
      (fun j k hj _ => absurd hj (by omega))
    simpa [BTreeNode.getNextChild, h] using this

/-- C19, at the root with the keys 30, 60 and the children 2, 3, 4 and the key 45. -/
theorem C19_getNextChild_routes_witness :
    ((indexRoot [30, 60] [2, 3, 4]).isLeaf = false →
      (indexRoot [30, 60] [2, 3, 4]).children.length
        = (indexRoot [30, 60] [2, 3, 4]).keys.length + 1) ∧
    (((indexRoot [30, 60] [2, 3, 4]).isLeaf = true →
        (indexRoot [30, 60] [2, 3, 4]).getNextChild 45 = .ok (-1)) ∧
      ((indexRoot [30, 60] [2, 3, 4]).isLeaf = false →
        ∃ i c, (indexRoot [30, 60] [2, 3, 4]).children[i]? = some c ∧
          (indexRoot [30, 60] [2, 3, 4]).getNextChild 45 = .ok c ∧
          (∀ j k, j < i → (indexRoot [30, 60] [2, 3, 4]).keys[j]? = some k → k < 45) ∧
          ((∃ k, (indexRoot [30, 60] [2, 3, 4]).keys[i]? = some k ∧ 45 ≤ k) ∨
            (i = (indexRoot [30, 60] [2, 3, 4]).keys.length ∧
              i + 1 = (indexRoot [30, 60] [2, 3, 4]).children.length)))) :=
  ⟨fun _ => by decide, C19_getNextChild_routes (indexRoot [30, 60] [2, 3, 4]) 45 (fun _ => by decide)⟩

/-- C20.  On an index node with ascending keys and one more child than keys, the one-child
form `insertKeyAndChildren(key, child)` returns 0; there is a position `p` with every key in
front of it smaller than `key` and no key from it on smaller (the lower bound), the new keys
are the old ones with `key` put in at `p`, the new children are the old ones with `child` put
in at `p + 1`, the keys still ascend and there is still one more child than keys. -/
theorem C20_insertKeyAndChildren_one_child (n : BTreeNode) (key child : Int)
    (hs : n.keys.Sorted (· ≤ ·)) (hlen : n.children.length = n.keys.length + 1) :
    ∃ p n', n.insertKeyAndChildren key child = .ok (0, n') ∧
      (∀ k ∈ n.keys.take p, k < key) ∧ (∀ k ∈ n.keys.drop p, key ≤ k) ∧
      n'.keys = n.keys.take p ++ key :: n.keys.drop p ∧
      n'.children = n.children.take (p + 1) ++ child :: n.children.drop (p + 1) ∧
      n'.keys.Sorted (· ≤ ·) ∧ n'.children.length = n'.keys.length + 1 := by
  obtain ⟨hlt, hge⟩ := lowerBound_spec n.keys key hs
  have hp : lowerBound n.keys key ≤ n.keys.length := by
    unfold lowerBound
    exact (List.takeWhile_sublist _).length_le
  refine ⟨lowerBound n.keys key,
    { n with keys := n.keys.take (lowerBound n.keys key) ++ key :: n.keys.drop (lowerBound n.keys key),
             children := n.children.take (lowerBound n.keys key + 1) ++
               child :: n.children.drop (lowerBound n.keys key + 1),
             numKeys := n.numKeys + 1 }, ?_, hlt, hge, rfl, rfl, ?_, ?_⟩
  · have h1 : lowerBound n.keys key + 1 ≤ n.children.length := by omega
    simp [BTreeNode.insertKeyAndChildren, vecInsert, hp, h1, bind, Except.bind, pure, Except.pure]
  · show (n.keys.take _ ++ key :: n.keys.drop _).Sorted (· ≤ ·)
    have hst : (n.keys.take (lowerBound n.keys key)).Sorted (· ≤ ·) :=
      hs.sublist (List.take_sublist _ _)
    have hsd : (n.keys.drop (lowerBound n.keys key)).Sorted (· ≤ ·) :=
      hs.sublist (List.drop_sublist _ _)
    rw [List.Sorted, List.pairwise_append]
    refine ⟨hst, List.pairwise_cons.mpr ⟨hge, hsd⟩, ?_⟩
    intro a ha b hb
    have := hlt a ha
    rcases List.mem_cons.mp hb with rfl | hb
    · omega
    · have := hge b hb
      omega
  · show (n.children.take _ ++ child :: n.children.drop _).length
      = (n.keys.take _ ++ key :: n.keys.drop _).length + 1
    simp
    omega

/-- C20, at the root with the keys 30, 60 and the children 2, 3, 4, for the key 45 and the
child 5. -/
theorem C20_insertKeyAndChildren_one_child_witness :
    (indexRoot [30, 60] [2, 3, 4]).keys.Sorted (· ≤ ·) ∧
    (indexRoot [30, 60] [2, 3, 4]).children.length
      = (indexRoot [30, 60] [2, 3, 4]).keys.length + 1 ∧
    ∃ p n', (indexRoot [30, 60] [2, 3, 4]).insertKeyAndChildren 45 5 = .ok (0, n') ∧
      (∀ k ∈ (indexRoot [30, 60] [2, 3, 4]).keys.take p, k < 45) ∧
      (∀ k ∈ (indexRoot [30, 60] [2, 3, 4]).keys.drop p, 45 ≤ k) ∧
      n'.keys = (indexRoot [30, 60] [2, 3, 4]).keys.take p ++
        45 :: (indexRoot [30, 60] [2, 3, 4]).keys.drop p ∧
      n'.children = (indexRoot [30, 60] [2, 3, 4]).children.take (p + 1) ++
        5 :: (indexRoot [30, 60] [2, 3, 4]).children.drop (p + 1) ∧
      n'.keys.Sorted (· ≤ ·) ∧ n'.children.length = n'.keys.length + 1 :=
  ⟨by decide, by decide,
    C20_insertKeyAndChildren_one_child (indexRoot [30, 60] [2, 3, 4]) 45 5 (by decide)
      (by decide)⟩

end Scenario

/-! ## Leaves that are split, sorted, merged and searched

A block buffer that was read from its block keeps a byte of padding behind its records, and
one whose links were set keeps the old metadata line.  `Holds` covers both; what `pack`
builds is a `Leaf`. -/

theorem unpack_stale (b : BlockBuffer) (rBuf : RecordBuffer) (k p n k' p' n' : Nat)
    (c rest : Bytes)
    (hk : b.numRecords = ((k + 1 : Nat) : Int)) (hp : b.prevRBN = p) (hn : b.nextRBN = n)
    (hb : b.buffer = metaText k' p' n' ++ (recordText c ++ rest))
    (h1 : 10 ≤ c.length) (h2 : c.length ≤ 99) (hmax : (c.length : Int) ≤ rBuf.maxBufferSize) :
    b.unpack rBuf = .ok (((metaText k' p' n').length : Int),
      { b with numRecords := (k : Int), buffer := metaText k p n ++ rest },
      { rBuf.clear with buffer := c }) := by
  obtain ⟨buf, bs, mc, nr, pr, nx, cur⟩ := b
  simp only at hk hp hn hb
  subst hk hp hn hb
  obtain ⟨a, d, hdig, hstoi, -, -, -⟩ := toDigits_twoDigits c.length h1 h2
  obtain ⟨hfind, hlen⟩ := findFirstOf_metaText k' p' n' (recordText c ++ rest)
  have hnot : ¬ ((((k + 1 : Nat) : Int)) - 1 < 0) := by push_cast; omega
  have hk1 : (((k + 1 : Nat) : Int)) - 1 = (k : Int) := by push_cast; ring
  have hpay : ∀ (m : Int),
      (⟨metaText k' p' n' ++ (recordText c ++ rest), bs, mc, m, p, n, cur⟩ : BlockBuffer).payload
        = recordText c ++ rest :=
    fun m => payload_eq _ k' p' n' _ rfl
  have hmeta : ∀ (bf : Bytes),
      (⟨bf, bs, mc, (k : Int), p, n, cur⟩ : BlockBuffer).metadata = metaText k p n :=
    fun bf => metadata_eq _ k p n rfl rfl rfl
  have hpos : (findFirstOf (metaText k' p' n' ++ (recordText c ++ rest)) '\n' + 1).toNat
      = (metaText k' p' n').length := by
    rw [hfind]; omega
  have hwf : wellFormed (Stream.ofBytes (metaText k' p' n' ++ (recordText c ++ rest))
      (metaText k' p' n').length).pieces := by
    simp [Stream.ofBytes, wellFormed]
  have hread := RecordBuffer.read_of_prefix rBuf
    (Stream.ofBytes (metaText k' p' n' ++ (recordText c ++ rest))
      (metaText k' p' n').length) hwf rfl a d c rest hstoi hmax
    (by simp [Stream.ofBytes, Stream.data, recordText, hdig])
  have herase : eraseFront (recordText c ++ rest)
      ((((metaText k' p' n').length + 2 + c.length : Nat) : Int)
        - (((metaText k' p' n').length : Nat) : Int)) = rest := by
    have hl : (recordText c).length = 2 + c.length := by simp [recordText, hdig]; omega
    have e : (((metaText k' p' n').length + 2 + c.length : Nat) : Int)
        - ((metaText k' p' n').length : Nat) = ((2 + c.length : Nat) : Int) := by
      push_cast; ring
    rw [e]
    simp only [eraseFront]
    rw [if_neg (by omega), Int.toNat_ofNat, ← hl, List.drop_left]
  have hk0 : ¬ ((k : Int) < 0) := by omega
  simp only [BlockBuffer.unpack, hk1, hk0, ↓reduceIte, hpos, hread, bind, Except.bind, hpay,
    hmeta, pure, Except.pure]
  simp only [Stream.tell, Stream.ofBytes, Bool.false_eq_true, ↓reduceIte, herase]

theorem leaf_holds (b : BlockBuffer) (p n : Nat) (cs : List Bytes) (h : Leaf b p n cs) :
    Holds b p n cs :=
  ⟨h.1, h.2.1, h.2.2.1, fun hne => ⟨cs.length, p, n, [], by rw [h.2.2.2.2 hne]; simp⟩⟩

/-- One `unpack` of a block buffer that holds records: the first record comes out, the
others stay. -/
theorem unpack_holds (b : BlockBuffer) (rBuf : RecordBuffer) (p n : Nat) (c : Bytes)
    (cs : List Bytes) (h : Holds b p n (c :: cs)) (h1 : 10 ≤ c.length) (h2 : c.length ≤ 99)
    (hmax : 99 ≤ rBuf.maxBufferSize) :
    ∃ (addr : Int) (b' : BlockBuffer), addr ≠ -1 ∧
      b.unpack rBuf = .ok (addr, b', { rBuf.clear with buffer := c }) ∧ Holds b' p n cs := by
  obtain ⟨hk, hp, hn, hbuf⟩ := h
  obtain ⟨k', p', n', extra, hb⟩ := hbuf (by simp)
  have hun := unpack_stale b rBuf cs.length p n k' p' n' c (recordsText cs ++ extra)
    (by simpa using hk) hp hn (by simpa [recordsText, List.append_assoc] using hb) h1 h2
    (by omega)
  exact ⟨_, _, by omega, hun, rfl, hp, hn, fun _ => ⟨cs.length, p, n, extra, rfl⟩⟩

theorem unpack_holds_nil (b : BlockBuffer) (rBuf : RecordBuffer) (p n : Nat)
    (h : Holds b p n []) : b.unpack rBuf = .ok (-1, b, rBuf) :=
  unpack_done b rBuf (by simpa using h.1)

/-- The loop `while (unpack(recordBuffer) != -1) recordBuffers.push_back(recordBuffer);`. -/
theorem unpackAll_holds (cs : List Bytes) (b : BlockBuffer) (rBuf : RecordBuffer)
    (acc : List RecordBuffer) (p n : Nat) (fuel : Nat) (hfuel : cs.length < fuel)
    (h : Holds b p n cs) (hcs : ∀ c ∈ cs, 10 ≤ c.length ∧ c.length ≤ 99)
    (hmax : 99 ≤ rBuf.maxBufferSize) :
    ∃ b' r', BlockBuffer.unpackAll fuel b rBuf acc =
        .ok (b', r', acc ++ cs.map (fun c => { rBuf.clear with buffer := c })) ∧
      Holds b' p n [] := by
  induction cs generalizing b rBuf acc fuel with
  | nil =>
    obtain ⟨fuel, rfl⟩ : ∃ f, fuel = f + 1 := ⟨fuel - 1, by simp at hfuel; omega⟩
    refine ⟨b, rBuf, ?_, h⟩
    simp [BlockBuffer.unpackAll, unpack_holds_nil b rBuf p n h, bind, Except.bind, pure,
      Except.pure]
  | cons c cs ih =>
    obtain ⟨fuel, rfl⟩ : ∃ f, fuel = f + 1 := ⟨fuel - 1, by simp at hfuel; omega⟩
    have hc := hcs c (List.mem_cons_self _ _)
    obtain ⟨addr, b1, haddr, hun, hb1⟩ := unpack_holds b rBuf p n c cs h hc.1 hc.2 hmax
    obtain ⟨b', r', hrec, hb'⟩ := ih b1 { rBuf.clear with buffer := c }
      (acc ++ [{ rBuf.clear with buffer := c }]) fuel (by simp at hfuel; omega) hb1
      (fun c' hc' => hcs c' (List.mem_cons_of_mem _ hc')) hmax
    refine ⟨b', r', ?_, hb'⟩
    simp only [BlockBuffer.unpackAll, hun, bind, Except.bind, haddr, ↓reduceIte]
    rw [hrec]
    simp [RecordBuffer.clear]

/-- Packing records into a block buffer that has been cleared. -/
theorem packAll_cleared (b0 : BlockBuffer) (p n : Nat) (cs : List Bytes)
    (h0 : b0.numRecords = 0) (hp : b0.prevRBN = p) (hn : b0.nextRBN = n) (hb : b0.buffer = []) :
    Leaf (BlockBuffer.packAll b0 (cs.map fun c => ({ buffer := c } : RecordBuffer))) p n cs := by
  by_cases hcs : cs = []
  · subst hcs
    exact leaf_fresh b0 p n h0 hp hn hb
  · have hne : (cs.map fun c => ({ buffer := c } : RecordBuffer)) ≠ [] := by simpa using hcs
    rw [packAll_shape _ b0 0 p n [] (by simpa using h0) hp hn (payload_nil _ hb) hne]
    have hmap : (cs.map fun c => ({ buffer := c } : RecordBuffer)).map RecordBuffer.buffer = cs := by
      simp [List.map_map, Function.comp_def]
    refine ⟨by simp, hp, hn, ?_, fun _ => by simp [hmap]⟩
    exact payload_eq _ cs.length p n _ (by simp [hmap])

/-- The `for` loop of `splitBuffer` on a block buffer that holds records. -/
theorem distribute_holds (R : List Bytes) (k i : Nat) (b tmp1 tmp2 : BlockBuffer)
    (rBuf : RecordBuffer) (p n : Nat) (A B : List Bytes)
    (hb : Holds b p n R) (h1 : Leaf tmp1 0 0 A) (h2 : Leaf tmp2 0 0 B)
    (hR : ∀ c ∈ R, 10 ≤ c.length ∧ c.length ≤ 99) (hmax : 99 ≤ rBuf.maxBufferSize) :
    ∃ b' t1 t2 r', BlockBuffer.distribute (k : Int) R.length (i : Int) b tmp1 tmp2 rBuf =
        .ok (b', t1, t2, r') ∧
      Holds b' p n [] ∧ Leaf t1 0 0 (A ++ R.take (k - i)) ∧ Leaf t2 0 0 (B ++ R.drop (k - i)) ∧
      r'.maxBufferSize = rBuf.maxBufferSize := by
  induction R generalizing i b tmp1 tmp2 rBuf A B with
  | nil =>
    refine ⟨b, tmp1, tmp2, rBuf, by simp [BlockBuffer.distribute], hb, ?_, ?_, rfl⟩
    · simpa using h1
    · simpa using h2
  | cons c R ih =>
    have hc := hR c (List.mem_cons_self _ _)
    obtain ⟨addr, b1, -, hun, hb1⟩ := unpack_holds b rBuf p n c R hb hc.1 hc.2 hmax
    have hcast : ((i : Int) + 1) = ((i + 1 : Nat) : Int) := by push_cast; rfl
    by_cases hik : i < k
    · have hlt : (i : Int) < (k : Int) := by omega
      have hpk := pack_leaf tmp1 0 0 A { rBuf.clear with buffer := c } h1
      obtain ⟨b', t1, t2, r', hrec, hb', ht1, ht2, hm⟩ := ih (i + 1) b1
        (tmp1.holding 0 0 (A ++ [c])) tmp2 { rBuf.clear with buffer := c } (A ++ [c]) B hb1
        (leaf_holding _ _ _ _) h2 (fun c' hc' => hR c' (List.mem_cons_of_mem _ hc')) hmax
      obtain ⟨j, hj⟩ : ∃ j, k - i = j + 1 := ⟨k - i - 1, by omega⟩
      have hj' : k - (i + 1) = j := by omega
      refine ⟨b', t1, t2, r', ?_, hb', ?_, ?_, hm⟩
      · simp only [BlockBuffer.distribute, List.length_cons, hun, bind, Except.bind, hlt,
          ↓reduceIte, hpk, hcast, hrec]
      · rw [hj, List.take_succ_cons]; rw [hj'] at ht1; simpa using ht1
      · rw [hj, List.drop_succ_cons]; rw [hj'] at ht2; exact ht2
    · have hlt : ¬ ((i : Int) < (k : Int)) := by omega
      have hpk := pack_leaf tmp2 0 0 B { rBuf.clear with buffer := c } h2
      obtain ⟨b', t1, t2, r', hrec, hb', ht1, ht2, hm⟩ := ih (i + 1) b1 tmp1
        (tmp2.holding 0 0 (B ++ [c])) { rBuf.clear with buffer := c } A (B ++ [c]) hb1 h1
        (leaf_holding _ _ _ _) (fun c' hc' => hR c' (List.mem_cons_of_mem _ hc')) hmax
      have hj : k - i = 0 := by omega
      have hj' : k - (i + 1) = 0 := by omega
      refine ⟨b', t1, t2, r', ?_, hb', ?_, ?_, hm⟩
      · simp only [BlockBuffer.distribute, List.length_cons, hun, bind, Except.bind, hlt,
          ↓reduceIte, hpk, hcast, hrec]
      · rw [hj, List.take_zero]; rw [hj'] at ht1; simpa using ht1
      · rw [hj, List.drop_zero]; rw [hj'] at ht2; simpa using ht2

/-- The loop `while (src.unpack(rBuf) != -1) dst.pack(rBuf);`: the records of `src` are put
behind those of `dst`. -/
theorem moveAll_holds (cs : List Bytes) (src dst : BlockBuffer) (rBuf : RecordBuffer)
    (p n p' n' : Nat) (ds : List Bytes) (fuel : Nat) (hfuel : cs.length < fuel)
    (hsrc : Holds src p n cs) (hdst : Leaf dst p' n' ds)
    (hcs : ∀ c ∈ cs, 10 ≤ c.length ∧ c.length ≤ 99) (hmax : 99 ≤ rBuf.maxBufferSize) :
    ∃ src' dst' r', BlockBuffer.moveAll fuel src dst rBuf = .ok (src', dst', r') ∧
      Holds src' p n [] ∧ Leaf dst' p' n' (ds ++ cs) ∧
      r'.maxBufferSize = rBuf.maxBufferSize := by
  induction cs generalizing src dst rBuf ds fuel with
  | nil =>
    obtain ⟨fuel, rfl⟩ : ∃ f, fuel = f + 1 := ⟨fuel - 1, by simp at hfuel; omega⟩
    refine ⟨src, dst, rBuf, ?_, hsrc, by simpa using hdst, rfl⟩
    simp [BlockBuffer.moveAll, unpack_holds_nil src rBuf p n hsrc, bind, Except.bind, pure,
      Except.pure]
  | cons c cs ih =>
    obtain ⟨fuel, rfl⟩ : ∃ f, fuel = f + 1 := ⟨fuel - 1, by simp at hfuel; omega⟩
    have hc := hcs c (List.mem_cons_self _ _)
    obtain ⟨addr, s1, haddr, hun, hs1⟩ := unpack_holds src rBuf p n c cs hsrc hc.1 hc.2 hmax
    have hpk := pack_leaf dst p' n' ds { rBuf.clear with buffer := c } hdst
    obtain ⟨src', dst', r', hrec, hs', hd', hm⟩ := ih s1 (dst.holding p' n' (ds ++ [c]))
      { rBuf.clear with buffer := c } (ds ++ [c]) fuel (by simp at hfuel; omega) hs1
      (leaf_holding _ _ _ _) (fun c' hc' => hcs c' (List.mem_cons_of_mem _ hc')) hmax
    refine ⟨src', dst', r', ?_, hs', by simpa using hd', hm⟩
    simp only [BlockBuffer.moveAll, hun, bind, Except.bind, haddr, ↓reduceIte, hpk, hrec]

/-- `splitBuffer`: the first `count / 2` records stay, the others go to the new buffer. -/
theorem splitBuffer_holds (b nb : BlockBuffer) (p n p' n' : Nat) (S : List Bytes)
    (hb : Holds b p n S) (hnb : Leaf nb p' n' [])
    (hS : ∀ c ∈ S, 10 ≤ c.length ∧ c.length ≤ 99) :
    ∃ b' nb', b.splitBuffer nb = .ok (b', nb') ∧
      Leaf b' p n (S.take (S.length / 2)) ∧ Leaf nb' p' n' (S.drop (S.length / 2)) := by
  have hk : Int.tdiv b.numRecords 2 = ((S.length / 2 : Nat) : Int) := by
    rw [hb.1]; rfl
  have hnum : b.numRecords.toNat = S.length := by rw [hb.1]; simp
  obtain ⟨b1, t1, t2, r1, hdist, hb1, ht1, ht2, hm1⟩ := distribute_holds S (S.length / 2) 0 b {}
    {} {} p n [] [] hb (leaf_fresh _ 0 0 rfl rfl rfl rfl) (leaf_fresh _ 0 0 rfl rfl rfl rfl) hS
    (by decide)
  simp only [Nat.sub_zero, List.nil_append] at ht1 ht2
  have hmax1 : 99 ≤ r1.maxBufferSize := by rw [hm1]; decide
  have hclear : Leaf b1.clear p n [] :=
    leaf_fresh _ p n (by simpa using hb1.1) hb1.2.1 hb1.2.2.1 rfl
  obtain ⟨s1, b3, r2, hmv1, -, hb3, hm2⟩ := moveAll_holds (S.take (S.length / 2)) t1 b1.clear r1
    0 0 p n [] (t1.numRecords.toNat + 1) (by rw [ht1.1, Int.toNat_ofNat]; omega) (leaf_holds _ _ _ _ ht1) hclear
    (fun c hc => hS c (List.mem_of_mem_take hc)) hmax1
  have hmax2 : 99 ≤ r2.maxBufferSize := by rw [hm2]; exact hmax1
  obtain ⟨s2, nb', r3, hmv2, -, hnb', -⟩ := moveAll_holds (S.drop (S.length / 2)) t2 nb r2
    0 0 p' n' [] (t2.numRecords.toNat + 1) (by rw [ht2.1, Int.toNat_ofNat]; omega) (leaf_holds _ _ _ _ ht2) hnb
    (fun c hc => hS c (List.mem_of_mem_drop hc)) hmax2
  refine ⟨b3, nb', ?_, by simpa using hb3, by simpa using hnb'⟩
  have hdist' : BlockBuffer.distribute ((S.length / 2 : Nat) : Int) S.length 0 b {} {} {} = _ :=
    hdist
  simp only [BlockBuffer.splitBuffer, hk, hnum, bind, Except.bind, pure, Except.pure, hdist',
    hmv1, hmv2]

theorem withKeys_int (cs : List Bytes) (key : Bytes → Int)
    (hkey : ∀ c ∈ cs, ({ buffer := c } : RecordBuffer).getRecordKey = .ok (key c)) :
    BlockBuffer.withKeys (cs.map fun c => ({ buffer := c } : RecordBuffer)) =
      .ok (cs.map fun c => (key c, ({ buffer := c } : RecordBuffer))) := by
  induction cs with
  | nil => rfl
  | cons c cs ih =>
    have h1 := hkey c (List.mem_cons_self _ _)
    have h2 := ih (fun c' hc' => hkey c' (List.mem_cons_of_mem _ hc'))
    simp only [List.map_cons, BlockBuffer.withKeys, h1, h2, bind, Except.bind, pure, Except.pure]

/-- `std::sort` by key on records whose keys can be read: some arrangement of the same
records with keys that do not descend. -/
theorem sortRecords_spec (cs : List Bytes) (key : Bytes → Int)
    (hkey : ∀ c ∈ cs, ({ buffer := c } : RecordBuffer).getRecordKey = .ok (key c)) :
    ∃ cs' : List Bytes, BlockBuffer.sortRecords (cs.map fun c => ({ buffer := c } : RecordBuffer)) =
        .ok (cs'.map fun c => ({ buffer := c } : RecordBuffer)) ∧
      cs'.Perm cs ∧ (cs'.map key).Sorted (· ≤ ·) := by
  by_cases hlt : cs.length < 2
  · refine ⟨cs, by simp [BlockBuffer.sortRecords, hlt], List.Perm.refl _, ?_⟩
    match cs, hlt with
    | [], _ => simp
    | [x], _ => simp
  · haveI : IsTotal (Int × RecordBuffer) (fun a b => a.1 ≤ b.1) := ⟨fun a b => le_total a.1 b.1⟩
    haveI : IsTrans (Int × RecordBuffer) (fun a b => a.1 ≤ b.1) :=
      ⟨fun a b c h1 h2 => le_trans h1 h2⟩
    set f : Bytes → Int × RecordBuffer := fun c => (key c, ({ buffer := c } : RecordBuffer))
      with hf
    set L := (cs.map f).insertionSort (fun a b => a.1 ≤ b.1) with hL
    have hperm : L.Perm (cs.map f) := List.perm_insertionSort _ _
    have hsorted : L.Sorted (fun a b => a.1 ≤ b.1) := List.sorted_insertionSort _ _
    have hmem : ∀ x ∈ L, x = f x.2.buffer := by
      intro x hx
      obtain ⟨c, -, rfl⟩ := List.mem_map.mp (hperm.subset hx)
      rfl
    have hLf : L = (L.map fun x => x.2.buffer).map f := by
      rw [List.map_map]
      conv_lhs => rw [← List.map_id L]
      exact List.map_congr_left (fun x hx => hmem x hx)
    refine ⟨L.map fun x => x.2.buffer, ?_, ?_, ?_⟩
    · have hwk := withKeys_int cs key hkey
      simp only [BlockBuffer.sortRecords, List.length_map, hlt, ↓reduceIte, hwk, bind,
        Except.bind, pure, Except.pure, Except.ok.injEq]
      show L.map Prod.snd = _
      rw [List.map_map]
      exact List.map_congr_left (fun x hx => by
        have := hmem x hx
        rw [Prod.ext_iff] at this
        exact this.2)
    · have h1 : (L.map fun x => x.2.buffer).Perm ((cs.map f).map fun x => x.2.buffer) :=
        hperm.map _
      simpa [List.map_map, Function.comp_def, hf] using h1
    · rw [List.Sorted, List.pairwise_map, List.pairwise_map]
      refine hsorted.imp_of_mem ?_
      intro a b ha hb hab
      have e1 := hmem a ha
      have e2 := hmem b hb
      rw [Prod.ext_iff] at e1 e2
      simp only [hf] at e1 e2
      rw [← e1.1, ← e2.1]
      exact hab

/-- `sortBuffer` of a block buffer that holds records whose keys can be read. -/
theorem sortBuffer_holds (b : BlockBuffer) (p n : Nat) (cs : List Bytes) (key : Bytes → Int)
    (hb : Holds b p n cs) (hlen : ∀ c ∈ cs, 10 ≤ c.length ∧ c.length ≤ 99)
    (hkey : ∀ c ∈ cs, ({ buffer := c } : RecordBuffer).getRecordKey = .ok (key c)) :
    ∃ (b' : BlockBuffer) (cs' : List Bytes), b.sortBuffer = .ok (0, b') ∧ Leaf b' p n cs' ∧ cs'.Perm cs ∧
      (cs'.map key).Sorted (· ≤ ·) := by
  obtain ⟨b1, r1, hun, hb1⟩ := unpackAll_holds cs b {} [] p n (b.numRecords.toNat + 1)
    (by rw [hb.1, Int.toNat_ofNat]; omega) hb hlen (by decide)
  obtain ⟨cs', hsr, hperm, hsorted⟩ := sortRecords_spec cs key hkey
  have hun' : BlockBuffer.unpackAll (b.numRecords.toNat + 1) b {} [] =
      .ok (b1, r1, cs.map fun c => ({ buffer := c } : RecordBuffer)) := hun
  refine ⟨_, cs', ?_, packAll_cleared b1.clear p n cs' (by simpa using hb1.1) hb1.2.1 hb1.2.2.1 rfl,
    hperm, hsorted⟩
  simp only [BlockBuffer.sortBuffer, hun', bind, Except.bind, hsr, pure, Except.pure]

/-- The `for` loop of `mergeBuffer`: the records of `other` are put behind those of `b`. -/
theorem mergeLoop_holds (cs : List Bytes) (b other : BlockBuffer) (p n p' n' : Nat)
    (ds : List Bytes) (hb : Leaf b p n ds) (ho : Holds other p' n' cs)
    (hcs : ∀ c ∈ cs, 10 ≤ c.length ∧ c.length ≤ 99) :
    ∃ b' o', BlockBuffer.mergeLoop cs.length b other = .ok (b', o') ∧
      Leaf b' p n (ds ++ cs) ∧ Holds o' p' n' [] := by
  induction cs generalizing b other ds with
  | nil => exact ⟨b, other, rfl, by simpa using hb, ho⟩
  | cons c cs ih =>
    have hc := hcs c (List.mem_cons_self _ _)
    obtain ⟨addr, o1, -, hun, ho1⟩ := unpack_holds other {} p' n' c cs ho hc.1 hc.2 (by decide)
    have hpk := pack_leaf b p n ds { ({} : RecordBuffer).clear with buffer := c } hb
    obtain ⟨b', o', hrec, hb', ho'⟩ := ih (b.holding p n (ds ++ [c])) o1 (ds ++ [c])
      (leaf_holding _ _ _ _) ho1 (fun c' hc' => hcs c' (List.mem_cons_of_mem _ hc'))
    refine ⟨b', o', ?_, by simpa using hb', ho'⟩
    simp only [List.length_cons, BlockBuffer.mergeLoop, hun, bind, Except.bind, hpk, hrec]

/-- `mergeBuffer` into a block buffer whose text ends with its last record. -/
theorem mergeBuffer_holds (b other : BlockBuffer) (p n p' n' : Nat) (ds cs : List Bytes)
    (hb : Leaf b p n ds) (ho : Holds other p' n' cs)
    (hcs : ∀ c ∈ cs, 10 ≤ c.length ∧ c.length ≤ 99) :
    ∃ b' o', b.mergeBuffer other = .ok (b', o') ∧
      Leaf b' p n (ds ++ cs) ∧ Holds o' p' n' [] := by
  have hnum : other.numRecords.toNat = cs.length := by rw [ho.1, Int.toNat_ofNat]
  simp only [BlockBuffer.mergeBuffer, hnum]
  exact mergeLoop_holds cs b other p n p' n' ds hb ho hcs

/-- What `read` keeps of a text of at most 512 bytes held in memory, when cutting the white
space off a text of exactly 512 bytes leaves its front part `T` whole. -/
theorem memory_text_keep (buf T extra : Bytes) (oob : Char) (hbuf : buf = T ++ extra)
    (hlen : buf.length ≤ 512)
    (hkeep : buf.length = 512 → T.length ≤ strippedLength buf + 1) :
    ∃ rd got s2 extra', (Stream.ofBytes buf 0).read 512 '\x00' = (rd, got, s2) ∧
      (rd ++ [oob]).take (strippedLength rd + 1) = T ++ extra' := by
  have hwf : wellFormed (Stream.ofBytes buf 0).pieces := by simp [Stream.ofBytes, wellFormed]
  have hb := Stream.read_bytes (Stream.ofBytes buf 0) hwf rfl 512 '\x00'
  have hdata : (Stream.ofBytes buf 0).data = buf := by simp [Stream.ofBytes, Stream.data]
  have hpos : (Stream.ofBytes buf 0).pos = 0 := rfl
  rw [hdata, hpos, List.drop_zero, List.take_of_length_le hlen] at hb
  obtain ⟨rd, got, s2, hrd⟩ : ∃ rd got s2, (Stream.ofBytes buf 0).read 512 '\x00' = (rd, got, s2) :=
    ⟨_, _, _, rfl⟩
  rw [hrd] at hb
  simp only at hb
  subst hb
  by_cases hlt : buf.length < 512
  · obtain ⟨m, hm⟩ : ∃ m, 512 - buf.length = m + 1 := ⟨512 - buf.length - 1, by omega⟩
    refine ⟨_, _, _, extra ++ (List.replicate (512 - buf.length) '\x00' ++ [oob]), hrd, ?_⟩
    have hs : strippedLength (buf ++ List.replicate (512 - buf.length) '\x00') = 512 := by
      have := strippedLength_append (buf ++ List.replicate (512 - buf.length) '\x00') []
        (by simp) (by
          intro pre z h
          rw [hm, List.replicate_succ', ← List.append_assoc] at h
          have := List.append_inj' h rfl
          simp only [List.cons.injEq, and_true] at this
          rw [← this.2]; decide)
      rw [List.append_nil] at this
      rw [this]; simp; omega
    rw [hs, List.take_of_length_le (by simp; omega), hbuf]
    simp
  · have hl : buf.length = 512 := by omega
    have hz : 512 - buf.length = 0 := by omega
    have hk := hkeep hl
    refine ⟨_, _, _, (extra ++ [oob]).take (strippedLength buf + 1 - T.length), hrd, ?_⟩
    rw [hz]
    simp only [List.replicate_zero, List.append_nil]
    have e : buf ++ [oob] = T ++ (extra ++ [oob]) := by rw [hbuf]; simp
    rw [e, List.take_append_eq_append_take, List.take_of_length_le hk]

/-- `getLargestKey` of a block buffer without text. -/
theorem getLargestKey_empty (env : Env) (b : BlockBuffer) (hb : b.buffer = []) :
    b.getLargestKey env = .ok (-1) := by
  have hrd : (Stream.ofBytes [] 0).read 512 '\x00' =
      (List.replicate 512 '\x00', 0, ⟨[⟨0, []⟩], 0, true⟩) := by decide
  have hhead : (List.replicate 512 '\x00').head? = some '\x00' := by decide
  have h512 : (512 : Int).toNat = 512 := rfl
  have hf : (Stream.ofBytes [] 0).failed = false := rfl
  simp only [BlockBuffer.getLargestKey, hb, BlockBuffer.read, bne_self_eq_false,
    Bool.false_eq_true, ↓reduceIte, hf, h512, hrd, hhead, bind, Except.bind]
  rfl

theorem foldl_largest_nil (key : Bytes → Nat) (cur : Int) :
    ([] : List Bytes).foldl (fun acc c => if (key c : Int) > acc then (key c : Int) else acc) cur
      = cur := rfl

/-- `getLargestKey` of a block buffer whose text holds records in ascending key order. -/
theorem getLargestKey_holds (env : Env) (b : BlockBuffer) (p n : Nat) (cs : List Bytes)
    (extra : Bytes) (key : Bytes → Nat)
    (hb : b.buffer = metaText cs.length p n ++ (recordsText cs ++ extra))
    (hlen : b.buffer.length ≤ 512)
    (hkeep : b.buffer.length = 512 →
      (metaText cs.length p n ++ recordsText cs).length ≤ strippedLength b.buffer + 1)
    (hp : p ≤ 2147483647) (hn : n ≤ 2147483647)
    (hcs : ∀ c ∈ cs, 10 ≤ c.length ∧ c.length ≤ 99)
    (hkey : ∀ c ∈ cs, ({ buffer := c } : RecordBuffer).getRecordKey = .ok (key c : Int))
    (hasc : (cs.map key).Sorted (· ≤ ·)) :
    b.getLargestKey env = .ok (match cs.getLast? with
      | some c => (key c : Int)
      | none => -1) := by
  obtain ⟨rd, got, s2, extra', hrd, htxt⟩ := memory_text_keep b.buffer
    (metaText cs.length p n ++ recordsText cs) extra env.oobByte (by rw [hb]; simp) hlen hkeep
  have hk : cs.length ≤ 2147483647 := by
    have h1 := recordsText_length cs
    rw [hb] at hlen
    simp only [List.length_append] at hlen h1 ⊢
    omega
  have hread := BlockBuffer.read_here env {} (Stream.ofBytes b.buffer 0) rd got s2
    cs.length p n (recordsText cs ++ extra') rfl rfl hrd
    (by rw [htxt, List.append_assoc]) hk hp hn
  have hloop := largestLoop_leaf cs
    ⟨metaText cs.length p n ++ (recordsText cs ++ extra'), 512, 256,
      (cs.length : Int), p, n,
      Int.tdiv (((Stream.ofBytes b.buffer 0).pos : Int) + 512 - 0) 512⟩
    {} p n extra' (cs.length + 1) (-1) key (by omega) rfl rfl rfl rfl hcs (by decide) rfl
    hkey
  have hfold : cs.foldl (fun acc c => if (key c : Int) > acc then (key c : Int) else acc) (-1)
      = (match cs.getLast? with
        | some c => (key c : Int)
        | none => -1) := by
    rcases List.eq_nil_or_concat cs with h | ⟨init, c, h⟩
    · subst h; rfl
    · rw [List.concat_eq_append] at h
      subst h
      have hpw : (init ++ [c]).Pairwise (fun x y => key x ≤ key y) := by
        have := hasc
        rwa [List.Sorted, List.pairwise_map] at this
      have hle : ∀ x ∈ init, key x ≤ key c :=
        fun x hx => (List.pairwise_append.mp hpw).2.2 x hx c (by simp)
      rw [foldl_largest key init c (-1) (by omega) hle]
      simp
  rw [hfold] at hloop
  simp only [BlockBuffer.getLargestKey, hread, bind, Except.bind, Int.toNat_ofNat]
  exact hloop

/-! ## A full block that ends in white space

A text of 512 bytes loses the white space at its end, but for one byte, when `getLargestKey`
reads its copy; the last record is then read with zero bytes in their place. -/

theorem isspace_not_digit (c : Char) (h : isspace c = true) : c.isDigit = false := by
  simp only [isspace, Bool.or_eq_true, decide_eq_true_eq] at h
  rcases h with ((((h | h) | h) | h) | h) | h
  · subst h; rfl
  · subst h; rfl
  · subst h; rfl
  · subst h; rfl
  · simp only [Char.isDigit, Char.toNat] at h ⊢
    have : c.val.toNat = 11 := h
    simp only [Bool.and_eq_false_imp, decide_eq_true_eq, decide_eq_false_iff_not, ge_iff_le]
    intro h48
    have h' : (48 : UInt32).toNat ≤ c.val.toNat := h48
    have : (48 : UInt32).toNat = 48 := rfl
    omega
  · simp only [Char.isDigit, Char.toNat] at h ⊢
    have : c.val.toNat = 12 := h
    simp only [Bool.and_eq_false_imp, decide_eq_true_eq, decide_eq_false_iff_not, ge_iff_le]
    intro h48
    have h' : (48 : UInt32).toNat ≤ c.val.toNat := h48
    have : (48 : UInt32).toNat = 48 := rfl
    omega

theorem isspace_ne_comma (c : Char) (h : isspace c = true) : (c != ',') = true := by
  rcases hc : decide (c = ',') with _ | _
  · simpa using hc
  · simp only [decide_eq_true_eq] at hc
    subst hc
    exact absurd h (by decide)

/-- The bytes of `buf` behind its stripped length are white space. -/
theorem stripped_split (buf : Bytes) :
    ∃ D W, buf = D ++ W ∧ strippedLength buf = D.length ∧ ∀ ch ∈ W, isspace ch = true := by
  refine ⟨(buf.reverse.dropWhile isspace).reverse, (buf.reverse.takeWhile isspace).reverse,
    ?_, ?_, ?_⟩
  · rw [← List.reverse_append, List.takeWhile_append_dropWhile, List.reverse_reverse]
  · simp [strippedLength]
  · intro ch hch
    rw [List.mem_reverse] at hch
    exact List.mem_takeWhile_imp hch

theorem dropWhile_length_ge (p : Char → Bool) (X Y : Bytes) (z : Char) (hz : p z = false) :
    Y.length + 1 ≤ ((X ++ z :: Y).dropWhile p).length := by
  induction X with
  | nil => simp [List.dropWhile, hz]
  | cons x X ih =>
    simp only [List.cons_append, List.dropWhile_cons]
    split
    · exact ih
    · simp only [List.length_cons, List.length_append]; omega

/-- A byte that is not white space lies in front of the stripped length. -/
theorem stripped_ge (A B : Bytes) (z : Char) (hz : isspace z = false) :
    A.length + 1 ≤ strippedLength (A ++ z :: B) := by
  unfold strippedLength
  have e : (A ++ z :: B).reverse = B.reverse ++ z :: A.reverse := by simp
  rw [e]
  have := dropWhile_length_ge isspace B.reverse A.reverse z hz
  simpa using this

theorem takeWhile_append_stop (p : Char → Bool) (l X : Bytes) (h : ∃ x ∈ l, p x = false) :
    (l ++ X).takeWhile p = l.takeWhile p := by
  induction l with
  | nil => obtain ⟨x, hx, -⟩ := h; simp at hx
  | cons a l ih =>
    simp only [List.cons_append, List.takeWhile_cons]
    rcases hpa : p a with _ | _
    · rfl
    · obtain ⟨x, hx, hpx⟩ := h
      rcases List.mem_cons.mp hx with rfl | hx'
      · rw [hpa] at hpx; cases hpx
      · simp only [↓reduceIte]
        rw [ih ⟨x, hx', hpx⟩]

theorem dropWhile_append_stop (p : Char → Bool) (l X : Bytes) (h : ∃ x ∈ l, p x = false) :
    (l ++ X).dropWhile p = l.dropWhile p ++ X := by
  induction l with
  | nil => obtain ⟨x, hx, -⟩ := h; simp at hx
  | cons a l ih =>
    simp only [List.cons_append, List.dropWhile_cons]
    rcases hpa : p a with _ | _
    · simp
    · obtain ⟨x, hx, hpx⟩ := h
      rcases List.mem_cons.mp hx with rfl | hx'
      · rw [hpa] at hpx; cases hpx
      · simp only [↓reduceIte]
        rw [ih ⟨x, hx', hpx⟩]

theorem takeWhile_append_head (p : Char → Bool) (l X : Bytes)
    (hX : ∀ ch, X.head? = some ch → p ch = false) :
    (l ++ X).takeWhile p = l.takeWhile p := by
  induction l with
  | nil =>
    cases X with
    | nil => rfl
    | cons x X => simp [List.takeWhile, hX x rfl]
  | cons a l ih =>
    simp only [List.cons_append, List.takeWhile_cons, ih]

theorem stoi_all_space (s : Bytes) (h : ∀ ch ∈ s, isspace ch = true) : stoi s = none := by
  have : s.dropWhile isspace = [] := by
    rw [List.dropWhile_eq_nil_iff]; exact h
  simp [stoi, this]

/-- What `std::stoi` reads does not change when bytes that do not start with a digit are put
behind a text that is not all white space. -/
theorem stoi_append (s X : Bytes) (hs : ∃ ch ∈ s, isspace ch = false)
    (hX : ∀ ch, X.head? = some ch → ch.isDigit = false) : stoi (s ++ X) = stoi s := by
  have hd := dropWhile_append_stop isspace s X hs
  have hne : s.dropWhile isspace ≠ [] := by
    intro h0
    rw [List.dropWhile_eq_nil_iff] at h0
    obtain ⟨ch, hch, hsp⟩ := hs
    rw [h0 ch hch] at hsp; cases hsp
  rcases ht : s.dropWhile isspace with _ | ⟨h, r⟩
  · exact absurd ht hne
  · simp only [stoi, hd, ht, List.cons_append]
    by_cases h1 : h = '-'
    · subst h1
      simp only [takeWhile_append_head Char.isDigit r X hX]
    · by_cases h2 : h = '+'
      · subst h2
        simp only [takeWhile_append_head Char.isDigit r X hX]
      · have := takeWhile_append_head Char.isDigit (h :: r) X hX
        simp only [List.cons_append] at this
        unfold stoi.match_1
        simp only [h1, h2, ↓reduceDIte, this]

/-- The key of a record whose white space at the end has been replaced by zero bytes. -/
theorem getRecordKey_cut (c1 ws : Bytes) (m : Nat) (v : Int)
    (hws : ∀ ch ∈ ws, isspace ch = true)
    (h : ({ buffer := c1 ++ ws } : RecordBuffer).getRecordKey = .ok v) :
    ({ buffer := c1 ++ List.replicate m '\x00' } : RecordBuffer).getRecordKey = .ok v := by
  simp only [RecordBuffer.getRecordKey] at h ⊢
  by_cases hc : ∃ x ∈ c1, (x != ',') = false
  · rw [takeWhile_append_stop _ c1 _ hc] at h ⊢
    exact h
  · have hall : ∀ x ∈ c1, (x != ',') = true := by
      intro x hx
      rcases hx' : (x != ',') with _ | _
      · exact absurd ⟨x, hx, hx'⟩ hc
      · rfl
    have hw : ws.takeWhile (fun c => c != ',') = ws :=
      List.takeWhile_eq_self_iff.mpr (fun x hx => isspace_ne_comma x (hws x hx))
    have hz : (List.replicate m '\x00').takeWhile (fun c => c != ',') = List.replicate m '\x00' :=
      List.takeWhile_eq_self_iff.mpr (fun x hx => by
        rw [List.eq_of_mem_replicate hx]; decide)
    rw [List.takeWhile_append_of_pos hall, hw] at h
    rw [List.takeWhile_append_of_pos hall, hz]
    by_cases hsp : ∃ ch ∈ c1, isspace ch = false
    · have e1 : stoi (c1 ++ ws) = stoi c1 := stoi_append c1 ws hsp (by
        intro ch hch
        exact isspace_not_digit ch (hws ch (List.mem_of_mem_head? hch)))
      have e2 : stoi (c1 ++ List.replicate m '\x00') = stoi c1 := stoi_append c1 _ hsp (by
        intro ch hch
        rw [List.eq_of_mem_replicate (List.mem_of_mem_head? hch)]; decide)
      simp only [stoiThrow, e1] at h
      simp only [stoiThrow, e2]
      exact h
    · have hall' : ∀ ch ∈ c1 ++ ws, isspace ch = true := by
        intro ch hch
        rcases List.mem_append.mp hch with h1 | h2
        · rcases hx' : isspace ch with _ | _
          · exact absurd ⟨ch, h1, hx'⟩ hsp
          · rfl
        · exact hws ch h2
      simp [stoiThrow, stoi_all_space _ hall'] at h

/-- A record whose key can be read has a byte that is not white space. -/
theorem key_not_space (c : Bytes) (v : Int)
    (h : ({ buffer := c } : RecordBuffer).getRecordKey = .ok v) :
    ∃ A z B, c = A ++ z :: B ∧ isspace z = false := by
  by_cases hsp : ∃ ch ∈ c, isspace ch = false
  · obtain ⟨z, hz, hzs⟩ := hsp
    obtain ⟨A, B, hAB⟩ := List.append_of_mem hz
    exact ⟨A, z, B, hAB, hzs⟩
  · exfalso
    have hall : ∀ ch ∈ c.takeWhile (fun x => x != ','), isspace ch = true := by
      intro ch hch
      have hch' := (List.takeWhile_sublist _).subset hch
      rcases hx' : isspace ch with _ | _
      · exact absurd ⟨ch, hch', hx'⟩ hsp
      · rfl
    simp [RecordBuffer.getRecordKey, stoiThrow, stoi_all_space _ hall] at h

/-- `RecordBuffer::read` where the stream ends inside the record: the bytes that are missing
are zero. -/
theorem RecordBuffer.read_short (reader : RecordBuffer) (s : Stream)
    (hwf : wellFormed s.pieces) (hf : s.failed = false) (a b : Char) (L : Nat) (c1 : Bytes)
    (hm : stoi [a, b] = some (L : Int)) (hmax : (L : Int) ≤ reader.maxBufferSize)
    (hL : c1.length < L) (hdata : s.data.drop s.pos = a :: b :: c1) :
    ∃ s3, s3.failed = true ∧ reader.read s (-1) = .ok ((s.pos : Int),
      { reader.clear with buffer := c1 ++ List.replicate (L - c1.length) '\x00' }, s3) := by
  obtain ⟨ps, pos, failed⟩ := s
  simp only at hf hwf hdata
  subst hf
  have hlen : (List.drop pos (Stream.data ⟨ps, pos, false⟩)).length = c1.length + 2 := by
    rw [hdata]; simp
  have hlen' : (Stream.data ⟨ps, pos, false⟩).length - pos = c1.length + 2 := by
    rw [← hlen]; simp
  have hd' : ∀ q, Stream.data ⟨ps, q, false⟩ = Stream.data ⟨ps, pos, false⟩ := fun _ => rfl
  have h2 : (⟨ps, pos, false⟩ : Stream).read 2 '\x00' = ([a, b], 2, ⟨ps, pos + 2, false⟩) := by
    rw [Stream.read_of_le _ hwf rfl 2 _ (by simp only []; omega)]
    simp only [hdata]
    rfl
  have hrest : (Stream.data ⟨ps, pos, false⟩).drop (pos + 2) = c1 := by
    rw [← List.drop_drop, hdata]; rfl
  obtain ⟨content, got, s3, h3⟩ : ∃ content got s3,
      (⟨ps, pos + 2, false⟩ : Stream).read L '\x00' = (content, got, s3) := ⟨_, _, _, rfl⟩
  have hc := Stream.read_bytes ⟨ps, pos + 2, false⟩ hwf rfl L '\x00'
  rw [h3] at hc
  simp only [hd', hrest] at hc
  rw [List.take_of_length_le (by omega)] at hc
  have hfail : s3.failed = true := by
    have hsz := size_eq_length _ hwf
    have := congrArg (fun x => x.2.2.failed) h3
    simp only [Stream.read, Bool.false_eq_true, ↓reduceIte] at this
    rw [← this]
    simp only [decide_eq_true_eq, Stream.size, hsz]
    simp only [Stream.data] at hlen'
    omega
  have hneg : ¬ ((L : Int) > reader.maxBufferSize) := by omega
  have hnn : ¬ ((L : Int) < 0) := by omega
  refine ⟨s3, hfail, ?_⟩
  simp only [RecordBuffer.read, bne_self_eq_false, Bool.false_eq_true, ↓reduceIte, false_and,
    Stream.tell, h2, hm, RecordBuffer.clear, hneg, hnn, Int.toNat_ofNat, h3, hc]
  rfl

/-- `unpack` of the last record of a text that ends inside this record. -/
theorem unpack_short (b : BlockBuffer) (rBuf : RecordBuffer) (k' p' n' : Nat) (a d : Char)
    (L : Nat) (c1 : Bytes)
    (hk : b.numRecords = 1)
    (hb : b.buffer = metaText k' p' n' ++ (a :: d :: c1))
    (hst : stoi [a, d] = some (L : Int)) (hL : c1.length < L)
    (hmax : (L : Int) ≤ rBuf.maxBufferSize) :
    ∃ (addr : Int) (b' : BlockBuffer), addr ≠ -1 ∧ b'.numRecords = 0 ∧
      b.unpack rBuf = .ok (addr, b',
        { rBuf.clear with buffer := c1 ++ List.replicate (L - c1.length) '\x00' }) := by
  obtain ⟨buf, bs, mc, nr, pr, nx, cur⟩ := b
  simp only at hk hb
  subst hk hb
  obtain ⟨hfind, hlen⟩ := findFirstOf_metaText k' p' n' (a :: d :: c1)
  have hpos : (findFirstOf (metaText k' p' n' ++ (a :: d :: c1)) '\n' + 1).toNat
      = (metaText k' p' n').length := by
    rw [hfind]; omega
  have hwf : wellFormed (Stream.ofBytes (metaText k' p' n' ++ (a :: d :: c1))
      (metaText k' p' n').length).pieces := by
    simp [Stream.ofBytes, wellFormed]
  obtain ⟨s3, hfail, hread⟩ := RecordBuffer.read_short rBuf
    (Stream.ofBytes (metaText k' p' n' ++ (a :: d :: c1)) (metaText k' p' n').length)
    hwf rfl a d L c1 hst hmax hL (by simp [Stream.ofBytes, Stream.data])
  have htell : s3.tell = -1 := by simp [Stream.tell, hfail]
  have herase : ∀ x : Bytes, eraseFront x
      (-1 - (((Stream.ofBytes (metaText k' p' n' ++ (a :: d :: c1))
        (metaText k' p' n').length).pos : Nat) : Int)) = [] := by
    intro x
    simp only [eraseFront]
    rw [if_pos (by omega)]
  have h10 : ¬ ((1 : Int) - 1 < 0) := by decide
  refine ⟨((metaText k' p' n').length : Int),
    ⟨(⟨metaText k' p' n' ++ (a :: d :: c1), bs, mc, 1 - 1, pr, nx, cur⟩ : BlockBuffer).metadata
      ++ [], bs, mc, 1 - 1, pr, nx, cur⟩, by omega, show (1 : Int) - 1 = 0 from rfl, ?_⟩
  simp only [BlockBuffer.unpack, h10, ↓reduceIte, hpos, hread, bind, Except.bind, htell,
    herase, pure, Except.pure]
  rfl

/-- The loop of `getLargestKey` over the first records of a text: it goes on behind them
with the largest key so far. -/
theorem largestLoop_prefix (init : List Bytes) (b : BlockBuffer) (rBuf : RecordBuffer)
    (j p n k' p' n' : Nat) (rest : Bytes) (fuel : Nat) (cur : Int) (key : Bytes → Nat)
    (hk : b.numRecords = ((init.length + j : Nat) : Int)) (hp : b.prevRBN = p)
    (hn : b.nextRBN = n)
    (hb : b.buffer = metaText k' p' n' ++ (recordsText init ++ rest))
    (hcs : ∀ c ∈ init, 10 ≤ c.length ∧ c.length ≤ 99) (hmax : 99 ≤ rBuf.maxBufferSize)
    (hdel : rBuf.deliminator = ',')
    (hkey : ∀ c ∈ init, ({ buffer := c } : RecordBuffer).getRecordKey = .ok (key c : Int)) :
    ∃ (b1 : BlockBuffer) (r1 : RecordBuffer) (k1 p1 n1 : Nat),
      BlockBuffer.largestLoop (init.length + fuel) b rBuf cur =
        BlockBuffer.largestLoop fuel b1 r1
          (init.foldl (fun acc c => if (key c : Int) > acc then (key c : Int) else acc) cur) ∧
      b1.numRecords = (j : Int) ∧ b1.buffer = metaText k1 p1 n1 ++ rest ∧
      99 ≤ r1.maxBufferSize ∧ r1.deliminator = ',' := by
  induction init generalizing b rBuf k' p' n' cur with
  | nil =>
    refine ⟨b, rBuf, k', p', n', ?_, by simpa using hk, by simpa [recordsText] using hb,
      hmax, hdel⟩
    simp
  | cons c init ih =>
    have hc := hcs c (List.mem_cons_self _ _)
    have hun := unpack_stale b rBuf (init.length + j) p n k' p' n' c (recordsText init ++ rest)
      (by rw [hk]; simp only [List.length_cons]; congr 1; omega) hp hn
      (by simpa [recordsText, List.append_assoc] using hb) hc.1 hc.2 (by omega)
    have hne : ((metaText k' p' n').length : Int) ≠ -1 := by omega
    have hrk : ({ rBuf.clear with buffer := c } : RecordBuffer).getRecordKey = .ok (key c : Int) := by
      rw [getRecordKey_comma _ (by simpa [RecordBuffer.clear] using hdel)]
      exact hkey c (List.mem_cons_self _ _)
    obtain ⟨b1, r1, k1, p1, n1, hrec, h1, h2, h3, h4⟩ := ih
      ⟨metaText (init.length + j) p n ++ (recordsText init ++ rest), b.blockSize,
        b.minimumBlockCapacity, ((init.length + j : Nat) : Int), b.prevRBN, b.nextRBN, b.curRBN⟩
      { rBuf.clear with buffer := c } (init.length + j) p n
      (if (key c : Int) > cur then (key c : Int) else cur)
      rfl hp hn rfl
      (fun c' hc' => hcs c' (List.mem_cons_of_mem _ hc')) hmax
      (by simpa [RecordBuffer.clear] using hdel)
      (fun c' hc' => hkey c' (List.mem_cons_of_mem _ hc'))
    refine ⟨b1, r1, k1, p1, n1, ?_, h1, h2, h3, h4⟩
    have hf : (c :: init).length + fuel = (init.length + fuel) + 1 := by
      simp only [List.length_cons]; omega
    rw [hf]
    simp only [BlockBuffer.largestLoop, hun, bind, Except.bind, hne, ↓reduceIte, hrk,
      List.foldl_cons]
    exact hrec

theorem metaText_last (k p n : Nat) :
    ∃ A d, metaText k p n = A ++ d :: ['\n'] ∧ isspace d = false := by
  obtain ⟨hdig, hne, -⟩ := toDigits_spec n
  rcases List.eq_nil_or_concat (Nat.toDigits 10 n) with h | ⟨ds, d, h⟩
  · exact absurd h hne
  · rw [List.concat_eq_append] at h
    refine ⟨Nat.toDigits 10 k ++ (',' :: (Nat.toDigits 10 p ++ (',' :: ds))), d, ?_, ?_⟩
    · simp [metaText, h]
    · have hd : d.isDigit = true := hdig d (by rw [h]; simp)
      rcases hs : isspace d with _ | _
      · rfl
      · rw [isspace_not_digit d hs] at hd; cases hd

/-- What `read` keeps of a text `T ++ extra` whose white space at the end reaches into `T`:
a front part of `T`, and what is cut off `T` is white space. -/
theorem cut_text (T extra : Bytes) (oob : Char)
    (hcut : strippedLength (T ++ extra) + 1 < T.length) :
    ((T ++ extra) ++ [oob]).take (strippedLength (T ++ extra) + 1)
      = T.take (strippedLength (T ++ extra) + 1) ∧
    ∀ ch ∈ T.drop (strippedLength (T ++ extra) + 1), isspace ch = true := by
  obtain ⟨D, W, hDW, hsl, hW⟩ := stripped_split (T ++ extra)
  rw [hsl] at hcut ⊢
  constructor
  · rw [List.take_append_of_le_length (by simp only [List.length_append]; omega),
      List.take_append_of_le_length (by omega)]
  · intro ch hch
    have h1 : ch ∈ (T ++ extra).drop (D.length + 1) := by
      rw [List.drop_append_of_le_length (by omega)]
      exact List.mem_append_left _ hch
    rw [hDW, List.drop_append] at h1
    exact hW ch (List.mem_of_mem_drop h1)

theorem foldl_largest_last (key : Bytes → Nat) (cs : List Bytes)
    (hasc : (cs.map key).Sorted (· ≤ ·)) :
    cs.foldl (fun acc c => if (key c : Int) > acc then (key c : Int) else acc) (-1)
      = (match cs.getLast? with
        | some c => (key c : Int)
        | none => -1) := by
  rcases List.eq_nil_or_concat cs with h | ⟨init, c, h⟩
  · subst h; rfl
  · rw [List.concat_eq_append] at h
    subst h
    have hpw : (init ++ [c]).Pairwise (fun x y => key x ≤ key y) := by
      have := hasc
      rwa [List.Sorted, List.pairwise_map] at this
    have hle : ∀ x ∈ init, key x ≤ key c :=
      fun x hx => (List.pairwise_append.mp hpw).2.2 x hx c (by simp)
    rw [foldl_largest key init c (-1) (by omega) hle]
    simp

/-- `getLargestKey` of a block buffer whose text fills the 512 bytes and ends in white space
that belongs to its last record: the record is read without it and has the same key. -/
theorem getLargestKey_cut (env : Env) (b : BlockBuffer) (p n : Nat) (cs : List Bytes)
    (extra : Bytes) (key : Bytes → Nat)
    (hb : b.buffer = metaText cs.length p n ++ (recordsText cs ++ extra))
    (hfull : b.buffer.length = 512)
    (hcut : strippedLength b.buffer + 1 < (metaText cs.length p n ++ recordsText cs).length)
    (hp : p ≤ 2147483647) (hn : n ≤ 2147483647)
    (hcs : ∀ c ∈ cs, 10 ≤ c.length ∧ c.length ≤ 99)
    (hkey : ∀ c ∈ cs, ({ buffer := c } : RecordBuffer).getRecordKey = .ok (key c : Int)) :
    b.getLargestKey env =
      .ok (cs.foldl (fun acc c => if (key c : Int) > acc then (key c : Int) else acc) (-1)) := by
  have hbT : b.buffer = (metaText cs.length p n ++ recordsText cs) ++ extra := by
    rw [hb, List.append_assoc]
  rw [hbT] at hcut hfull
  -- there is a record
  rcases List.eq_nil_or_concat cs with h0 | ⟨init, c, h0⟩
  · exfalso
    subst h0
    obtain ⟨A, d, hA, hd⟩ := metaText_last ([] : List Bytes).length p n
    have hge := stripped_ge A ('\n' :: extra) d hd
    have e : (metaText ([] : List Bytes).length p n ++ recordsText []) ++ extra
        = A ++ d :: ('\n' :: extra) := by
      rw [hA]; simp [recordsText]
    rw [e] at hcut
    have hl : (metaText ([] : List Bytes).length p n ++ recordsText []).length = A.length + 2 := by
      rw [hA]; simp [recordsText]
    omega
  · rw [List.concat_eq_append] at h0
    subst h0
    have hc := hcs c (by simp)
    obtain ⟨a, d, hdig, hstoi, -, -, -⟩ := toDigits_twoDigits c.length hc.1 hc.2
    obtain ⟨A, z, B, hAB, hz⟩ := key_not_space c _ (hkey c (by simp))
    have hT : metaText (init ++ [c]).length p n ++ recordsText (init ++ [c])
        = (metaText (init ++ [c]).length p n ++ (recordsText init ++ [a, d])) ++ c := by
      simp [recordsText, recordText, hdig]
    generalize hP : metaText (init ++ [c]).length p n ++ (recordsText init ++ [a, d]) = P at hT
    rw [hT] at hcut hfull hbT
    obtain ⟨htake, hws⟩ := cut_text (P ++ c) extra env.oobByte hcut
    have hge : P.length + A.length + 1 ≤ strippedLength ((P ++ c) ++ extra) := by
      have := stripped_ge (P ++ A) (B ++ extra) z hz
      have e : (P ++ c) ++ extra = (P ++ A) ++ z :: (B ++ extra) := by rw [hAB]; simp
      rw [e]
      simpa using this
    generalize hm : strippedLength ((P ++ c) ++ extra) + 1 = m at hcut htake hws
    have hmP : P.length ≤ m := by omega
    have hmc : m - P.length < c.length := by
      simp only [List.length_append] at hcut; omega
    have htk : (P ++ c).take m = P ++ c.take (m - P.length) := by
      rw [List.take_append_eq_append_take, List.take_of_length_le hmP]
    have hdr : (P ++ c).drop m = c.drop (m - P.length) := by
      rw [List.drop_append_eq_append_drop, List.drop_of_length_le hmP, List.nil_append]
    rw [htk] at htake
    rw [hdr] at hws
    have hcsplit : c = c.take (m - P.length) ++ c.drop (m - P.length) :=
      (List.take_append_drop _ _).symm
    have hc1 : (c.take (m - P.length)).length < c.length := by
      rw [List.length_take]; omega
    generalize hc1def : c.take (m - P.length) = c1 at htake hcsplit hc1
    -- what the stream delivers
    have hwf : wellFormed (Stream.ofBytes b.buffer 0).pieces := by
      simp [Stream.ofBytes, wellFormed]
    have hrb := Stream.read_bytes (Stream.ofBytes b.buffer 0) hwf rfl 512 '\x00'
    have hdata : (Stream.ofBytes b.buffer 0).data = b.buffer := by
      simp [Stream.ofBytes, Stream.data]
    have hpos : (Stream.ofBytes b.buffer 0).pos = 0 := rfl
    have hl512 : b.buffer.length = 512 := by rw [hbT]; exact hfull
    rw [hdata, hpos, List.drop_zero, List.take_of_length_le (by omega)] at hrb
    obtain ⟨rd, got, s2, hrd⟩ : ∃ rd got s2,
        (Stream.ofBytes b.buffer 0).read 512 '\x00' = (rd, got, s2) := ⟨_, _, _, rfl⟩
    rw [hrd] at hrb
    simp only [hl512, Nat.sub_self, List.replicate_zero, List.append_nil] at hrb
    subst hrb
    have htext : (b.buffer ++ [env.oobByte]).take (strippedLength b.buffer + 1)
        = metaText (init ++ [c]).length p n ++
          (recordsText init ++ (a :: d :: c1)) := by
      rw [hbT, hm, htake, ← hP]
      simp
    have hk : (init ++ [c]).length ≤ 2147483647 := by
      have h1 := recordsText_length (init ++ [c])
      have h2 : (recordsText (init ++ [c])).length ≤ 512 := by
        have := congrArg List.length hb
        simp only [List.length_append] at this
        omega
      omega
    have hread := BlockBuffer.read_here env {} (Stream.ofBytes b.buffer 0) b.buffer got s2
      (init ++ [c]).length p n (recordsText init ++ (a :: d :: c1))
      rfl rfl hrd htext hk hp hn
    -- the records in front of the last
    obtain ⟨b1, r1, k1, p1, n1, hloop, hb1k, hb1b, hr1m, hr1d⟩ := largestLoop_prefix init
      ⟨metaText (init ++ [c]).length p n ++
          (recordsText init ++ (a :: d :: c1)), 512, 256,
        ((init ++ [c]).length : Int), p, n,
        Int.tdiv (((Stream.ofBytes b.buffer 0).pos : Int) + 512 - 0) 512⟩
      {} 1 p n (init ++ [c]).length p n (a :: d :: c1) 2 (-1) key
      (by simp) rfl rfl rfl (fun c' hc' => hcs c' (by simp [hc'])) (by decide) rfl
      (fun c' hc' => hkey c' (by simp [hc']))
    -- the last record
    obtain ⟨addr, b', haddr, hb'k, hun⟩ := unpack_short b1 r1 k1 p1 n1 a d c.length
      c1 (by simpa using hb1k) hb1b hstoi hc1 (by omega)
    have hkc : ({ r1.clear with
        buffer := c1 ++ List.replicate (c.length - c1.length) '\x00' } :
          RecordBuffer).getRecordKey = .ok (key c : Int) := by
      rw [getRecordKey_comma _ (by simpa [RecordBuffer.clear] using hr1d)]
      apply getRecordKey_cut c1 (c.drop (m - P.length)) _ _ hws
      rw [← hcsplit]
      exact hkey c (by simp)
    have hdone := unpack_done b'
      { r1.clear with buffer := c1 ++ List.replicate (c.length - c1.length) '\x00' } hb'k
    have hnum : ((((init ++ [c]).length : Nat) : Int)).toNat + 1 = init.length + 2 := by
      rw [Int.toNat_ofNat]; simp
    simp only [BlockBuffer.getLargestKey, hread, bind, Except.bind, hnum]
    rw [hloop]
    simp only [BlockBuffer.largestLoop, hun, bind, Except.bind, haddr, ↓reduceIte, hkc, hdone,
      pure, Except.pure, List.foldl_append, List.foldl_cons, List.foldl_nil]

/-- `getLargestKey` of a block buffer whose text has at most 512 bytes and holds records in
ascending key order. -/
theorem getLargestKey_text (env : Env) (b : BlockBuffer) (p n : Nat) (cs : List Bytes)
    (extra : Bytes) (key : Bytes → Nat)
    (hb : b.buffer = metaText cs.length p n ++ (recordsText cs ++ extra))
    (hlen : b.buffer.length ≤ 512)
    (hp : p ≤ 2147483647) (hn : n ≤ 2147483647)
    (hcs : ∀ c ∈ cs, 10 ≤ c.length ∧ c.length ≤ 99)
    (hkey : ∀ c ∈ cs, ({ buffer := c } : RecordBuffer).getRecordKey = .ok (key c : Int))
    (hasc : (cs.map key).Sorted (· ≤ ·)) :
    b.getLargestKey env = .ok (match cs.getLast? with
      | some c => (key c : Int)
      | none => -1) := by
  by_cases hkeep : b.buffer.length = 512 →
      (metaText cs.length p n ++ recordsText cs).length ≤ strippedLength b.buffer + 1
  · exact getLargestKey_holds env b p n cs extra key hb hlen hkeep hp hn hcs hkey hasc
  · have h1 : b.buffer.length = 512 := by
      by_contra h; exact hkeep (fun h' => absurd h' h)
    have h2 : strippedLength b.buffer + 1 < (metaText cs.length p n ++ recordsText cs).length := by
      by_contra h; exact hkeep (fun _ => by omega)
    rw [getLargestKey_cut env b p n cs extra key hb h1 h2 hp hn hcs hkey,
      foldl_largest_last key cs hasc]

namespace Scenario

/-! ## C21 – C30: index nodes and leaf blocks -/

/-- C21 (fails as stated).  The node has the ascending keys 30, 60 and the children 2, 3, 4.
`insertKeyAndChildren(45, 7, 8)` puts 45 at position 1 and the children 7, 8 at the positions
1 and 2, in front of the child 3 that was at position 1: nothing is replaced, the node has
three keys and five children. -/
theorem C21_both_children_are_added_and_none_replaced :
    (indexRoot [30, 60] [2, 3, 4]).keys.Sorted (· ≤ ·) ∧
    (indexRoot [30, 60] [2, 3, 4]).children.length = (indexRoot [30, 60] [2, 3, 4]).keys.length + 1 ∧
    ((indexRoot [30, 60] [2, 3, 4]).insertKeyAndChildren 45 7 8).map
        (fun x => (x.1, x.2.keys, x.2.children, decide (x.2.children.length = x.2.keys.length + 1)))
      = .ok (0, [30, 45, 60], [2, 7, 8, 3, 4], false) := by
  decide

/-- C21 (amended).  On an index node with ascending keys and at least as many children as
keys, `insertKeyAndChildren(key, left, right)` with `right != -1` returns 0; there is a
position `p` with every key in front of it smaller than `key` and no key from it on smaller;
the new keys are the old ones with `key` put in at `p`, the new children are the old ones
with `left`, `right` put in at `p` and `p + 1`, no child being taken out: the keys still
ascend and the node has two children more than before. -/
theorem C21_insertKeyAndChildren_two_children (n : BTreeNode) (key left right : Int)
    (hs : n.keys.Sorted (· ≤ ·)) (hlen : n.keys.length ≤ n.children.length)
    (hr : right ≠ -1) :
    ∃ p n', n.insertKeyAndChildren key left right = .ok (0, n') ∧
      (∀ k ∈ n.keys.take p, k < key) ∧ (∀ k ∈ n.keys.drop p, key ≤ k) ∧
      n'.keys = n.keys.take p ++ key :: n.keys.drop p ∧
      n'.children = n.children.take p ++ left :: right :: n.children.drop p ∧
      n'.keys.Sorted (· ≤ ·) ∧ n'.keys.length = n.keys.length + 1 ∧
      n'.children.length = n.children.length + 2 := by
  obtain ⟨hlt, hge⟩ := lowerBound_spec n.keys key hs
  have hp : lowerBound n.keys key ≤ n.keys.length := by
    unfold lowerBound
    exact (List.takeWhile_sublist _).length_le
  have hpc : lowerBound n.keys key ≤ n.children.length := by omega
  refine ⟨lowerBound n.keys key,
    { n with keys := n.keys.take (lowerBound n.keys key) ++ key :: n.keys.drop (lowerBound n.keys key),
             children := n.children.take (lowerBound n.keys key) ++
               left :: right :: n.children.drop (lowerBound n.keys key),
             numKeys := n.numKeys + 1 }, ?_, hlt, hge, rfl, rfl, ?_, ?_, ?_⟩
  · have hr' : (right != -1) = true := by simpa using hr
    have h1 : lowerBound n.keys key + 1 ≤
        (n.children.take (lowerBound n.keys key) ++
          left :: n.children.drop (lowerBound n.keys key)).length := by
      simp; omega
    have h2 : (n.children.take (lowerBound n.keys key) ++
          left :: n.children.drop (lowerBound n.keys key)).take (lowerBound n.keys key + 1)
        = n.children.take (lowerBound n.keys key) ++ [left] := by
      have hl : (n.children.take (lowerBound n.keys key) ++ [left]).length
          = lowerBound n.keys key + 1 := by simp; omega
      have e : n.children.take (lowerBound n.keys key) ++
          left :: n.children.drop (lowerBound n.keys key)
          = (n.children.take (lowerBound n.keys key) ++ [left]) ++
            n.children.drop (lowerBound n.keys key) := by simp
      rw [e, ← hl, List.take_left]
    have h3 : (n.children.take (lowerBound n.keys key) ++
          left :: n.children.drop (lowerBound n.keys key)).drop (lowerBound n.keys key + 1)
        = n.children.drop (lowerBound n.keys key) := by
      have hl : (n.children.take (lowerBound n.keys key) ++ [left]).length
          = lowerBound n.keys key + 1 := by simp; omega
      have e : n.children.take (lowerBound n.keys key) ++
          left :: n.children.drop (lowerBound n.keys key)
          = (n.children.take (lowerBound n.keys key) ++ [left]) ++
            n.children.drop (lowerBound n.keys key) := by simp
      rw [e, ← hl, List.drop_left]
    simp only [BTreeNode.insertKeyAndChildren, vecInsert, hp, hpc, hr', h1, h2, h3, ↓reduceIte,
      bind, Except.bind, pure, Except.pure]
    simp
  · show (n.keys.take _ ++ key :: n.keys.drop _).Sorted (· ≤ ·)
    have hst : (n.keys.take (lowerBound n.keys key)).Sorted (· ≤ ·) :=
      hs.sublist (List.take_sublist _ _)
    have hsd : (n.keys.drop (lowerBound n.keys key)).Sorted (· ≤ ·) :=
      hs.sublist (List.drop_sublist _ _)
    rw [List.Sorted, List.pairwise_append]
    refine ⟨hst, List.pairwise_cons.mpr ⟨hge, hsd⟩, ?_⟩
    intro a ha b hb
    have := hlt a ha
    rcases List.mem_cons.mp hb with rfl | hb
    · omega
    · have := hge b hb
      omega
  · show (n.keys.take _ ++ key :: n.keys.drop _).length = n.keys.length + 1
    simp
    omega
  · show (n.children.take _ ++ left :: right :: n.children.drop _).length
      = n.children.length + 2
    simp
    omega

/-- C21 (amended), at the node with the keys 30, 60 and the children 2, 3, 4. -/
theorem C21_insertKeyAndChildren_two_children_witness :
    (indexRoot [30, 60] [2, 3, 4]).keys.Sorted (· ≤ ·) ∧
    ∃ p n', (indexRoot [30, 60] [2, 3, 4]).insertKeyAndChildren 45 7 8 = .ok (0, n') ∧
      (∀ k ∈ (indexRoot [30, 60] [2, 3, 4]).keys.take p, k < 45) ∧
      (∀ k ∈ (indexRoot [30, 60] [2, 3, 4]).keys.drop p, 45 ≤ k) ∧
      n'.keys = (indexRoot [30, 60] [2, 3, 4]).keys.take p ++
        45 :: (indexRoot [30, 60] [2, 3, 4]).keys.drop p ∧
      n'.children = (indexRoot [30, 60] [2, 3, 4]).children.take p ++
        7 :: 8 :: (indexRoot [30, 60] [2, 3, 4]).children.drop p ∧
      n'.keys.Sorted (· ≤ ·) ∧
      n'.keys.length = (indexRoot [30, 60] [2, 3, 4]).keys.length + 1 ∧
      n'.children.length = (indexRoot [30, 60] [2, 3, 4]).children.length + 2 :=
  ⟨by decide,
    C21_insertKeyAndChildren_two_children (indexRoot [30, 60] [2, 3, 4]) 45 7 8 (by decide)
      (by decide) (by decide)⟩

/-- C22 (the code breaks it).  The node has the keys 30, 60 and the children 2, 3, 4 and
counts two keys.  `removeKeyAndChildren(60, 9)` finds the key 60 and no child 9: it returns
-1, yet the key 60 is gone and the node counts one key.  With a key that is absent,
`removeKeyAndChildren(70, 3)`, it returns -1 and the node is as before. -/
theorem C22_key_is_removed_though_child_is_absent :
    (indexRoot [30, 60] [2, 3, 4]).numKeys = 2 ∧
    ((indexRoot [30, 60] [2, 3, 4]).removeKeyAndChildren 60 9).1 = -1 ∧
    ((indexRoot [30, 60] [2, 3, 4]).removeKeyAndChildren 60 9).2.keys = [30] ∧
    ((indexRoot [30, 60] [2, 3, 4]).removeKeyAndChildren 60 9).2.children = [2, 3, 4] ∧
    ((indexRoot [30, 60] [2, 3, 4]).removeKeyAndChildren 60 9).2.numKeys = 1 ∧
    (indexRoot [30, 60] [2, 3, 4]).removeKeyAndChildren 70 3 = (-1, indexRoot [30, 60] [2, 3, 4]) := by
  decide

/-- C23 (the code breaks it).  The index node of order 10 has the eleven keys 10 .. 110 and
the children 2 .. 13, as a parent has when `handleNonRootSplit` finds it over-filled.
`split` into an empty index node returns the median 60 and gives the new node the keys
70 .. 110 with the children 8 .. 13; the original node keeps the keys 10 .. 60, the median
among them, with the children 2 .. 7: as many children as keys. -/
theorem C23_split_keeps_median_in_original_node :
    wideRoot.keys.Sorted (· ≤ ·) ∧ wideRoot.children.length = wideRoot.keys.length + 1 ∧
    wideRoot.keys.get? (wideRoot.keys.length / 2) = some 60 ∧
    (wideRoot.split ((BTreeNode.new env 10).setIsLeaf false)).map
        (fun x => (x.1, x.2.1.keys, x.2.1.children, x.2.2.keys, x.2.2.children))
      = .ok (60, [10, 20, 30, 40, 50, 60], [2, 3, 4, 5, 6, 7],
          [70, 80, 90, 100, 110], [8, 9, 10, 11, 12, 13]) := by
  decide

/-- C24 (the code breaks it).  `isOverFilled` and `isUnderFilled` look at the counter
`numKeys`, which `split` does not touch and the constructor does not set.  The node of order
10 with eleven keys is split: it then has six keys and still counts eleven, so it is
over-filled; the new node has five keys and counts what its memory held, here 0, so it is
under-filled.  A node just constructed over memory that holds 11 is over-filled without a
key. -/
theorem C24_flags_follow_stale_counter :
    ((wideRoot.split ((BTreeNode.new env 10).setIsLeaf false)).map fun x =>
        (x.2.1.keys.length, x.2.1.maxKeys, x.2.1.isOverFilled,
          x.2.2.keys.length, x.2.2.minKeys, x.2.2.isUnderFilled))
      = .ok (6, 10, true, 5, 5, true) ∧
    ((BTreeNode.new ⟨11, 0, '\x00'⟩ 10).setIsLeaf false).keys = [] ∧
    ((BTreeNode.new ⟨11, 0, '\x00'⟩ 10).setIsLeaf false).isOverFilled = true := by
  decide

/-- C25.  A leaf holds the records `S`, each 10 to 99 bytes long, in ascending key order,
with the links `p` and `n`; `nb` is an empty block.  `splitBuffer` returns, and afterwards
the leaf holds records `lower` and the new block records `upper` with `lower ++ upper = S`;
every key of `lower` is at most every key of `upper`, and the links of the leaf are what
they were. -/
theorem C25_splitBuffer_keeps_the_record_sequence (b nb : BlockBuffer) (p n p' n' : Nat)
    (S : List Bytes) (hb : Holds b p n S) (hnb : Leaf nb p' n' [])
    (hS : ∀ c ∈ S, 10 ≤ c.length ∧ c.length ≤ 99)
    (hasc : (S.map recordKey).Sorted (· ≤ ·)) :
    ∃ b' nb' lower upper, b.splitBuffer nb = .ok (b', nb') ∧
      Leaf b' p n lower ∧ Leaf nb' p' n' upper ∧ lower ++ upper = S ∧
      (∀ x ∈ lower, ∀ y ∈ upper, recordKey x ≤ recordKey y) ∧
      b'.prevRBN = b.prevRBN ∧ b'.nextRBN = b.nextRBN := by
  obtain ⟨b', nb', hsp, h1, h2⟩ := splitBuffer_holds b nb p n p' n' S hb hnb hS
  refine ⟨b', nb', S.take (S.length / 2), S.drop (S.length / 2), hsp, h1, h2,
    List.take_append_drop _ _, ?_, ?_, ?_⟩
  · have h : (S.take (S.length / 2) ++ S.drop (S.length / 2)).Pairwise
        (fun x y => recordKey x ≤ recordKey y) := by
      rw [List.take_append_drop]
      exact List.pairwise_map.mp hasc
    exact (List.pairwise_append.mp h).2.2
  · rw [h1.2.1, hb.2.1]
  · rw [h1.2.2.1, hb.2.2.1]

/-- C25, at the leaf with the keys 10, 20, 30 and the links 4 and 7. -/
theorem C25_splitBuffer_keeps_the_record_sequence_witness :
    ((contentsOf [10, 20, 30]).map recordKey).Sorted (· ≤ ·) ∧
    ∃ b' nb' lower upper, (leafWith [10, 20, 30]).splitBuffer {} = .ok (b', nb') ∧
      Leaf b' 4 7 lower ∧ Leaf nb' 0 0 upper ∧ lower ++ upper = contentsOf [10, 20, 30] ∧
      (∀ x ∈ lower, ∀ y ∈ upper, recordKey x ≤ recordKey y) ∧
      b'.prevRBN = (leafWith [10, 20, 30]).prevRBN ∧
      b'.nextRBN = (leafWith [10, 20, 30]).nextRBN :=
  ⟨by decide!,
    C25_splitBuffer_keeps_the_record_sequence (leafWith [10, 20, 30]) {} 4 7 0 0
      (contentsOf [10, 20, 30]) (leaf_holds _ _ _ _ (leaf_holding _ _ _ _))
      (leaf_fresh _ 0 0 rfl rfl rfl rfl) (by decide!) (by decide!)⟩

/-- C26 (fails as stated).  A leaf holds the three records 10, 20, 30 of 99 bytes:
`splitBuffer` keeps one record and moves two into the new block.  A leaf holds three records
of 9 bytes: `splitBuffer` reads the length `91` in front of the first and runs into undefined
behaviour. -/
theorem C26_splitBuffer_moves_the_larger_half :
    ((leafWith [10, 20, 30]).splitBuffer {}).map (fun x => (x.1.numRecords, x.2.numRecords))
      = .ok (1, 2) ∧
    ((BlockBuffer.packAll {} [record 10 5 '\n', record 20 5 '\n', record 30 5 '\n']).splitBuffer
      {}).map (fun x => (x.1.numRecords, x.2.numRecords)) = .error .undefined := by
  decide!

/-- C26 (amended).  A leaf holds the `n` records `S`, each 10 to 99 bytes long.
`splitBuffer` keeps the first `floor(n/2)` records in the leaf and moves the remaining
`n - floor(n/2)` into the new block. -/
theorem C26_splitBuffer_keeps_the_smaller_half (b nb : BlockBuffer) (p n p' n' : Nat)
    (S : List Bytes) (hb : Holds b p n S) (hnb : Leaf nb p' n' [])
    (hS : ∀ c ∈ S, 10 ≤ c.length ∧ c.length ≤ 99) :
    ∃ b' nb', b.splitBuffer nb = .ok (b', nb') ∧
      b'.numRecords = ((S.length / 2 : Nat) : Int) ∧
      nb'.numRecords = ((S.length - S.length / 2 : Nat) : Int) ∧
      Leaf b' p n (S.take (S.length / 2)) ∧ Leaf nb' p' n' (S.drop (S.length / 2)) := by
  obtain ⟨b', nb', hsp, h1, h2⟩ := splitBuffer_holds b nb p n p' n' S hb hnb hS
  refine ⟨b', nb', hsp, ?_, ?_, h1, h2⟩
  · rw [h1.1, List.length_take, Nat.min_eq_left (Nat.div_le_self _ _)]
  · rw [h2.1, List.length_drop]

/-- C26 (amended), at the leaf with the keys 10, 20, 30. -/
theorem C26_splitBuffer_keeps_the_smaller_half_witness :
    ∃ b' nb', (leafWith [10, 20, 30]).splitBuffer {} = .ok (b', nb') ∧
      b'.numRecords = (((contentsOf [10, 20, 30]).length / 2 : Nat) : Int) ∧
      nb'.numRecords = (((contentsOf [10, 20, 30]).length -
        (contentsOf [10, 20, 30]).length / 2 : Nat) : Int) ∧
      Leaf b' 4 7 ((contentsOf [10, 20, 30]).take ((contentsOf [10, 20, 30]).length / 2)) ∧
      Leaf nb' 0 0 ((contentsOf [10, 20, 30]).drop ((contentsOf [10, 20, 30]).length / 2)) :=
  C26_splitBuffer_keeps_the_smaller_half (leafWith [10, 20, 30]) {} 4 7 0 0
    (contentsOf [10, 20, 30]) (leaf_holds _ _ _ _ (leaf_holding _ _ _ _))
    (leaf_fresh _ 0 0 rfl rfl rfl rfl) (by decide!)

/-- C27 (the code breaks it).  Two leaves are read from their blocks, the first with the
records 20, 30 and the second with 50, 60, all of 99 bytes ending in a comma.  After
`mergeBuffer` the receiver counts four records and the other none, yet unpacking the
receiver yields three records, the third of 9 bytes: `read` kept one byte of padding behind
the records and `pack` wrote the record 50 behind it, so that its length is read as ` 9`.
With records ending in a newline the four records are there.  `handleMerge` does this to
the leaves of the tree holding 10 .. 60 when the records 10 and 40 are removed. -/
theorem C27_merge_into_a_leaf_read_from_disk_garbles_records :
    (do let b ← leafRead 0 3 ',' [20, 30]
        let o ← leafRead 2 0 ',' [50, 60]
        let (b', o') ← b.mergeBuffer o
        let (_, _, recs) ← BlockBuffer.unpackAll (b'.numRecords.toNat + 1) b' {} []
        pure (b'.numRecords, o'.numRecords, (recs.map RecordBuffer.buffer).map List.length,
          decide (recs = records ',' [20, 30, 50, 60])))
      = .ok (4, 0, [99, 99, 9], false) ∧
    (do let b ← leafRead 0 3 '\n' [20, 30]
        let o ← leafRead 2 0 '\n' [50, 60]
        let (b', o') ← b.mergeBuffer o
        let (_, _, recs) ← BlockBuffer.unpackAll (b'.numRecords.toNat + 1) b' {} []
        pure (b'.numRecords, o'.numRecords, decide (recs = records '\n' [20, 30, 50, 60])))
      = .ok (4, 0, true) ∧
    (do let t ← deleteRecords env (tree6 ',') (records ',' [10, 40])
        let l ← nodeAt env t 2
        let cs ← l.contents
        pure (l.blockBuffer.numRecords, cs.map List.length)) = .ok (4, [99, 99, 9]) := by
  decide!

/-- C28.  A leaf holds the records `cs`, each 10 to 99 bytes long and starting with a key
that `getRecordKey` reads, with the links `p` and `n`.  `sortBuffer` returns 0 and the leaf
then holds records `cs'` that are a permutation of `cs` with keys that do not decrease; the
record count and the links are what they were. -/
theorem C28_sortBuffer_sorts_the_records (b : BlockBuffer) (p n : Nat) (cs : List Bytes)
    (hb : Holds b p n cs) (hlen : ∀ c ∈ cs, 10 ≤ c.length ∧ c.length ≤ 99)
    (hkey : ∀ c ∈ cs, ({ buffer := c } : RecordBuffer).getRecordKey = .ok (recordKey c)) :
    ∃ (b' : BlockBuffer) (cs' : List Bytes), b.sortBuffer = .ok (0, b') ∧ Leaf b' p n cs' ∧
      cs'.Perm cs ∧ (cs'.map recordKey).Sorted (· ≤ ·) ∧
      b'.numRecords = b.numRecords ∧ b'.prevRBN = b.prevRBN ∧ b'.nextRBN = b.nextRBN := by
  obtain ⟨b', cs', hs, hl, hperm, hsorted⟩ := sortBuffer_holds b p n cs recordKey hb hlen hkey
  refine ⟨b', cs', hs, hl, hperm, hsorted, ?_, ?_, ?_⟩
  · rw [hl.1, hb.1, hperm.length_eq]
  · rw [hl.2.1, hb.2.1]
  · rw [hl.2.2.1, hb.2.2.1]

/-- C28, at the leaf with the keys 30, 10, 20 in this order. -/
theorem C28_sortBuffer_sorts_the_records_witness :
    ∃ (b' : BlockBuffer) (cs' : List Bytes), (leafWith [30, 10, 20]).sortBuffer = .ok (0, b') ∧
      Leaf b' 4 7 cs' ∧ cs'.Perm (contentsOf [30, 10, 20]) ∧
      (cs'.map recordKey).Sorted (· ≤ ·) ∧
      b'.numRecords = (leafWith [30, 10, 20]).numRecords ∧
      b'.prevRBN = (leafWith [30, 10, 20]).prevRBN ∧
      b'.nextRBN = (leafWith [30, 10, 20]).nextRBN :=
  C28_sortBuffer_sorts_the_records (leafWith [30, 10, 20]) 4 7 (contentsOf [30, 10, 20])
    (leaf_holds _ _ _ _ (leaf_holding _ _ _ _)) (by decide!) (by decide!)

/-- C30 (fails as stated).  A leaf holds the one record with the key -5: `getLargestKey`
returns -1, the value it starts from.  A leaf holds the six records 10 .. 60 of 99 bytes,
612 bytes of text: `getLargestKey` reads 512 of them into its copy and `std::stoi` throws on
what is left of the sixth record.  A leaf holds the record 10 of 11 bytes and the record 20
of 5 bytes: the one-digit length of the second is read together with the next byte, and
`getLargestKey` returns 10. -/
theorem C30_largest_key_is_not_returned :
    negativeKey.getRecordKey = .ok (-5) ∧
    (BlockBuffer.packAll {} [negativeKey]).getLargestKey env = .ok (-1) ∧
    (BlockBuffer.packAll {} (records '\n' [10, 20, 30, 40, 50, 60])).buffer.length = 612 ∧
    (BlockBuffer.packAll {} (records '\n' [10, 20, 30, 40, 50, 60])).getLargestKey env
      = .error .exception ∧
    fiveBytes.getRecordKey = .ok 20 ∧
    (BlockBuffer.packAll {} [record 10 7 '\n', fiveBytes]).getLargestKey env = .ok 10 := by
  decide!

/-- C30 (amended).  The text of a leaf is empty, or it is the metadata line for the records
`cs` followed by these records and by `extra` bytes, and it has at most 512 bytes.  The
records are 10 to 99 bytes long and start with keys that are not negative, in ascending
order.  Then `getLargestKey` returns the key of the last record, and -1 when there is no
record. -/
theorem C30_getLargestKey_of_ascending_leaf (env : Env) (b : BlockBuffer) (p n : Nat)
    (cs : List Bytes) (extra : Bytes)
    (hb : (cs = [] ∧ b.buffer = []) ∨
      b.buffer = metaText cs.length p n ++ (recordsText cs ++ extra))
    (hlen : b.buffer.length ≤ 512)
    (hp : p ≤ 2147483647) (hn : n ≤ 2147483647)
    (hcs : ∀ c ∈ cs, 10 ≤ c.length ∧ c.length ≤ 99)
    (hkey : ∀ c ∈ cs,
      ({ buffer := c } : RecordBuffer).getRecordKey = .ok (recordKey c) ∧ 0 ≤ recordKey c)
    (hasc : (cs.map recordKey).Sorted (· ≤ ·)) :
    b.getLargestKey env = .ok (match cs.getLast? with
      | some c => recordKey c
      | none => -1) := by
  rcases hb with ⟨hnil, hb⟩ | hb
  · subst hnil
    exact getLargestKey_empty env b hb
  · have hnat : ∀ c ∈ cs, (((recordKey c).toNat : Nat) : Int) = recordKey c :=
      fun c hc => Int.toNat_of_nonneg (hkey c hc).2
    have h := getLargestKey_text env b p n cs extra (fun c => (recordKey c).toNat) hb hlen
      hp hn hcs (fun c hc => by rw [hnat c hc]; exact (hkey c hc).1)
      (by
        have hpw : cs.Pairwise (fun x y => recordKey x ≤ recordKey y) :=
          List.pairwise_map.mp hasc
        rw [List.Sorted, List.pairwise_map]
        exact hpw.imp (fun h => Int.toNat_le_toNat h))
    rw [h]
    rcases hl : cs.getLast? with _ | c
    · rfl
    · have hc : c ∈ cs := List.mem_of_mem_getLast? hl
      simp only [hnat c hc]

/-- C30 (amended), at the leaf with the keys 10, 20, 30. -/
theorem C30_getLargestKey_of_ascending_leaf_witness :
    ((contentsOf [10, 20, 30]).map recordKey).Sorted (· ≤ ·) ∧
    (leafWith [10, 20, 30]).getLargestKey env = .ok (match (contentsOf [10, 20, 30]).getLast? with
      | some c => recordKey c
      | none => -1) :=
  ⟨by decide!,
    C30_getLargestKey_of_ascending_leaf env (leafWith [10, 20, 30]) 4 7 (contentsOf [10, 20, 30])
      [] (Or.inr (by decide!)) (by decide!) (by decide) (by decide) (by decide!) (by decide!)
      (by decide!)⟩

end Scenario

/-! ## Unpacking what was packed -/

/-- As many calls of `unpack` as a block buffer holds records. -/
theorem unpackTimes_holds (cs : List Bytes) (b : BlockBuffer) (rBuf : RecordBuffer) (p n : Nat)
    (h : Holds b p n cs) (hcs : ∀ c ∈ cs, 10 ≤ c.length ∧ c.length ≤ 99)
    (hmax : 99 ≤ rBuf.maxBufferSize) :
    ∃ (calls : List (Int × Int × Bytes)) (b' : BlockBuffer) (r' : RecordBuffer),
      unpackTimes cs.length b rBuf = .ok (calls, b', r') ∧
      (∀ x ∈ calls, x.1 ≠ -1) ∧ calls.map (fun x => x.2.2) = cs ∧
      calls.map (fun x => x.2.1) = (List.range cs.length).reverse.map (fun (i : Nat) => (i : Int)) ∧
      Holds b' p n [] := by
  induction cs generalizing b rBuf with
  | nil => exact ⟨[], b, rBuf, rfl, by simp, rfl, rfl, h⟩
  | cons c cs ih =>
    have hc := hcs c (List.mem_cons_self _ _)
    obtain ⟨addr, b1, haddr, hun, hb1⟩ := unpack_holds b rBuf p n c cs h hc.1 hc.2 hmax
    obtain ⟨calls, b', r', hrec, hne, hcont, hcount, hb'⟩ := ih b1 { rBuf.clear with buffer := c }
      hb1 (fun c' hc' => hcs c' (List.mem_cons_of_mem _ hc')) hmax
    refine ⟨(addr, b1.numRecords, c) :: calls, b', r', ?_, ?_, ?_, ?_, hb'⟩
    · simp only [List.length_cons, unpackTimes, hun, bind, Except.bind, hrec, pure, Except.pure]
    · intro x hx
      rcases List.mem_cons.mp hx with rfl | hx
      · exact haddr
      · exact hne x hx
    · simp only [List.map_cons, hcont]
    · simp only [List.map_cons, hcount, List.length_cons, List.range_succ, List.reverse_append,
        List.reverse_cons, List.reverse_nil, List.nil_append, List.singleton_append, hb1.1]

/-- What `pack` builds from records put one after the other into a block buffer without
records. -/
theorem packAll_holds (b0 : BlockBuffer) (p n : Nat) (rs : List RecordBuffer)
    (h0 : b0.numRecords = 0) (hp : b0.prevRBN = p) (hn : b0.nextRBN = n) (hb : b0.buffer = []) :
    Holds (BlockBuffer.packAll b0 rs) p n (rs.map RecordBuffer.buffer) := by
  by_cases hrs : rs = []
  · subst hrs
    exact leaf_holds _ _ _ _ (leaf_fresh b0 p n h0 hp hn hb)
  · rw [packAll_shape rs b0 0 p n [] (by simpa using h0) hp hn (payload_nil _ hb) hrs]
    exact ⟨by simp, hp, hn, fun _ => ⟨rs.length, p, n, [], by simp⟩⟩

/-! ## The header: reading line by line

`readHeader` takes the lines of a header one by one; a line it accepts changes one field and
the loop goes on behind it. -/

/-- `std::getline` where the stream holds a line and its newline. -/
theorem streamGetline_line (s : Stream) (hwf : wellFormed s.pieces) (hf : s.failed = false)
    (line rest : Bytes) (hdata : s.data.drop s.pos = line ++ '\n' :: rest)
    (hline : '\n' ∉ line) :
    streamGetline s = (true, line, false, { s with pos := s.pos + line.length + 1 }) := by
  have hsz := size_eq_length _ hwf
  have hslice : slice s.pieces s.pos (s.size - s.pos) = line ++ '\n' :: rest := by
    rw [slice_eq _ hwf, Stream.size, hsz]
    have : (s.pieces.flatMap Piece.bytes).length - s.pos
        = ((s.pieces.flatMap Piece.bytes).drop s.pos).length := by simp
    rw [this, List.take_length]
    exact hdata
  have htw : (line ++ '\n' :: rest).takeWhile (fun c => c != '\n') = line := by
    rw [List.takeWhile_append_of_pos (by
      intro c hc
      simp only [bne_iff_ne, ne_eq]
      rintro rfl
      exact hline hc)]
    simp [List.takeWhile]
  have hlt : line.length < (line ++ '\n' :: rest).length := by simp
  simp only [streamGetline, hf, Bool.false_eq_true, ↓reduceIte, hslice, htw, hlt]

theorem indexOf_key (k v : Bytes) (c : Char) (hk : c ∉ k) : (k ++ c :: v).indexOf c = k.length := by
  induction k with
  | nil => simp
  | cons a k ih =>
    have ha : a ≠ c := by rintro rfl; exact hk (List.mem_cons_self _ _)
    have := ih (fun h => hk (List.mem_cons_of_mem _ h))
    simp [List.indexOf_cons, ha, this]

/-- A round of `readHeader` on a line `KEY=VALUE` that is accepted. -/
theorem readLoop_good (fuel : Nat) (h h1 : HeaderBuffer) (s : Stream)
    (hwf : wellFormed s.pieces) (hf : s.failed = false) (k v rest : Bytes)
    (hdata : s.data.drop s.pos = (k ++ '=' :: v) ++ '\n' :: rest)
    (hk : '=' ∉ k) (hkn : '\n' ∉ k) (hvn : '\n' ∉ v)
    (hassign : h.assign k v = .ok (some h1)) :
    HeaderBuffer.readLoop (fuel + 1) h s =
      HeaderBuffer.readLoop fuel h1 { s with pos := s.pos + (k ++ '=' :: v).length + 1 } := by
  have hline : '\n' ∉ k ++ '=' :: v := by
    simp only [List.mem_append, List.mem_cons, not_or]
    exact ⟨hkn, by decide, hvn⟩
  have hg := streamGetline_line s hwf hf (k ++ '=' :: v) rest hdata hline
  have hEnd : ¬ (k ++ '=' :: v = "END".toList) := by
    intro h0
    have : '=' ∈ k ++ '=' :: v := by simp
    rw [h0] at this
    exact absurd this (by decide)
  have hidx := indexOf_key k v '=' hk
  have hlt : k.length < (k ++ '=' :: v).length := by simp
  have hd : List.drop (k.length + 1) (k ++ '=' :: v) = v := by
    rw [← List.drop_drop, List.drop_left' rfl]; rfl
  have ht : List.take k.length (k ++ '=' :: v) = k := List.take_left' rfl
  simp only [HeaderBuffer.readLoop, hg, Bool.not_true, Bool.false_eq_true, false_or, hEnd,
    ↓reduceIte, hidx, hlt, hd, ht, hassign, bind, Except.bind]

/-- A round of `readHeader` on a line that is not `END` and has no `=` or no known key. -/
theorem readLoop_bad (fuel : Nat) (h : HeaderBuffer) (s : Stream)
    (hwf : wellFormed s.pieces) (hf : s.failed = false) (bad rest : Bytes)
    (hdata : s.data.drop s.pos = bad ++ '\n' :: rest)
    (hn : '\n' ∉ bad) (hEnd : bad ≠ "END".toList)
    (hbad : '=' ∉ bad ∨
      h.assign (bad.take (bad.indexOf '=')) (bad.drop (bad.indexOf '=' + 1)) = .ok none) :
    ∃ s', HeaderBuffer.readLoop (fuel + 1) h s = .ok (-1, h, s') := by
  have hg := streamGetline_line s hwf hf bad rest hdata hn
  by_cases heq : '=' ∈ bad
  · have hlt : bad.indexOf '=' < bad.length := List.indexOf_lt_length.mpr heq
    rcases hbad with hno | hnone
    · exact absurd heq hno
    · refine ⟨{ s with pos := s.pos + bad.length + 1 }, ?_⟩
      simp only [HeaderBuffer.readLoop, hg, Bool.not_true, Bool.false_eq_true, false_or, hEnd,
        ↓reduceIte, hlt, hnone, bind, Except.bind, pure, Except.pure]
  · have hge : ¬ (bad.indexOf '=' < bad.length) := by
      rw [List.indexOf_lt_length]; exact heq
    refine ⟨{ s with pos := s.pos + bad.length + 1 }, ?_⟩
    simp only [HeaderBuffer.readLoop, hg, Bool.not_true, Bool.false_eq_true, false_or, hEnd,
      ↓reduceIte, hge]

/-- A key that is not among the sixteen is not assigned. -/
theorem assign_unknown (h : HeaderBuffer) (k v : Bytes) (hk : k ∉ headerKeys) :
    h.assign k v = .ok none := by
  simp only [headerKeys, List.map_cons, List.map_nil, List.mem_cons, List.mem_singleton,
    List.not_mem_nil, or_false, not_or] at hk
  obtain ⟨h1, h2, h3, h4, h5, h6, h7, h8, h9, h10, h11, h12, h13, h14, h15, h16⟩ := hk
  simp only [HeaderBuffer.assign, h1, h2, h3, h4, h5, h6, h7, h8, h9, h10, h11, h12, h13, h14,
    h15, h16, ↓reduceIte]

theorem length_le_flatMap (good : List (Bytes × Bytes)) :
    good.length ≤ (good.flatMap fun kv => kv.1 ++ '=' :: (kv.2 ++ ['\n'])).length := by
  induction good with
  | nil => simp
  | cons kv good ih =>
    simp only [List.flatMap_cons, List.length_cons, List.length_append]
    omega

/-- The loop of `readHeader` over lines that are accepted, followed by one that is not. -/
theorem readLoop_lines (good : List (Bytes × Bytes)) (h : HeaderBuffer) (s : Stream)
    (fuel : Nat) (bad rest : Bytes) (hfuel : good.length < fuel)
    (hwf : wellFormed s.pieces) (hf : s.failed = false)
    (hdata : s.data.drop s.pos =
      (good.flatMap fun kv => kv.1 ++ '=' :: (kv.2 ++ ['\n'])) ++ (bad ++ '\n' :: rest))
    (hgood : ∀ kv ∈ good, '=' ∉ kv.1 ∧ '\n' ∉ kv.1 ∧ '\n' ∉ kv.2 ∧
      ∀ h' : HeaderBuffer, ∃ h'', h'.assign kv.1 kv.2 = .ok (some h''))
    (hn : '\n' ∉ bad) (hEnd : bad ≠ "END".toList)
    (hbad : '=' ∉ bad ∨ bad.take (bad.indexOf '=') ∉ headerKeys) :
    ∃ h' s', HeaderBuffer.readLoop fuel h s = .ok (-1, h', s') := by
  induction good generalizing h s fuel with
  | nil =>
    obtain ⟨fuel, rfl⟩ : ∃ f, fuel = f + 1 := ⟨fuel - 1, by simp at hfuel; omega⟩
    obtain ⟨s', hs'⟩ := readLoop_bad fuel h s hwf hf bad rest (by simpa using hdata) hn hEnd
      (hbad.imp id (fun hk => assign_unknown h _ _ hk))
    exact ⟨h, s', hs'⟩
  | cons kv good ih =>
    obtain ⟨fuel, rfl⟩ : ∃ f, fuel = f + 1 := ⟨fuel - 1, by simp at hfuel; omega⟩
    obtain ⟨hk, hkn, hvn, hacc⟩ := hgood kv (List.mem_cons_self _ _)
    obtain ⟨h1, hassign⟩ := hacc h
    have hdata' : s.data.drop s.pos = (kv.1 ++ '=' :: kv.2) ++ '\n' ::
        ((good.flatMap fun kv => kv.1 ++ '=' :: (kv.2 ++ ['\n'])) ++ (bad ++ '\n' :: rest)) := by
      rw [hdata]; simp
    rw [readLoop_good fuel h h1 s hwf hf kv.1 kv.2 _ hdata' hk hkn hvn hassign]
    apply ih h1 { s with pos := s.pos + (kv.1 ++ '=' :: kv.2).length + 1 } fuel
      (by simp at hfuel; omega) hwf hf
    · show s.data.drop (s.pos + (kv.1 ++ '=' :: kv.2).length + 1) = _
      rw [Nat.add_assoc, ← List.drop_drop, hdata']
      rw [show (kv.1 ++ '=' :: kv.2) ++ '\n' ::
          ((good.flatMap fun kv => kv.1 ++ '=' :: (kv.2 ++ ['\n'])) ++ (bad ++ '\n' :: rest))
        = ((kv.1 ++ '=' :: kv.2) ++ ['\n']) ++
          ((good.flatMap fun kv => kv.1 ++ '=' :: (kv.2 ++ ['\n'])) ++ (bad ++ '\n' :: rest))
        by simp]
      exact List.drop_left' (by simp only [List.length_append, List.length_cons, List.length_nil])
    · exact fun kv' hkv' => hgood kv' (List.mem_cons_of_mem _ hkv')

/-- `std::stoi` reads back what `std::to_string` wrote for an `int`. -/
theorem stoi_to_string (v : Int) (hlo : -2147483648 ≤ v) (hhi : v ≤ 2147483647) :
    stoi (to_string v) = some v := by
  cases v with
  | ofNat n =>
    have hn : (n : Int) ≤ 2147483647 := hhi
    exact stoi_toDigits n (by omega)
  | negSucc n =>
    have hneg : Int.negSucc n = -((n : Int) + 1) := Int.negSucc_eq n
    rw [hneg] at hlo
    obtain ⟨hdig, hne, hval⟩ := toDigits_spec (n + 1)
    have hall : (Nat.toDigits 10 (n + 1)).takeWhile Char.isDigit = Nat.toDigits 10 (n + 1) :=
      List.takeWhile_eq_self_iff.mpr hdig
    have hsp : ('-' :: Nat.toDigits 10 (n + 1)).dropWhile isspace
        = '-' :: Nat.toDigits 10 (n + 1) := by
      rw [List.dropWhile_cons_of_neg (by decide)]
    have hemp : (Nat.toDigits 10 (n + 1)).isEmpty = false := by
      cases hd : Nat.toDigits 10 (n + 1) with
      | nil => exact absurd hd hne
      | cons c cs => rfl
    show stoi ('-' :: Nat.toDigits 10 (n + 1)) = some (Int.negSucc n)
    simp only [stoi, hsp, hall, hval, hemp, Bool.false_eq_true, ↓reduceIte]
    have e : -((n + 1 : Nat) : Int) = -((n : Int) + 1) := by push_cast; rfl
    rw [e, hneg]
    have h1 : ¬ (-((n : Int) + 1) < -2147483648 ∨ 2147483647 < -((n : Int) + 1)) := by omega
    rw [if_neg h1]

theorem to_string_no_newline (v : Int) : '\n' ∉ to_string v := by
  cases v with
  | ofNat n => exact toDigits_not_mem n '\n' (by decide)
  | negSucc n =>
    show '\n' ∉ '-' :: Nat.toDigits 10 (n + 1)
    simp only [List.mem_cons, not_or]
    exact ⟨by decide, toDigits_not_mem (n + 1) '\n' (by decide)⟩

/-- A round of `readHeader` on a line of the header that is accepted: the loop goes on
behind the line. -/
theorem readLoop_step (fuel : Nat) (h h1 : HeaderBuffer) (s : Stream)
    (hwf : wellFormed s.pieces) (hf : s.failed = false) (k v rest : Bytes)
    (hdata : s.data.drop s.pos = HeaderBuffer.headerLine k v rest)
    (hk : '=' ∉ k) (hkn : '\n' ∉ k) (hvn : '\n' ∉ v)
    (hassign : h.assign k v = .ok (some h1)) :
    ∃ s1, HeaderBuffer.readLoop (fuel + 1) h s = HeaderBuffer.readLoop fuel h1 s1 ∧
      wellFormed s1.pieces ∧ s1.failed = false ∧ s1.data.drop s1.pos = rest ∧
      s1.pos = s.pos + ((HeaderBuffer.headerLine k v rest).length - rest.length) := by
  have hdata' : s.data.drop s.pos = (k ++ '=' :: v) ++ '\n' :: rest := by
    rw [hdata]; simp [HeaderBuffer.headerLine]
  refine ⟨{ s with pos := s.pos + (k ++ '=' :: v).length + 1 },
    readLoop_good fuel h h1 s hwf hf k v rest hdata' hk hkn hvn hassign, hwf, hf, ?_, ?_⟩
  · show s.data.drop (s.pos + (k ++ '=' :: v).length + 1) = rest
    rw [Nat.add_assoc, ← List.drop_drop, hdata']
    rw [show (k ++ '=' :: v) ++ '\n' :: rest = ((k ++ '=' :: v) ++ ['\n']) ++ rest by simp]
    exact List.drop_left' (by simp only [List.length_append, List.length_cons, List.length_nil])
  · show s.pos + (k ++ '=' :: v).length + 1 = _
    simp only [HeaderBuffer.headerLine, List.length_append, List.length_cons]
    omega

/-- The round of `readHeader` that finds the line `END`. -/
theorem readLoop_end (fuel : Nat) (h : HeaderBuffer) (s : Stream)
    (hwf : wellFormed s.pieces) (hf : s.failed = false) (rest : Bytes)
    (hdata : s.data.drop s.pos = "END\n".toList ++ rest) :
    HeaderBuffer.readLoop (fuel + 1) h s =
      .ok (((s.pos + 4 : Nat) : Int), h, { s with pos := s.pos + 4 }) := by
  have hg := streamGetline_line s hwf hf "END".toList rest (by rw [hdata]; rfl) (by decide)
  simp only [HeaderBuffer.readLoop, hg, Bool.not_true, Bool.false_eq_true, false_or,
    ↓reduceIte, Stream.tell, hf]
  rfl

theorem stoiThrow_to_string (v : Int) (hlo : -2147483648 ≤ v) (hhi : v ≤ 2147483647) :
    stoiThrow (to_string v) = .ok v := by
  simp only [stoiThrow, stoi_to_string v hlo hhi]

theorem headerLine_append (k v rest y : Bytes) :
    HeaderBuffer.headerLine k v rest ++ y = HeaderBuffer.headerLine k v (rest ++ y) := by
  simp [HeaderBuffer.headerLine]

theorem headerLine_length (k v rest : Bytes) :
    (HeaderBuffer.headerLine k v rest).length = k.length + v.length + 2 + rest.length := by
  simp only [HeaderBuffer.headerLine, List.length_append, List.length_cons]
  omega

/-- Four rounds of `readHeader` on the first four lines of a header. -/
theorem readLoop_first_four (F : Nat) (g g' : HeaderBuffer) (s : Stream) (rest : Bytes)
    (a1 : Bytes) (a2 : Bytes) (a3 : Int) (a4 : Int)
    (hwf : wellFormed s.pieces) (hf : s.failed = false)
    (hg : g' = { g with fileType := a1, version := a2, headerRecordSize := a3,
                        recordSizeDigits := a4 })
    (hdata : s.data.drop s.pos = HeaderBuffer.headerLine "FILE_TYPE".toList a1
      (HeaderBuffer.headerLine "VERSION".toList a2
      (HeaderBuffer.headerLine "HEADER_RECORD_SIZE".toList (to_string a3)
      (HeaderBuffer.headerLine "RECORD_SIZE_DIGITS".toList (to_string a4)
      (rest)))))
    (h1 : '\n' ∉ a1) (h2 : '\n' ∉ a2) (h3 : -2147483648 ≤ a3 ∧ a3 ≤ 2147483647) (h4 : -2147483648
    ≤ a4 ∧ a4 ≤ 2147483647) :
    ∃ s', HeaderBuffer.readLoop (F + 4) g s =
        HeaderBuffer.readLoop F g' s' ∧
      wellFormed s'.pieces ∧ s'.failed = false ∧ s'.data.drop s'.pos = rest ∧
      s'.pos = s.pos + (("FILE_TYPE".toList.length + a1.length + 2) + ("VERSION".toList.length + a2.length + 2) +
        ("HEADER_RECORD_SIZE".toList.length + (to_string a3).length + 2) +
        ("RECORD_SIZE_DIGITS".toList.length + (to_string a4).length + 2)) := by
  obtain ⟨s1, e1, wf1, f1, d1, p1⟩ := readLoop_step (F + 3) g
    { g with fileType := a1 } s hwf hf "FILE_TYPE".toList a1 _ hdata
    (by decide) (by decide) h1 rfl
  generalize hg1 : ({ g with fileType := a1 } : HeaderBuffer) = g1 at e1
  obtain ⟨s2, e2, wf2, f2, d2, p2⟩ := readLoop_step (F + 2) g1
    { g1 with version := a2 } s1 wf1 f1 "VERSION".toList a2 _ d1
    (by decide) (by decide) h2 rfl
  generalize hg2 : ({ g1 with version := a2 } : HeaderBuffer) = g2 at e2
  obtain ⟨s3, e3, wf3, f3, d3, p3⟩ := readLoop_step (F + 1) g2
    { g2 with headerRecordSize := a3 } s2 wf2 f2 "HEADER_RECORD_SIZE".toList (to_string a3) _ d2
    (by decide) (by decide) (to_string_no_newline a3) (by
      have e : HeaderBuffer.assign g2 "HEADER_RECORD_SIZE".toList (to_string a3) =
          (stoiThrow (to_string a3)).map fun v => some ({ g2 with headerRecordSize := v } : HeaderBuffer) :=
        rfl
      rw [e, stoiThrow_to_string _ h3.1 h3.2]
      rfl)
  generalize hg3 : ({ g2 with headerRecordSize := a3 } : HeaderBuffer) = g3 at e3
  obtain ⟨s4, e4, wf4, f4, d4, p4⟩ := readLoop_step F g3
    { g3 with recordSizeDigits := a4 } s3 wf3 f3 "RECORD_SIZE_DIGITS".toList (to_string a4) _ d3
    (by decide) (by decide) (to_string_no_newline a4) (by
      have e : HeaderBuffer.assign g3 "RECORD_SIZE_DIGITS".toList (to_string a4) =
          (stoiThrow (to_string a4)).map fun v => some ({ g3 with recordSizeDigits := v } : HeaderBuffer) :=
        rfl
      rw [e, stoiThrow_to_string _ h4.1 h4.2]
      rfl)
  generalize hg4 : ({ g3 with recordSizeDigits := a4 } : HeaderBuffer) = g4 at e4
  refine ⟨s4, ?_, wf4, f4, d4, ?_⟩
  · rw [e1, e2, e3, e4]
    subst hg1 hg2 hg3 hg4 hg
    rfl
  · simp only [headerLine_length] at p1 p2 p3 p4
    omega

/-- Four rounds of `readHeader` on the second four lines of a header. -/
theorem readLoop_second_four (F : Nat) (g g' : HeaderBuffer) (s : Stream) (rest : Bytes)
    (a1 : Bytes) (a2 : Int) (a3 : Int) (a4 : Int)
    (hwf : wellFormed s.pieces) (hf : s.failed = false)
    (hg : g' = { g with recordSizeFormat := a1, blockSize := a2, minimumBlockCapacity := a3,
                        recordCount := a4 })
    (hdata : s.data.drop s.pos = HeaderBuffer.headerLine "RECORD_SIZE_FORMAT".toList a1
      (HeaderBuffer.headerLine "BLOCK_SIZE".toList (to_string a2)
      (HeaderBuffer.headerLine "MINIMUM_BLOCK_CAPACITY".toList (to_string a3)
      (HeaderBuffer.headerLine "RECORD_COUNT".toList (to_string a4)
      (rest)))))
    (h1 : '\n' ∉ a1) (h2 : -2147483648 ≤ a2 ∧ a2 ≤ 2147483647) (h3 : -2147483648 ≤ a3 ∧ a3 ≤
    2147483647) (h4 : -2147483648 ≤ a4 ∧ a4 ≤ 2147483647) :
    ∃ s', HeaderBuffer.readLoop (F + 4) g s =
        HeaderBuffer.readLoop F g' s' ∧
      wellFormed s'.pieces ∧ s'.failed = false ∧ s'.data.drop s'.pos = rest ∧
      s'.pos = s.pos + (("RECORD_SIZE_FORMAT".toList.length + a1.length + 2) + ("BLOCK_SIZE".toList.length +
        (to_string a2).length + 2) + ("MINIMUM_BLOCK_CAPACITY".toList.length + (to_string
        a3).length + 2) + ("RECORD_COUNT".toList.length + (to_string a4).length + 2)) := by
  obtain ⟨s1, e1, wf1, f1, d1, p1⟩ := readLoop_step (F + 3) g
    { g with recordSizeFormat := a1 } s hwf hf "RECORD_SIZE_FORMAT".toList a1 _ hdata
    (by decide) (by decide) h1 rfl
  generalize hg1 : ({ g with recordSizeFormat := a1 } : HeaderBuffer) = g1 at e1
  obtain ⟨s2, e2, wf2, f2, d2, p2⟩ := readLoop_step (F + 2) g1
    { g1 with blockSize := a2 } s1 wf1 f1 "BLOCK_SIZE".toList (to_string a2) _ d1
    (by decide) (by decide) (to_string_no_newline a2) (by
      have e : HeaderBuffer.assign g1 "BLOCK_SIZE".toList (to_string a2) =
          (stoiThrow (to_string a2)).map fun v => some ({ g1 with blockSize := v } : HeaderBuffer) :=
        rfl
      rw [e, stoiThrow_to_string _ h2.1 h2.2]
      rfl)
  generalize hg2 : ({ g1 with blockSize := a2 } : HeaderBuffer) = g2 at e2
  obtain ⟨s3, e3, wf3, f3, d3, p3⟩ := readLoop_step (F + 1) g2
    { g2 with minimumBlockCapacity := a3 } s2 wf2 f2 "MINIMUM_BLOCK_CAPACITY".toList (to_string a3) _ d2
    (by decide) (by decide) (to_string_no_newline a3) (by
      have e : HeaderBuffer.assign g2 "MINIMUM_BLOCK_CAPACITY".toList (to_string a3) =
          (stoiThrow (to_string a3)).map fun v => some ({ g2 with minimumBlockCapacity := v } : HeaderBuffer) :=
        rfl
      rw [e, stoiThrow_to_string _ h3.1 h3.2]
      rfl)
  generalize hg3 : ({ g2 with minimumBlockCapacity := a3 } : HeaderBuffer) = g3 at e3
  obtain ⟨s4, e4, wf4, f4, d4, p4⟩ := readLoop_step F g3
    { g3 with recordCount := a4 } s3 wf3 f3 "RECORD_COUNT".toList (to_string a4) _ d3
    (by decide) (by decide) (to_string_no_newline a4) (by
      have e : HeaderBuffer.assign g3 "RECORD_COUNT".toList (to_string a4) =
          (stoiThrow (to_string a4)).map fun v => some ({ g3 with recordCount := v } : HeaderBuffer) :=
        rfl
      rw [e, stoiThrow_to_string _ h4.1 h4.2]
      rfl)
  generalize hg4 : ({ g3 with recordCount := a4 } : HeaderBuffer) = g4 at e4
  refine ⟨s4, ?_, wf4, f4, d4, ?_⟩
  · rw [e1, e2, e3, e4]
    subst hg1 hg2 hg3 hg4 hg
    rfl
  · simp only [headerLine_length] at p1 p2 p3 p4
    omega

/-- Four rounds of `readHeader` on the third four lines of a header. -/
theorem readLoop_third_four (F : Nat) (g g' : HeaderBuffer) (s : Stream) (rest : Bytes)
    (a1 : Int) (a2 : Int) (a3 : Bytes) (a4 : Bytes)
    (hwf : wellFormed s.pieces) (hf : s.failed = false)
    (hg : g' = { g with blockCount := a1, recordFieldCount := a2, recordFieldsType := a3,
                        recordFormat := a4 })
    (hdata : s.data.drop s.pos = HeaderBuffer.headerLine "BLOCK_COUNT".toList (to_string a1)
      (HeaderBuffer.headerLine "RECORD_FIELD_COUNT".toList (to_string a2)
      (HeaderBuffer.headerLine "RECORD_FIELDS_TYPE".toList a3
      (HeaderBuffer.headerLine "RECORD_FORMAT".toList a4
      (rest)))))
    (h1 : -2147483648 ≤ a1 ∧ a1 ≤ 2147483647) (h2 : -2147483648 ≤ a2 ∧ a2 ≤ 2147483647) (h3 : '\n'
    ∉ a3) (h4 : '\n' ∉ a4) :
    ∃ s', HeaderBuffer.readLoop (F + 4) g s =
        HeaderBuffer.readLoop F g' s' ∧
      wellFormed s'.pieces ∧ s'.failed = false ∧ s'.data.drop s'.pos = rest ∧
      s'.pos = s.pos + (("BLOCK_COUNT".toList.length + (to_string a1).length + 2) +
        ("RECORD_FIELD_COUNT".toList.length + (to_string a2).length + 2) +
        ("RECORD_FIELDS_TYPE".toList.length + a3.length + 2) + ("RECORD_FORMAT".toList.length +
        a4.length + 2)) := by
  obtain ⟨s1, e1, wf1, f1, d1, p1⟩ := readLoop_step (F + 3) g
    { g with blockCount := a1 } s hwf hf "BLOCK_COUNT".toList (to_string a1) _ hdata
    (by decide) (by decide) (to_string_no_newline a1) (by
      have e : HeaderBuffer.assign g "BLOCK_COUNT".toList (to_string a1) =
          (stoiThrow (to_string a1)).map fun v => some ({ g with blockCount := v } : HeaderBuffer) :=
        rfl
      rw [e, stoiThrow_to_string _ h1.1 h1.2]
      rfl)
  generalize hg1 : ({ g with blockCount := a1 } : HeaderBuffer) = g1 at e1
  obtain ⟨s2, e2, wf2, f2, d2, p2⟩ := readLoop_step (F + 2) g1
    { g1 with recordFieldCount := a2 } s1 wf1 f1 "RECORD_FIELD_COUNT".toList (to_string a2) _ d1
    (by decide) (by decide) (to_string_no_newline a2) (by
      have e : HeaderBuffer.assign g1 "RECORD_FIELD_COUNT".toList (to_string a2) =
          (stoiThrow (to_string a2)).map fun v => some ({ g1 with recordFieldCount := v } : HeaderBuffer) :=
        rfl
      rw [e, stoiThrow_to_string _ h2.1 h2.2]
      rfl)
  generalize hg2 : ({ g1 with recordFieldCount := a2 } : HeaderBuffer) = g2 at e2
  obtain ⟨s3, e3, wf3, f3, d3, p3⟩ := readLoop_step (F + 1) g2
    { g2 with recordFieldsType := a3 } s2 wf2 f2 "RECORD_FIELDS_TYPE".toList a3 _ d2
    (by decide) (by decide) h3 rfl
  generalize hg3 : ({ g2 with recordFieldsType := a3 } : HeaderBuffer) = g3 at e3
  obtain ⟨s4, e4, wf4, f4, d4, p4⟩ := readLoop_step F g3
    { g3 with recordFormat := a4 } s3 wf3 f3 "RECORD_FORMAT".toList a4 _ d3
    (by decide) (by decide) h4 rfl
  generalize hg4 : ({ g3 with recordFormat := a4 } : HeaderBuffer) = g4 at e4
  refine ⟨s4, ?_, wf4, f4, d4, ?_⟩
  · rw [e1, e2, e3, e4]
    subst hg1 hg2 hg3 hg4 hg
    rfl
  · simp only [headerLine_length] at p1 p2 p3 p4
    omega

/-- Four rounds of `readHeader` on the fourth four lines of a header. -/
theorem readLoop_fourth_four (F : Nat) (g g' : HeaderBuffer) (s : Stream) (rest : Bytes)
    (a1 : Int) (a2 : Int) (a3 : Int) (a4 : Bytes)
    (hwf : wellFormed s.pieces) (hf : s.failed = false)
    (hg : g' = { g with recordPrimaryKey := a1, rbnAvail := a2, rbnActive := a3, stale := a4 })
    (hdata : s.data.drop s.pos = HeaderBuffer.headerLine "RECORD_PRIMARY_KEY".toList (to_string a1)
      (HeaderBuffer.headerLine "RBN_AVAIL".toList (to_string a2)
      (HeaderBuffer.headerLine "RBN_ACTIVE".toList (to_string a3)
      (HeaderBuffer.headerLine "STALE".toList a4
      (rest)))))
    (h1 : -2147483648 ≤ a1 ∧ a1 ≤ 2147483647) (h2 : -2147483648 ≤ a2 ∧ a2 ≤ 2147483647) (h3 :
    -2147483648 ≤ a3 ∧ a3 ≤ 2147483647) (h4 : '\n' ∉ a4) :
    ∃ s', HeaderBuffer.readLoop (F + 4) g s =
        HeaderBuffer.readLoop F g' s' ∧
      wellFormed s'.pieces ∧ s'.failed = false ∧ s'.data.drop s'.pos = rest ∧
      s'.pos = s.pos + (("RECORD_PRIMARY_KEY".toList.length + (to_string a1).length + 2) +
        ("RBN_AVAIL".toList.length + (to_string a2).length + 2) + ("RBN_ACTIVE".toList.length +
        (to_string a3).length + 2) + ("STALE".toList.length + a4.length + 2)) := by
  obtain ⟨s1, e1, wf1, f1, d1, p1⟩ := readLoop_step (F + 3) g
    { g with recordPrimaryKey := a1 } s hwf hf "RECORD_PRIMARY_KEY".toList (to_string a1) _ hdata
    (by decide) (by decide) (to_string_no_newline a1) (by
      have e : HeaderBuffer.assign g "RECORD_PRIMARY_KEY".toList (to_string a1) =
          (stoiThrow (to_string a1)).map fun v => some ({ g with recordPrimaryKey := v } : HeaderBuffer) :=
        rfl
      rw [e, stoiThrow_to_string _ h1.1 h1.2]
      rfl)
  generalize hg1 : ({ g with recordPrimaryKey := a1 } : HeaderBuffer) = g1 at e1
  obtain ⟨s2, e2, wf2, f2, d2, p2⟩ := readLoop_step (F + 2) g1
    { g1 with rbnAvail := a2 } s1 wf1 f1 "RBN_AVAIL".toList (to_string a2) _ d1
    (by decide) (by decide) (to_string_no_newline a2) (by
      have e : HeaderBuffer.assign g1 "RBN_AVAIL".toList (to_string a2) =
          (stoiThrow (to_string a2)).map fun v => some ({ g1 with rbnAvail := v } : HeaderBuffer) :=
        rfl
      rw [e, stoiThrow_to_string _ h2.1 h2.2]
      rfl)
  generalize hg2 : ({ g1 with rbnAvail := a2 } : HeaderBuffer) = g2 at e2
  obtain ⟨s3, e3, wf3, f3, d3, p3⟩ := readLoop_step (F + 1) g2
    { g2 with rbnActive := a3 } s2 wf2 f2 "RBN_ACTIVE".toList (to_string a3) _ d2
    (by decide) (by decide) (to_string_no_newline a3) (by
      have e : HeaderBuffer.assign g2 "RBN_ACTIVE".toList (to_string a3) =
          (stoiThrow (to_string a3)).map fun v => some ({ g2 with rbnActive := v } : HeaderBuffer) :=
        rfl
      rw [e, stoiThrow_to_string _ h3.1 h3.2]
      rfl)
  generalize hg3 : ({ g2 with rbnActive := a3 } : HeaderBuffer) = g3 at e3
  obtain ⟨s4, e4, wf4, f4, d4, p4⟩ := readLoop_step F g3
    { g3 with stale := a4 } s3 wf3 f3 "STALE".toList a4 _ d3
    (by decide) (by decide) h4 rfl
  generalize hg4 : ({ g3 with stale := a4 } : HeaderBuffer) = g4 at e4
  refine ⟨s4, ?_, wf4, f4, d4, ?_⟩
  · rw [e1, e2, e3, e4]
    subst hg1 hg2 hg3 hg4 hg
    rfl
  · simp only [headerLine_length] at p1 p2 p3 p4
    omega

/-- What `readHeader` does on a stream that starts with the lines of a header: all sixteen
fields are taken over and the position behind the `END` line is returned. -/
theorem readHeader_lines (h h0 : HeaderBuffer) (r : Stream) (y : Bytes)
    (hwf : wellFormed r.pieces) (hf : r.failed = false) (hpos : r.pos = 0)
    (hdata : r.data = h.headerLines ++ y)
    (hs : ∀ v ∈ [h.fileType, h.version, h.recordSizeFormat, h.recordFieldsType, h.recordFormat,
      h.stale], '\n' ∉ v)
    (hi : ∀ v ∈ [h.headerRecordSize, h.recordSizeDigits, h.blockSize, h.minimumBlockCapacity,
      h.recordCount, h.blockCount, h.recordFieldCount, h.recordPrimaryKey, h.rbnAvail,
      h.rbnActive], -2147483648 ≤ v ∧ v ≤ 2147483647) :
    ∃ r', h0.readHeader r = .ok ((h.headerLines.length : Int), h, r') := by
  simp only [List.mem_cons, List.mem_singleton, List.not_mem_nil, or_false, forall_eq_or_imp,
    forall_eq] at hs hi
  obtain ⟨hs1, hs2, hs3, hs4, hs5, hs6⟩ := hs
  obtain ⟨hi1, hi2, hi3, hi4, hi5, hi6, hi7, hi8, hi9, hi10⟩ := hi
  have hsize : r.size = h.headerLines.length + y.length := by
    have := size_eq_length _ hwf
    simp only [Stream.data] at hdata
    simp only [Stream.size, this, hdata, List.length_append]
  have hlen : 17 ≤ h.headerLines.length := by
    simp only [HeaderBuffer.headerLines, headerLine_length, Function.comp]
    simp only [String.toList, List.length_cons, List.length_nil]
    omega
  obtain ⟨F, hF⟩ : ∃ F, r.size + 2 = F + 17 := ⟨r.size + 2 - 17, by omega⟩
  have hd0 : r.data.drop r.pos = h.headerLines ++ y := by rw [hpos, hdata]; rfl
  simp only [HeaderBuffer.headerLines, headerLine_append] at hd0
  obtain ⟨g1, hg1⟩ : ∃ g : HeaderBuffer, g =
    ⟨h.fileType, h.version, h.headerRecordSize, h.recordSizeDigits, h0.recordSizeFormat,
      h0.blockSize, h0.minimumBlockCapacity, h0.recordCount, h0.blockCount,
      h0.recordFieldCount, h0.recordFieldsType, h0.recordFormat, h0.recordPrimaryKey,
      h0.rbnAvail, h0.rbnActive, h0.stale⟩ := ⟨_, rfl⟩
  obtain ⟨s1, e1, wf1, f1, d1, p1⟩ := readLoop_first_four (F + 13) h0 g1 r _ h.fileType
    h.version h.headerRecordSize h.recordSizeDigits hwf hf hg1 hd0 hs1 hs2 hi1 hi2
  obtain ⟨g2, hg2⟩ : ∃ g : HeaderBuffer, g =
    ⟨g1.fileType, g1.version, g1.headerRecordSize, g1.recordSizeDigits, h.recordSizeFormat,
      h.blockSize, h.minimumBlockCapacity, h.recordCount, g1.blockCount,
      g1.recordFieldCount, g1.recordFieldsType, g1.recordFormat, g1.recordPrimaryKey,
      g1.rbnAvail, g1.rbnActive, g1.stale⟩ := ⟨_, rfl⟩
  obtain ⟨s2, e2, wf2, f2, d2, p2⟩ := readLoop_second_four (F + 9) g1 g2 s1 _
    h.recordSizeFormat h.blockSize h.minimumBlockCapacity h.recordCount wf1 f1 hg2 d1 hs3
    hi3 hi4 hi5
  obtain ⟨g3, hg3⟩ : ∃ g : HeaderBuffer, g =
    ⟨g2.fileType, g2.version, g2.headerRecordSize, g2.recordSizeDigits, g2.recordSizeFormat,
      g2.blockSize, g2.minimumBlockCapacity, g2.recordCount, h.blockCount,
      h.recordFieldCount, h.recordFieldsType, h.recordFormat, g2.recordPrimaryKey,
      g2.rbnAvail, g2.rbnActive, g2.stale⟩ := ⟨_, rfl⟩
  obtain ⟨s3, e3, wf3, f3, d3, p3⟩ := readLoop_third_four (F + 5) g2 g3 s2 _ h.blockCount
    h.recordFieldCount h.recordFieldsType h.recordFormat wf2 f2 hg3 d2 hi6 hi7 hs4 hs5
  obtain ⟨s4, e4, wf4, f4, d4, p4⟩ := readLoop_fourth_four (F + 1) g3 h s3 _
    h.recordPrimaryKey h.rbnAvail h.rbnActive h.stale wf3 f3 (by subst hg1 hg2 hg3; rfl) d3
    hi8 hi9 hi10 hs6
  have hend := readLoop_end F h s4 wf4 f4 y d4
  have hp : s4.pos + 4 = h.headerLines.length := by
    simp only [HeaderBuffer.headerLines, headerLine_length, Function.comp]
    simp only [String.toList, List.length_cons, List.length_nil] at p1 p2 p3 p4 ⊢
    omega
  refine ⟨{ s4 with pos := s4.pos + 4 }, ?_⟩
  rw [HeaderBuffer.readHeader, hF, e1, e2, e3, e4, hend, hp]

/-! ## The length of a merged leaf -/

namespace Scenario

/-! ## C31 – C40: records, the header, links and merges -/

/-- C31.  Records of 10 to 99 bytes are packed one after the other into a block buffer
without records and text.  The buffer then counts them, and as many calls of `unpack` as
there are records each return a value other than -1 and deliver the contents of the records
in the order of packing, while the count goes down by one with every call and ends at 0; a
further `unpack` returns -1 and leaves the count at 0. -/
theorem C31_unpack_returns_what_was_packed (b0 : BlockBuffer) (p n : Nat)
    (rs : List RecordBuffer) (rBuf : RecordBuffer)
    (h0 : b0.numRecords = 0) (hp : b0.prevRBN = p) (hn : b0.nextRBN = n) (hb : b0.buffer = [])
    (hrs : ∀ r ∈ rs, 10 ≤ r.buffer.length ∧ r.buffer.length ≤ 99)
    (hmax : 99 ≤ rBuf.maxBufferSize) :
    (BlockBuffer.packAll b0 rs).numRecords = rs.length ∧
    ∃ (calls : List (Int × Int × Bytes)) (b' : BlockBuffer) (r' : RecordBuffer),
      unpackTimes rs.length (BlockBuffer.packAll b0 rs) rBuf = .ok (calls, b', r') ∧
      (∀ x ∈ calls, x.1 ≠ -1) ∧
      calls.map (fun x => x.2.2) = rs.map RecordBuffer.buffer ∧
      calls.map (fun x => x.2.1) = (List.range rs.length).reverse.map (fun (i : Nat) => (i : Int)) ∧
      ∃ b'', b'.unpack r' = .ok (-1, b'', r') ∧ b''.numRecords = 0 := by
  have hh := packAll_holds b0 p n rs h0 hp hn hb
  refine ⟨by simpa using hh.1, ?_⟩
  obtain ⟨calls, b', r', hrun, hne, hcont, hcount, hb'⟩ := unpackTimes_holds
    (rs.map RecordBuffer.buffer) (BlockBuffer.packAll b0 rs) rBuf p n hh
    (fun c hc => by
      obtain ⟨r, hr, rfl⟩ := List.mem_map.mp hc
      exact hrs r hr) hmax
  simp only [List.length_map] at hrun hcount
  exact ⟨calls, b', r', hrun, hne, hcont, hcount, b', unpack_holds_nil b' r' p n hb',
    by simpa using hb'.1⟩

/-- C31, at the records 10, 20, 30 of 99 bytes. -/
theorem C31_unpack_returns_what_was_packed_witness :
    (BlockBuffer.packAll {} (records '\n' [10, 20, 30])).numRecords
      = (records '\n' [10, 20, 30]).length ∧
    ∃ (calls : List (Int × Int × Bytes)) (b' : BlockBuffer) (r' : RecordBuffer),
      unpackTimes (records '\n' [10, 20, 30]).length
        (BlockBuffer.packAll {} (records '\n' [10, 20, 30])) {} = .ok (calls, b', r') ∧
      (∀ x ∈ calls, x.1 ≠ -1) ∧
      calls.map (fun x => x.2.2) = (records '\n' [10, 20, 30]).map RecordBuffer.buffer ∧
      calls.map (fun x => x.2.1) = (List.range (records '\n' [10, 20, 30]).length).reverse.map
        (fun (i : Nat) => (i : Int)) ∧
      ∃ b'', b'.unpack r' = .ok (-1, b'', r') ∧ b''.numRecords = 0 :=
  C31_unpack_returns_what_was_packed {} 0 0 (records '\n' [10, 20, 30]) {} rfl rfl rfl rfl
    (by decide!) (by decide)

/-- C32.  A header whose six string fields contain no newline, whose ten numbers are C++
`int`s, and whose `KEY=VALUE` lines with the `END` line take at most `headerRecordSize - 1`
bytes, is written to a stream that has not failed.  `writeHeader` returns `headerRecordSize`;
what it writes is the `headerRecordSize` bytes of `image`, which replace the bytes at offset 0
of the stream; and `readHeader`, on the written stream from offset 0 as on a stream of just
those bytes, returns the position behind the `END` line and turns any header into the one
written, all sixteen fields. -/
theorem C32_header_round_trip (h : HeaderBuffer) (s : Stream)
    (hwf : wellFormed s.pieces) (hf : s.failed = false)
    (hs : ∀ v ∈ [h.fileType, h.version, h.recordSizeFormat, h.recordFieldsType, h.recordFormat,
      h.stale], '\n' ∉ v)
    (hi : ∀ v ∈ [h.headerRecordSize, h.recordSizeDigits, h.blockSize, h.minimumBlockCapacity,
      h.recordCount, h.blockCount, h.recordFieldCount, h.recordPrimaryKey, h.rbnAvail,
      h.rbnActive], -2147483648 ≤ v ∧ v ≤ 2147483647)
    (hfit : (h.headerLines.length : Int) ≤ h.headerRecordSize - 1) :
    ∃ s', h.writeHeader s = .ok (h.headerRecordSize, s') ∧
      (h.image.length : Int) = h.headerRecordSize ∧
      s'.data = h.image ++ s.data.drop h.image.length ∧
      ∀ h0 : HeaderBuffer,
        (∃ r, h0.readHeader (s'.seek 0) = .ok ((h.headerLines.length : Int), h, r)) ∧
        ∃ r, h0.readHeader (Stream.ofBytes h.image 0) =
          .ok ((h.headerLines.length : Int), h, r) := by
  have hnot : ¬ (h.headerRecordSize - (h.headerLines.length : Int) - 1 < 0) := by omega
  obtain ⟨t, ht, twf, tf, tpos, tdata⟩ : ∃ t, s.seek 0 = t ∧ wellFormed t.pieces ∧
      t.failed = false ∧ t.pos = 0 ∧ t.data = s.data :=
    ⟨_, rfl, by simpa [Stream.seek, hf] using hwf, by simp [Stream.seek, hf],
      by simp [Stream.seek, hf], by simp [Stream.seek, hf, Stream.data]⟩
  obtain ⟨w, hw, wwf, wf, wdata⟩ : ∃ w, t.write h.image = w ∧ wellFormed w.pieces ∧
      w.failed = false ∧ w.data = h.image ++ s.data.drop h.image.length :=
    ⟨_, rfl, Stream.write_wellFormed _ twf _, by simp [Stream.write, tf],
      by rw [Stream.write_data _ twf tf, tpos, tdata]; simp⟩
  obtain ⟨u, hu, uwf, uf, upos, udata⟩ : ∃ u, w.seek 0 = u ∧ wellFormed u.pieces ∧
      u.failed = false ∧ u.pos = 0 ∧ u.data = w.data :=
    ⟨_, rfl, by simpa [Stream.seek, wf] using wwf, by simp [Stream.seek, wf],
      by simp [Stream.seek, wf], by simp [Stream.seek, wf, Stream.data]⟩
  refine ⟨w, ?_, ?_, wdata, ?_⟩
  · simp only [HeaderBuffer.writeHeader, hnot, ↓reduceIte, ht, hw]
  · simp only [HeaderBuffer.image, List.length_append, List.length_replicate,
      List.length_singleton]
    omega
  · intro h0
    rw [hu]
    constructor
    · refine readHeader_lines h h0 u (List.replicate (h.headerRecordSize -
          h.headerLines.length - 1).toNat ' ' ++ ['\n'] ++ s.data.drop h.image.length) uwf uf
        upos ?_ hs hi
      rw [udata, wdata]
      simp [HeaderBuffer.image]
    · refine readHeader_lines h h0 _ (List.replicate (h.headerRecordSize -
          h.headerLines.length - 1).toNat ' ' ++ ['\n']) ?_ rfl rfl ?_ hs hi
      · simp [Stream.ofBytes, wellFormed]
      · simp [Stream.ofBytes, Stream.data, HeaderBuffer.image]

/-- C32, at the header of a new file, with the record count and block count set, written to
an empty stream. -/
theorem C32_header_round_trip_witness :
    (∀ v ∈ [header.fileType, header.version, header.recordSizeFormat, header.recordFieldsType,
      header.recordFormat, header.stale], '\n' ∉ v) ∧
    (header.headerLines.length : Int) ≤ header.headerRecordSize - 1 ∧
    ∃ s', header.writeHeader ⟨[], 0, false⟩ = .ok (header.headerRecordSize, s') ∧
      (header.image.length : Int) = header.headerRecordSize ∧
      s'.data = header.image ++ (Stream.data ⟨[], 0, false⟩).drop header.image.length ∧
      ∀ h0 : HeaderBuffer,
        (∃ r, h0.readHeader (s'.seek 0) =
          .ok ((header.headerLines.length : Int), header, r)) ∧
        ∃ r, h0.readHeader (Stream.ofBytes header.image 0) =
          .ok ((header.headerLines.length : Int), header, r) :=
  ⟨by decide, by decide!,
    C32_header_round_trip header ⟨[], 0, false⟩ (by simp [wellFormed]) rfl (by decide)
      (by decide) (by decide!)⟩

/-- C33 (fails as stated).  The second line, `foo`, has no `=` and precedes `END`, but the
first line gives `BLOCK_SIZE` a value that `std::stoi` cannot read: `readHeader` throws and
returns nothing. -/
theorem C33_unreadable_number_throws_before_bad_line :
    ({} : HeaderBuffer).readHeader (Stream.ofBytes "BLOCK_SIZE=x\nfoo\nEND\n".toList 0)
      = .error .exception := by
  decide

/-- C33 (amended).  The text starts with lines `KEY=VALUE` that `readHeader` accepts (the key
is one of the sixteen and, where it names a number, `std::stoi` reads the value); then comes
a line other than `END` that has no `=`, or whose text in front of the first `=` is not one
of the sixteen keys.  `readHeader` returns -1. -/
theorem C33_readHeader_rejects_first_bad_line (h : HeaderBuffer) (good : List (Bytes × Bytes))
    (bad rest : Bytes)
    (hgood : ∀ kv ∈ good, '=' ∉ kv.1 ∧ '\n' ∉ kv.1 ∧ '\n' ∉ kv.2 ∧
      ∀ h' : HeaderBuffer, ∃ h'', h'.assign kv.1 kv.2 = .ok (some h''))
    (hn : '\n' ∉ bad) (hEnd : bad ≠ "END".toList)
    (hbad : '=' ∉ bad ∨ bad.take (bad.indexOf '=') ∉ headerKeys) :
    ∃ h' s', h.readHeader (Stream.ofBytes
      ((good.flatMap fun kv => kv.1 ++ '=' :: (kv.2 ++ ['\n'])) ++ (bad ++ '\n' :: rest)) 0)
        = .ok (-1, h', s') := by
  apply readLoop_lines good h _ _ bad rest _ (by simp [Stream.ofBytes, wellFormed]) rfl
    (by simp [Stream.ofBytes, Stream.data]) hgood hn hEnd hbad
  have := length_le_flatMap good
  simp only [Stream.ofBytes, Stream.size, List.map_cons, List.map_nil, List.sum_cons,
    List.sum_nil, List.length_append]
  omega

/-- C33 (amended), at a header with two accepted lines and the line `COLOUR=red`. -/
theorem C33_readHeader_rejects_first_bad_line_witness :
    ∃ h' s', ({} : HeaderBuffer).readHeader (Stream.ofBytes
      (([("VERSION".toList, "3".toList), ("BLOCK_SIZE".toList, "512".toList)].flatMap
          fun kv => kv.1 ++ '=' :: (kv.2 ++ ['\n'])) ++
        ("COLOUR=red".toList ++ '\n' :: "END\n".toList)) 0) = .ok (-1, h', s') :=
  C33_readHeader_rejects_first_bad_line {}
    [("VERSION".toList, "3".toList), ("BLOCK_SIZE".toList, "512".toList)]
    "COLOUR=red".toList "END\n".toList
    (by
      intro kv hkv
      simp only [List.mem_cons, List.mem_singleton, List.not_mem_nil, or_false] at hkv
      rcases hkv with rfl | rfl
      · exact ⟨by decide, by decide, by decide, fun h' => ⟨_, rfl⟩⟩
      · exact ⟨by decide, by decide, by decide, fun h' => ⟨_, rfl⟩⟩)
    (by decide) (by decide) (Or.inr (by decide))

/-- C34 (the code breaks it).  Keys 10 .. 90 sit in the leaves 2, 3, 4 below the root with
the keys 30, 60.  `remove` of 30, the largest key of leaf 2, leaves the root with the keys
20, 60 and the children 3, 2, 4: the keys 10 and 20, which leaf 2 still holds, are routed to
leaf 3.  `remove` of 90, the largest key of the last leaf, finds no separator 90 to take
out and adds the key 80 with the child 4: the root has three keys and four children and
lists block 4 twice. -/
theorem C34_parent_routes_remaining_keys_elsewhere :
    addRecords env empty (records '\n' [10, 20, 30, 40, 50, 60]) = .ok (tree6 '\n') ∧
    addRecords env (tree6 '\n') (records '\n' [70, 80, 90]) = .ok tree9 ∧
    (tree9.root.keys, tree9.root.children) = ([30, 60], [2, 3, 4]) ∧
    (do let (_, t) ← tree9.remove env (record 30 95 '\n')
        let left ← blockKeys env t 2
        let to10 ← t.root.getNextChild 10
        let to20 ← t.root.getNextChild 20
        pure (t.root.keys, t.root.children, left, to10, to20))
      = .ok ([20, 60], [3, 2, 4], [10, 20], 3, 3) ∧
    (do let (_, t) ← tree9.remove env (record 90 95 '\n')
        let last ← blockKeys env t 4
        pure (t.root.keys, t.root.children, last))
      = .ok ([30, 60, 80], [2, 3, 4, 4], [70, 80]) :=
  ⟨addRecords_six_newline, addRecords_nine, by decide, by decide!, by decide!⟩

/-- C35 (the code breaks it).  Keys 10 .. 90 sit in the leaves 2, 3, 4.  Removing 10 and 40
merges leaf 3 into leaf 2, which keeps pointing to block 3, and makes block 3 the next one
to hand out.  After 21 is inserted leaf 2 holds five records and has the successor 3; the
insert of 22 splits it into leaf 2 and the new leaf in block 3.  Afterwards block 3 names
itself as its predecessor, not leaf 2. -/
theorem C35_new_leaf_is_its_own_predecessor :
    addRecords env empty (records '\n' [10, 20, 30, 40, 50, 60]) = .ok (tree6 '\n') ∧
    addRecords env (tree6 '\n') (records '\n' [70, 80, 90]) = .ok tree9 ∧
    (do let t ← deleteRecords env tree9 (records '\n' [10, 40])
        let (_, t) ← t.insert env (record 21 95 '\n')
        let l ← nodeAt env t 2
        let before ← blockKeys env t 2
        let (_, t1) ← t.insert env (record 22 95 '\n')
        let l1 ← nodeAt env t1 2
        let n1 ← nodeAt env t1 3
        let left ← blockKeys env t1 2
        let right ← blockKeys env t1 3
        pure (before, [l.blockBuffer.prevRBN, l.blockBuffer.nextRBN, t.headerBuffer.rbnAvail],
          left, [l1.blockBuffer.prevRBN, l1.blockBuffer.nextRBN],
          right, [n1.blockBuffer.prevRBN, n1.blockBuffer.nextRBN]))
      = .ok ([20, 21, 30, 50, 60], [0, 3, 3], [20, 21, 22], [0, 3], [30, 50, 60], [3, 3]) :=
  ⟨addRecords_six_newline, addRecords_nine, by decide!⟩

/-- C36 (the code breaks it).  An index node reports -1 as its links.  In a tree of order 2
the eighteenth insert in ascending order splits the index node in block 7, which is not the
root; `handleNonRootSplit`, applied to the two index nodes, finds the link -1 of the new
node different from 0 and reads "the block with the RBN -1", that is from where the stream
stands, the end of the file.  The read fails, the node it was meant for is written through
its RBN 0, and the stream stays failed: the root, which has got the key 65 and the child 10,
is not written, and block 1 still holds the key 35 with the children 6 and 7. -/
theorem C36_index_split_reads_through_link_of_index_node :
    (∀ n : BTreeNode, n.isLeaf = false → n.getNextRBN = -1 ∧ n.getPrevRBN = -1) ∧
    (BTreeNode.new env 2).getCurRBN = 0 ∧
    (do let (_, t) ← BTreeFile.openFile env {} 2 none
        let t ← addRecords env t (records '\n' keys18)
        let onDisk ← nodeAt env t 1
        pure (t.root.keys, t.root.children, onDisk.keys, onDisk.children))
      = .ok ([35, 65], [6, 7, 10], [35], [6, 7]) := by
  refine ⟨?_, by decide, by decide!⟩
  intro n hn
  simp [BTreeNode.getNextRBN, BTreeNode.getPrevRBN, hn]

/-- C37 (the code breaks it).  The root is a leaf holding the keys 10 .. 50.  `remove` of
50, the largest key, goes through the null pointer that `findParentNode` returned.  The root
is a leaf holding 10, 20, 30: `remove` of 10 leaves it under-filled, `handleMerge` returns at
once for want of a parent, and block 1 still holds the three records. -/
theorem C37_remove_from_leaf_root_needs_parent :
    addRecords env empty (records '\n' [10, 20, 30, 40, 50]) = .ok tree5 ∧
    tree5.root.isLeaf = true ∧
    tree5.remove env (record 50 95 '\n') = .error .nullDeref ∧
    (do let t ← addRecords env empty (records '\n' [10, 20, 30])
        let (_, t1) ← t.remove env (record 10 95 '\n')
        let inMemory ← t1.root.contents
        let onDisk ← blockKeys env t1 1
        pure (t.root.isLeaf, inMemory.map recordKey, onDisk))
      = .ok (true, [20, 30], [10, 20, 30]) :=
  ⟨addRecords_five, by decide, by decide!, by decide!⟩

/-- C38 (the code breaks it).  The root is a leaf holding the keys 10 .. 50.  `search(10)`
returns 0.  `search(30)` unpacks the records 10, 20, 30 from the root in memory, the node
`findLeafNode` returned, and leaves the root with two records; `search(10)` after it returns
-1.  The file is as it was. -/
theorem C38_search_unpacks_leaf_root :
    addRecords env empty (records '\n' [10, 20, 30, 40, 50]) = .ok tree5 ∧
    (do let (alone, _) ← lookup env tree5 10
        let (_, _, t) ← tree5.search env {} 30
        let (after, _) ← lookup env t 10
        let left ← t.root.contents
        pure (alone, after, left.map recordKey, decide (t.root = tree5.root),
          decide (t.file.data = tree5.file.data)))
      = .ok (0, -1, [40, 50], false, true) :=
  ⟨addRecords_five, by decide!⟩

/-- C40 (the code breaks it).  The receiver has the keys 10, 20 and the children 2, 3, 4,
the other node the keys 30, 40 and the children 5, 6, 7.  `merge` returns 0; the receiver
then has the keys 10, 20, 30, 40, 5, 6, 7 and its children are still 2, 3, 4: the children
of the other node were pushed onto the keys. -/
theorem C40_merge_pushes_children_onto_keys :
    ((indexRoot [10, 20] [2, 3, 4]).merge (indexRoot [30, 40] [5, 6, 7])).map
        (fun x => (x.1, x.2.1.keys, x.2.1.children))
      = .ok (0, [10, 20, 30, 40, 5, 6, 7], [2, 3, 4]) := by
  decide

end Scenario

end BTree
